import Mathlib

/-!
A verification development for the generic finite-state-machine runtime

Shallow embedding of the Go sources of the repository.

* Go maps are association lists with distinct keys (`GoMap`); ranging over a
  map visits the entries in list order, which stands for one of the orders the
  Go runtime may pick.
* A Go function value that may be nil is an `Option`; a value of interface type
  `error` is a `GoError`, with `GoError.nil` for nil.
* A callback `func(*FSM_IMPL, *Event)` is a function that receives the payload
  and the Event record and returns both as it left them. It may write any field
  of the record; "the callback calls `Cancel`" is read off the record it returns
  (the `canceled` flag is set).
* `Instance.Event` threads a `Run` through the pipeline: the instance, the
  Event record `*e`, and a ghost list of the callback invocations made so far
  (`Call`: the slot the callback was read from, what it received, what it left).
* An instance carries its definition by value: registrations made after the
  instance was created are outside the model. The mutexes are left out: the
  model is sequential.
* The visualizer (`visualizer*.go`) takes what it needs from the Go runtime as a
  `Runtime`: the printed form of states and events, and the order in which
  `range` visits the local map of `getSortedStates`. Go's `<` on strings is
  `stringLess`; `sort.Slice` is `sortSlice`.
* The legacy adapter (`legacy/fsm.go`) has string states and events; a legacy
  callback `func(*Event)` is a function on the record, and the body of the loop
  over the callbacks map is `legacy.translate`.

Layout: the definitions translated from the source, the proof-side definitions
and the example machines come first; then the lemmas; then one theorem per claim.
-/

set_option linter.dupNamespace false
set_option linter.unusedSectionVars false

namespace Fsm

/-! ## Go maps -/

/-- A Go `map[K]V`: the entries, one per key. -/
structure GoMap (K V : Type) where
  entries : List (K × V)

namespace GoMap

variable {K V : Type}

/-- The result of `make(map[K]V)`. -/
def empty : GoMap K V := ⟨[]⟩

/-- The two-valued read `v, ok := m[k]`: `none` stands for `ok == false`. -/
def lookup [DecidableEq K] (m : GoMap K V) (k : K) : Option V :=
  (m.entries.find? (fun p => decide (p.1 = k))).map Prod.snd

/-- The one-valued read `m[k]`, which yields the zero value of `V` for a missing key. -/
def index [DecidableEq K] [Inhabited V] (m : GoMap K V) (k : K) : V :=
  (m.lookup k).getD default

/-- The assignment `m[k] = v`: overwrites the entry of `k`, or adds one. -/
def store [DecidableEq K] (m : GoMap K V) (k : K) (v : V) : GoMap K V :=
  if m.entries.any (fun p => decide (p.1 = k)) then
    ⟨m.entries.map (fun p => if p.1 = k then (k, v) else p)⟩
  else
    ⟨m.entries ++ [(k, v)]⟩

/-- The keys in iteration order. -/
def keys (m : GoMap K V) : List K := m.entries.map Prod.fst

end GoMap

/-! ## Errors -/

/-- Modelled from the spec: the error types of `errors.go`, which is not among the
source files; the constructors follow the composite literals used in
`fsm_instance.go` (`InvalidEventError{event, f.current}`, `UnknownEventError{event}`,
`NoTransitionError{e.Err}`, `CanceledError{e.Err}`) and section 7 of the spec.
A term of this type is a Go value of interface type `error`: `nil`, one of the four
library errors, or an error `custom x` made by the caller. -/
inductive GoError (S E X : Type) where
  | nil : GoError S E X
  | custom (x : X) : GoError S E X
  | InvalidEventError (event : E) (state : S) : GoError S E X
  | UnknownEventError (event : E) : GoError S E X
  | NoTransitionError (err : GoError S E X) : GoError S E X
  | CanceledError (err : GoError S E X) : GoError S E X
  deriving DecidableEq

/-! ## event.go -/

/-- Event is the info that get passed as a reference in the callbacks. -/
structure Event (S E A X : Type) where
  Event : E
  Src : S
  Dst : S
  Err : GoError S E X
  Args : List A
  canceled : Bool
  deriving DecidableEq

/-- The method `Cancel(err ...error)`: sets the flag and, when an error is given,
overwrites `Err` with the first one. -/
def Event.Cancel {S E A X : Type} (e : Fsm.Event S E A X) (err : List (GoError S E X)) :
    Fsm.Event S E A X :=
  let e1 := { e with canceled := true }
  if h : err.length > 0 then { e1 with Err := err.get ⟨0, h⟩ } else e1

/-! ## fsm.go -/

/-- The key of the transition map. -/
structure eKey (S E : Type) where
  event : E
  src : S
  deriving DecidableEq

/-- EventDesc represents an event when initializing the FSM. -/
structure EventDesc (S E : Type) where
  Name : E
  Src : List S
  Dst : S

/-- The function type of callbacks: the payload and the record go in by reference,
so the callback returns what it left in them. -/
abbrev Callback (S E I A X : Type) := I → Event S E A X → I × Event S E A X

/-- The pair of callbacks of a state; `none` is a nil function value. -/
structure stateCallbackFunc (S E I A X : Type) where
  enter : Option (Callback S E I A X)
  leave : Option (Callback S E I A X)

/-- The pair of callbacks of an event; `none` is a nil function value. -/
structure eventCallbackFunc (S E I A X : Type) where
  before : Option (Callback S E I A X)
  after : Option (Callback S E I A X)

instance {S E I A X : Type} : Inhabited (stateCallbackFunc S E I A X) := ⟨⟨none, none⟩⟩

instance {S E I A X : Type} : Inhabited (eventCallbackFunc S E I A X) := ⟨⟨none, none⟩⟩

/-- FSM is the state machine model that holds the transitions and callbacks. -/
structure FSM (S E I A X : Type) where
  initial : S
  fsmImplConstructor : Option (Unit → I)
  transitions : GoMap (eKey S E) S
  stateCallbackFunc : GoMap S (Fsm.stateCallbackFunc S E I A X)
  eventCallbackFunc : GoMap E (Fsm.eventCallbackFunc S E I A X)
  allStateCallbackFunc : Fsm.stateCallbackFunc S E I A X
  allEventCallbackFunc : Fsm.eventCallbackFunc S E I A X

section Definition

variable {S E I A X : Type} [DecidableEq S] [DecidableEq E]

/-- The method `AddTransition`: one store per source state. -/
def FSM.AddTransition (f : FSM S E I A X) (name : E) (src : List S) (dst : S) :
    FSM S E I A X :=
  { f with transitions := src.foldl (fun t s => t.store ⟨name, s⟩ dst) f.transitions }

/-- NewFSM constructs an FSM model from events. -/
def NewFSM (initial : S) (events : List (EventDesc S E)) : FSM S E I A X :=
  { initial := initial
    fsmImplConstructor := none
    transitions :=
      events.foldl (fun t e => e.Src.foldl (fun t src => t.store ⟨e.Name, src⟩ e.Dst) t)
        GoMap.empty
    stateCallbackFunc := GoMap.empty
    eventCallbackFunc := GoMap.empty
    allStateCallbackFunc := ⟨none, none⟩
    allEventCallbackFunc := ⟨none, none⟩ }

def FSM.OnEnter (f : FSM S E I A X) (s : S) (cb : Option (Callback S E I A X)) :
    FSM S E I A X :=
  let callbackFunc := f.stateCallbackFunc.index s
  { f with stateCallbackFunc := f.stateCallbackFunc.store s { callbackFunc with enter := cb } }

def FSM.OnLeave (f : FSM S E I A X) (s : S) (cb : Option (Callback S E I A X)) :
    FSM S E I A X :=
  let callbackFunc := f.stateCallbackFunc.index s
  { f with stateCallbackFunc := f.stateCallbackFunc.store s { callbackFunc with leave := cb } }

def FSM.Before (f : FSM S E I A X) (e : E) (cb : Option (Callback S E I A X)) :
    FSM S E I A X :=
  let callbackFunc := f.eventCallbackFunc.index e
  { f with eventCallbackFunc := f.eventCallbackFunc.store e { callbackFunc with before := cb } }

def FSM.After (f : FSM S E I A X) (e : E) (cb : Option (Callback S E I A X)) :
    FSM S E I A X :=
  let callbackFunc := f.eventCallbackFunc.index e
  { f with eventCallbackFunc := f.eventCallbackFunc.store e { callbackFunc with after := cb } }

def FSM.OnEnterAny (f : FSM S E I A X) (cb : Option (Callback S E I A X)) : FSM S E I A X :=
  { f with allStateCallbackFunc := { f.allStateCallbackFunc with enter := cb } }

def FSM.OnLeaveAny (f : FSM S E I A X) (cb : Option (Callback S E I A X)) : FSM S E I A X :=
  { f with allStateCallbackFunc := { f.allStateCallbackFunc with leave := cb } }

def FSM.BeforeAny (f : FSM S E I A X) (cb : Option (Callback S E I A X)) : FSM S E I A X :=
  { f with allEventCallbackFunc := { f.allEventCallbackFunc with before := cb } }

def FSM.AfterAny (f : FSM S E I A X) (cb : Option (Callback S E I A X)) : FSM S E I A X :=
  { f with allEventCallbackFunc := { f.allEventCallbackFunc with after := cb } }

def FSM.SetFsmImplConstructor (f : FSM S E I A X) (fsmImplConstructor : Option (Unit → I)) :
    FSM S E I A X :=
  { f with fsmImplConstructor := fsmImplConstructor }

/-- Can returns true if event can occur in the current state. -/
def FSM.Can (f : FSM S E I A X) (current : S) (event : E) : Bool :=
  (f.transitions.lookup ⟨event, current⟩).isSome

/-- AvailableTransitions returns a list of transitions available in the current state. -/
def FSM.AvailableTransitions (f : FSM S E I A X) (current : S) : List E :=
  f.transitions.keys.foldl
    (fun transitions key => if key.src = current then transitions ++ [key.event] else transitions)
    []

end Definition

/-! ## fsm_instance.go -/

/-- One live state machine: the shared definition, the payload and the current state. -/
structure Instance (S E I A X : Type) where
  FSM : FSM S E I A X
  Self : I
  current : S

/-- The place a callback is registered in: a per-event or per-state slot, or a catch-all. -/
inductive Slot (S E : Type) where
  | Before (e : E) : Slot S E
  | BeforeAny : Slot S E
  | OnLeave (s : S) : Slot S E
  | OnLeaveAny : Slot S E
  | OnEnter (s : S) : Slot S E
  | OnEnterAny : Slot S E
  | After (e : E) : Slot S E
  | AfterAny : Slot S E
  deriving DecidableEq

/-- Ghost record of one invocation `fn(f.Self, e)`: the slot `fn` was read from, the
payload and record it received, and the payload and record it left behind. -/
structure Call (S E I A X : Type) where
  slot : Slot S E
  selfIn : I
  eIn : Event S E A X
  selfOut : I
  eOut : Event S E A X
  deriving DecidableEq

/-- The state of one `Event` attempt: the instance, the record `*e`, and the ghost list
of the invocations made so far. -/
structure Run (S E I A X : Type) where
  inst : Instance S E I A X
  e : Event S E A X
  calls : List (Call S E I A X)

/-- What a call of `Instance.Event` leaves: the returned error, the instance afterwards,
and the ghost list of the invocations it made. -/
structure Outcome (S E I A X : Type) where
  err : GoError S E X
  inst : Instance S E I A X
  calls : List (Call S E I A X)

section InstanceOps

variable {S E I A X : Type} [DecidableEq S] [DecidableEq E]

/-- The callback registered in a slot, read the way the pipeline reads it. -/
def FSM.callback (f : FSM S E I A X) : Slot S E → Option (Callback S E I A X)
  | .Before e => (f.eventCallbackFunc.index e).before
  | .BeforeAny => f.allEventCallbackFunc.before
  | .OnLeave s => (f.stateCallbackFunc.index s).leave
  | .OnLeaveAny => f.allStateCallbackFunc.leave
  | .OnEnter s => (f.stateCallbackFunc.index s).enter
  | .OnEnterAny => f.allStateCallbackFunc.enter
  | .After e => (f.eventCallbackFunc.index e).after
  | .AfterAny => f.allEventCallbackFunc.after

/-- The statement `fn(f.Self, e)`, with `fn` read from `slot`. -/
def Run.invoke (r : Run S E I A X) (slot : Slot S E) (fn : Callback S E I A X) :
    Run S E I A X :=
  let out := fn r.inst.Self r.e
  { inst := { r.inst with Self := out.1 }
    e := out.2
    calls := r.calls ++ [⟨slot, r.inst.Self, r.e, out.1, out.2⟩] }

def FSM.NewInstance [Inhabited I] (f : FSM S E I A X) : Instance S E I A X :=
  let impl : I :=
    match f.fsmImplConstructor with
    | some ctor => ctor ()
    | none => default
  { FSM := f, Self := impl, current := f.initial }

def FSM.NewInstanceWithImpl (f : FSM S E I A X) (impl : I) : Instance S E I A X :=
  { FSM := f, Self := impl, current := f.initial }

/-- Current returns the current state of the FSM. -/
def Instance.Current (f : Instance S E I A X) : S := f.current

/-- Is returns true if state is the current state. -/
def Instance.Is (f : Instance S E I A X) (state : S) : Bool := decide (state = f.current)

/-- SetState allows the user to move to the given state from current state. -/
def Instance.SetState (f : Instance S E I A X) (state : S) : Instance S E I A X :=
  { f with current := state }

/-- Can returns true if event can occur in the current state. -/
def Instance.Can (f : Instance S E I A X) (event : E) : Bool := f.FSM.Can f.current event

def Instance.AvailableTransitions (f : Instance S E I A X) : List E :=
  f.FSM.AvailableTransitions f.current

/-- Cannot returns true if event can not occur in the current state. -/
def Instance.Cannot (f : Instance S E I A X) (event : E) : Bool := !f.Can event

/-- The second half of `beforeEventCallbacks`: the general version. -/
def beforeAnyCallback (r : Run S E I A X) : Run S E I A X × GoError S E X :=
  match r.inst.FSM.allEventCallbackFunc.before with
  | some fn =>
    let r1 := r.invoke .BeforeAny fn
    if r1.e.canceled then (r1, .CanceledError r1.e.Err) else (r1, .nil)
  | none => (r, .nil)

/-- beforeEventCallbacks calls the before_ callbacks, first the named then the general
version. -/
def beforeEventCallbacks (r : Run S E I A X) : Run S E I A X × GoError S E X :=
  match (r.inst.FSM.eventCallbackFunc.index r.e.Event).before with
  | some fn =>
    let r1 := r.invoke (.Before r.e.Event) fn
    if r1.e.canceled then (r1, .CanceledError r1.e.Err) else beforeAnyCallback r1
  | none => beforeAnyCallback r

/-- The second half of `leaveStateCallbacks`: the general version. -/
def leaveAnyCallback (r : Run S E I A X) : Run S E I A X × GoError S E X :=
  match r.inst.FSM.allStateCallbackFunc.leave with
  | some fn =>
    let r1 := r.invoke .OnLeaveAny fn
    if r1.e.canceled then (r1, .CanceledError r1.e.Err) else (r1, .nil)
  | none => (r, .nil)

/-- leaveStateCallbacks calls the leave_ callbacks, first the named then the general
version. -/
def leaveStateCallbacks (r : Run S E I A X) : Run S E I A X × GoError S E X :=
  match (r.inst.FSM.stateCallbackFunc.index r.inst.current).leave with
  | some fn =>
    let r1 := r.invoke (.OnLeave r.inst.current) fn
    if r1.e.canceled then (r1, .CanceledError r1.e.Err) else leaveAnyCallback r1
  | none => leaveAnyCallback r

/-- enterStateCallbacks calls the enter_ callbacks, first the named then the general
version. -/
def enterStateCallbacks (r : Run S E I A X) : Run S E I A X :=
  let r1 :=
    match (r.inst.FSM.stateCallbackFunc.index r.inst.current).enter with
    | some fn => r.invoke (.OnEnter r.inst.current) fn
    | none => r
  match r1.inst.FSM.allStateCallbackFunc.enter with
  | some fn => r1.invoke .OnEnterAny fn
  | none => r1

/-- afterEventCallbacks calls the after_ callbacks, first the named then the general
version. -/
def afterEventCallbacks (r : Run S E I A X) : Run S E I A X :=
  let r1 :=
    match (r.inst.FSM.eventCallbackFunc.index r.e.Event).after with
    | some fn => r.invoke (.After r.e.Event) fn
    | none => r
  match r1.inst.FSM.allEventCallbackFunc.after with
  | some fn => r1.invoke .AfterAny fn
  | none => r1

/-- Event initiates a state transition with the named event. -/
def Instance.Event (f : Instance S E I A X) (event : E) (args : List A) : Outcome S E I A X :=
  match f.FSM.transitions.lookup ⟨event, f.current⟩ with
  | none =>
    if f.FSM.transitions.keys.any (fun ekey => decide (ekey.event = event)) then
      ⟨.InvalidEventError event f.current, f, []⟩
    else
      ⟨.UnknownEventError event, f, []⟩
  | some dst =>
    let e : Fsm.Event S E A X := ⟨event, f.current, dst, .nil, args, false⟩
    match beforeEventCallbacks ⟨f, e, []⟩ with
    | (r1, .nil) =>
      if r1.inst.current = dst then
        let r2 := afterEventCallbacks r1
        ⟨.NoTransitionError r2.e.Err, r2.inst, r2.calls⟩
      else
        match leaveStateCallbacks r1 with
        | (r2, .nil) =>
          let r3 : Run S E I A X := { r2 with inst := { r2.inst with current := dst } }
          let r4 := enterStateCallbacks r3
          let r5 := afterEventCallbacks r4
          ⟨r5.e.Err, r5.inst, r5.calls⟩
        | (r2, err) => ⟨err, r2.inst, r2.calls⟩
    | (r1, err) => ⟨err, r1.inst, r1.calls⟩

end InstanceOps

/-! ## Proof-side view of the pipeline

Every callback of the pipeline is read through `FSM.callback` from a slot, so one
pipeline position is `Run.step`: invoke the callback of the slot if there is one. -/

section Pipeline

variable {S E I A X : Type} [DecidableEq S] [DecidableEq E]

/-- One pipeline position: the callback registered in `slot`, if any, is invoked. -/
def Run.step (r : Run S E I A X) (slot : Slot S E) : Run S E I A X :=
  match r.inst.FSM.callback slot with
  | some fn => r.invoke slot fn
  | none => r

/-- The value `Event` returns when a before or leave callback has cancelled. -/
def Run.cancelled (r : Run S E I A X) : Outcome S E I A X :=
  ⟨.CanceledError r.e.Err, r.inst, r.calls⟩

/-- The record `Event` builds once the lookup has found `dst`. -/
def Instance.record (f : Instance S E I A X) (event : E) (args : List A) (dst : S) :
    Fsm.Event S E A X :=
  ⟨event, f.current, dst, .nil, args, false⟩

/-- The run after the before phase when no before callback cancels. -/
def Instance.afterBefore (f : Instance S E I A X) (event : E) (args : List A) (dst : S) :
    Run S E I A X :=
  ((Run.mk f (f.record event args dst) []).step (.Before event)).step .BeforeAny

/-- The run after the leave phase when no before or leave callback cancels. -/
def Instance.afterLeave (f : Instance S E I A X) (event : E) (args : List A) (dst : S) :
    Run S E I A X :=
  ((f.afterBefore event args dst).step (.OnLeave f.current)).step .OnLeaveAny

/-- The commit `f.current = dst`. -/
def Run.commit (r : Run S E I A X) (dst : S) : Run S E I A X :=
  { r with inst := { r.inst with current := dst } }

/-- The run after the enter phase of a committed transition. -/
def Instance.afterEnter (f : Instance S E I A X) (event : E) (args : List A) (dst : S) :
    Run S E I A X :=
  (((f.afterLeave event args dst).commit dst).step (.OnEnter dst)).step .OnEnterAny

/-- The after phase: the event slot is the one named by the record's `Event` field. -/
def Run.afterPhase (r : Run S E I A X) : Run S E I A X :=
  (r.step (.After r.e.Event)).step .AfterAny

/-- The attempt of `Instance.Event` once the lookup has found `dst`, position by position. -/
def Instance.pipeline (f : Instance S E I A X) (event : E) (args : List A) (dst : S) :
    Outcome S E I A X :=
  let r0 : Run S E I A X := ⟨f, f.record event args dst, []⟩
  if (r0.step (.Before event)).e.canceled then (r0.step (.Before event)).cancelled
  else if (f.afterBefore event args dst).e.canceled then (f.afterBefore event args dst).cancelled
  else if f.current = dst then
    let r := (f.afterBefore event args dst).afterPhase
    ⟨.NoTransitionError r.e.Err, r.inst, r.calls⟩
  else if ((f.afterBefore event args dst).step (.OnLeave f.current)).e.canceled then
    ((f.afterBefore event args dst).step (.OnLeave f.current)).cancelled
  else if (f.afterLeave event args dst).e.canceled then (f.afterLeave event args dst).cancelled
  else
    let r := (f.afterEnter event args dst).afterPhase
    ⟨r.e.Err, r.inst, r.calls⟩

/-- Whether a slot holds a callback. -/
def FSM.registered (f : FSM S E I A X) (slot : Slot S E) : Bool :=
  (f.callback slot).isSome

/-- The ghost record of the invocation `r.step slot` makes when `slot` holds a callback. -/
def Run.callAt (r : Run S E I A X) (slot : Slot S E) : Call S E I A X :=
  ⟨slot, r.inst.Self, r.e, (r.step slot).inst.Self, (r.step slot).e⟩

/-- The eight pipeline positions of the transition of `event` from `src` to `dst`. -/
def pipelineSlots (event : E) (src dst : S) : List (Slot S E) :=
  [.Before event, .BeforeAny, .OnLeave src, .OnLeaveAny,
    .OnEnter dst, .OnEnterAny, .After event, .AfterAny]

end Pipeline

/-! ## Reading the ghost list of calls -/

section Trace

variable {S E I A X : Type} [DecidableEq S] [DecidableEq E]

/-- The calls hand the payload and the record on by reference: the first call receives
`p` and `e`, and every later call receives what its predecessor left. -/
def Linked (p : I) (e : Event S E A X) : List (Call S E I A X) → Prop
  | [] => True
  | c :: cs => c.selfIn = p ∧ c.eIn = e ∧ Linked c.selfOut c.eOut cs

/-- The payload and the record as the last call left them (`p` and `e` when there is no
call). -/
def endOf (p : I) (e : Event S E A X) : List (Call S E I A X) → I × Event S E A X
  | [] => (p, e)
  | c :: cs => endOf c.selfOut c.eOut cs

/-- The call is an invocation of the callback registered in its slot. -/
def Call.runs (F : FSM S E I A X) (c : Call S E I A X) : Prop :=
  ∃ fn, F.callback c.slot = some fn ∧ fn c.selfIn c.eIn = (c.selfOut, c.eOut)

/-- The bookkeeping invariant of an attempt started on `f` with record `e0`. -/
def Run.Traced (f : Instance S E I A X) (e0 : Event S E A X) (r : Run S E I A X) : Prop :=
  r.inst.FSM = f.FSM ∧ Linked f.Self e0 r.calls ∧ endOf f.Self e0 r.calls = (r.inst.Self, r.e)
    ∧ ∀ c ∈ r.calls, c.runs f.FSM

end Trace

/-! ## Example machines -/

section Examples

/-- An instrumented callback: appends its tag to the payload, leaves the record alone. -/
def note (tag : String) : Callback String String (List String) String String :=
  fun p ev => (p ++ [tag], ev)

/-- The door of `examples/simple.go` with an instrumented callback in each of the eight
slots of the transition `open: closed → open`. -/
def door : FSM String String (List String) String String :=
  ((((((((NewFSM "closed"
      [⟨"open", ["closed"], "open"⟩, ⟨"close", ["open"], "closed"⟩]).Before "open"
      (some (note "before_open"))).BeforeAny (some (note "before_event"))).OnLeave "closed"
      (some (note "leave_closed"))).OnLeaveAny (some (note "leave_state"))).OnEnter "open"
      (some (note "enter_open"))).OnEnterAny (some (note "enter_state"))).After "open"
      (some (note "after_open"))).AfterAny (some (note "after_event"))

/-- A callback that cancels without attaching an error. -/
def veto : Callback String String (List String) String String :=
  fun p ev => (p, ev.Cancel [])

/-- A callback that cancels with the error `locked`. -/
def lock : Callback String String (List String) String String :=
  fun p ev => (p ++ ["lock"], ev.Cancel [.custom "locked"])

/-- A callback that writes another event name into the record's `Event` field. -/
def rename (name : String) : Callback String String (List String) String String :=
  fun p ev => (p, { ev with Event := name })

/-- A callback that attaches an error without cancelling. -/
def complain (msg : String) : Callback String String (List String) String String :=
  fun p ev => (p ++ [msg], { ev with Err := .custom msg })

/-- The door of `examples/simple.go` whose leave callback cancels. -/
def lockedDoor : FSM String String (List String) String String :=
  ((NewFSM "closed"
      [⟨"open", ["closed"], "open"⟩, ⟨"close", ["open"], "closed"⟩]).OnLeave "closed"
      (some lock)).AfterAny (some (note "after_event"))

/-- The machine of `examples/data.go`: two self-transitions on `idle`. -/
def producer : FSM String String (List String) String String :=
  NewFSM "idle" [⟨"produce", ["idle"], "idle"⟩, ⟨"consume", ["idle"], "idle"⟩]

/-- The machine of `examples/data.go` with a before callback that cancels. -/
def vetoedProducer : FSM String String (List String) String String :=
  producer.Before "produce" (some veto)

/-- The machine of `examples/data.go` with after callbacks on both events, one of which
attaches an error and cancels. -/
def notedProducer : FSM String String (List String) String String :=
  (((producer.BeforeAny (some (note "before_event"))).After "produce" (some lock)).After
      "consume" (some (note "after_consume"))).AfterAny (some (note "after_event"))

/-- The machine of `examples/data.go` with after callbacks on both events and a before
callback that writes `consume` into the record of a `produce` attempt. -/
def renamingProducer : FSM String String (List String) String String :=
  ((producer.Before "produce" (some (rename "consume"))).After "produce"
      (some (note "after_produce"))).After "consume" (some (note "after_consume"))

/-- The door with a catch-all before callback that writes `close` into the record, an
enter callback that cancels, and an after callback on `open`. -/
def renamingDoor : FSM String String (List String) String String :=
  (((NewFSM "closed"
      [⟨"open", ["closed"], "open"⟩, ⟨"close", ["open"], "closed"⟩]).BeforeAny
      (some (rename "close"))).OnEnterAny (some veto)).After "open" (some (note "after_open"))

/-- The door with callbacks that attach errors before and after the commit, and enter and
after callbacks that cancel. -/
def noisyDoor : FSM String String (List String) String String :=
  ((((NewFSM "closed"
      [⟨"open", ["closed"], "open"⟩, ⟨"close", ["open"], "closed"⟩]).Before "open"
      (some (complain "creak"))).OnEnter "open" (some lock)).OnEnterAny
      (some (note "enter_state"))).AfterAny (some veto)

/-- The door with a before callback that attaches an error without cancelling. -/
def creakyDoor : FSM String String (List String) String String :=
  (((NewFSM "closed"
      [⟨"open", ["closed"], "open"⟩, ⟨"close", ["open"], "closed"⟩]).Before "open"
      (some (complain "creak"))).OnEnterAny (some (note "enter_state"))).AfterAny
      (some (note "after_event"))

end Examples

/-! ## visualizer.go, visualizer_graphviz.go, visualizer_mermaid.go -/

section Visualizer

variable {S E I A X : Type} [DecidableEq S] [DecidableEq E]

/-- What the Go runtime contributes to the visualizer for the state and event types:
the printed form of a value (`fmt.Sprint`, which is also the verb `%v`), the text the verb
`%s` gives for it, and the order in which a `range` loop visits the keys of the local
map of states (given here in insertion order). -/
structure Runtime (S E : Type) where
  sprintS : S → String
  sprintE : E → String
  verbS : S → String
  verbE : E → String
  rangeStates : List S → List S

/-- The runtime for string states and events: a string prints as itself; the `range` loop
is taken to visit the keys in insertion order. -/
def Runtime.strings : Runtime String String :=
  ⟨id, id, id, id, id⟩

/-- Go's `<` on the characters of two strings: the first position where they differ
decides, and a proper prefix is smaller (Go compares the UTF-8 bytes, which orders strings
as their code points do). -/
def lessChars : List Char → List Char → Bool
  | _, [] => false
  | [], _ :: _ => true
  | a :: as, b :: bs =>
    if a.toNat < b.toNat then true
    else if b.toNat < a.toNat then false
    else lessChars as bs

/-- Go's `a < b` on strings. -/
def stringLess (a b : String) : Bool := lessChars a.data b.data

/-- One insertion step of `sort.Slice` on a short slice: `x` moves left past every element
it is less than. The sorted part is given last element first. -/
def insertLess {α : Type} (less : α → α → Bool) (x : α) : List α → List α
  | [] => [x]
  | y :: ys => if less x y then y :: insertLess less x ys else x :: y :: ys

/-- The standard library's `sort.Slice(x, less)`, which on a short slice is insertion sort:
each element in turn is moved left while it is less than its left neighbour. The lemmas
use of it that the result is a permutation of the slice, ordered when `less` compares by a
key; `sortSlice_unique` shows that every sorted permutation is this one when the key is
injective on the slice, so nothing depends on the sorting algorithm there. -/
def sortSlice {α : Type} (less : α → α → Bool) (x : List α) : List α :=
  (x.foldl (fun sorted a => insertLess less a sorted) []).reverse

/-- The comparison `getSortedTransitionKeys` hands to `sort.Slice`. -/
def lessTransitionKey (R : Runtime S E) (ki kj : eKey S E) : Bool :=
  if ki.src = kj.src then stringLess (R.sprintE ki.event) (R.sprintE kj.event)
  else stringLess (R.sprintS ki.src) (R.sprintS kj.src)

/-- The keys of the table, sorted by source and then by event. -/
def FSM.getSortedTransitionKeys (R : Runtime S E) (f : FSM S E I A X) : List (eKey S E) :=
  let sortedTransitionKeys := f.transitions.keys.foldl (fun keys transition => keys ++ [transition]) []
  sortSlice (lessTransitionKey R) sortedTransitionKeys

/-- The first loop of `getSortedStates`: every source and every target gets an entry. -/
def FSM.collectStates (f : FSM S E I A X) : GoMap S String :=
  f.transitions.entries.foldl
    (fun statesToIDMap entry =>
      let m1 :=
        if (statesToIDMap.lookup entry.1.src).isSome then statesToIDMap
        else statesToIDMap.store entry.1.src ""
      if (m1.lookup entry.2).isSome then m1 else m1.store entry.2 "")
    GoMap.empty

/-- The states of the table sorted by printed form, and the map from state to id. -/
def FSM.getSortedStates (R : Runtime S E) (f : FSM S E I A X) : List S × GoMap S String :=
  let statesToIDMap := f.collectStates
  let sortedStates := (R.rangeStates statesToIDMap.keys).foldl (fun states state => states ++ [state]) []
  let sortedStates := sortSlice (fun si sj => stringLess (R.sprintS si) (R.sprintS sj)) sortedStates
  let statesToIDMap :=
    sortedStates.enum.foldl (fun m p => m.store p.2 ("id" ++ Nat.repr p.1)) statesToIDMap
  (sortedStates, statesToIDMap)

/-- VisualizeType the type of the visualization. -/
abbrev VisualizeType := String

def GRAPHVIZ : VisualizeType := "graphviz"

def MERMAID : VisualizeType := "mermaid"

def MermaidStateDiagram : VisualizeType := "mermaid-state-diagram"

def MermaidFlowChart : VisualizeType := "mermaid-flow-chart"

/-- MermaidDiagramType the type of the mermaid diagram type. -/
abbrev MermaidDiagramType := String

def FlowChart : MermaidDiagramType := "flowChart"

def StateDiagram : MermaidDiagramType := "stateDiagram"

def highlightingColor : String := "#00AA00"

/-- One transition line of the Graphviz output. -/
def graphvizLine [Inhabited S] (R : Runtime S E) (f : FSM S E I A X) (k : eKey S E) : String :=
  let v := f.transitions.index k
  "    \"" ++ R.sprintS k.src ++ "\" -> \"" ++ R.sprintS v ++ "\" [ label = \""
    ++ R.sprintE k.event ++ "\" ];"

/-- Visualize outputs a visualization of a FSM in Graphviz format. -/
def FSM.Visualize [Inhabited S] (R : Runtime S E) (f : FSM S E I A X) (current : S) : String :=
  let sortedEKeys := f.getSortedTransitionKeys R
  let sortedStateKeys := (f.getSortedStates R).1
  let buf := "digraph fsm \x7b" ++ "\n"
  let buf := sortedEKeys.foldl
    (fun buf k => if k.src = current then buf ++ graphvizLine R f k ++ "\n" else buf) buf
  let buf := sortedEKeys.foldl
    (fun buf k => if k.src ≠ current then buf ++ graphvizLine R f k ++ "\n" else buf) buf
  let buf := buf ++ "\n"
  let buf := sortedStateKeys.foldl
    (fun buf k => buf ++ ("    \"" ++ R.sprintS k ++ "\";") ++ "\n") buf
  buf ++ "\x7d\n"

def FSM.visualizeForMermaidAsStateDiagram [Inhabited S] (R : Runtime S E) (f : FSM S E I A X)
    (current : S) : String :=
  let sortedTransitionKeys := f.getSortedTransitionKeys R
  let buf := "stateDiagram-v2\n"
  let buf := buf ++ ("    [*] -->" ++ " " ++ R.sprintS current ++ "\n")
  sortedTransitionKeys.foldl
    (fun buf k =>
      let v := f.transitions.index k
      buf ++ ("    " ++ R.verbS k.src ++ " --> " ++ R.verbS v ++ ": " ++ R.verbE k.event)
        ++ "\n")
    buf

/-- visualizeForMermaidAsFlowChart outputs a visualization of a FSM in Mermaid format
(including highlighting of current state). -/
def FSM.visualizeForMermaidAsFlowChart [Inhabited S] (R : Runtime S E) (f : FSM S E I A X)
    (current : S) : String :=
  let sortedTransitionKeys := f.getSortedTransitionKeys R
  let sortedStates := (f.getSortedStates R).1
  let statesToIDMap := (f.getSortedStates R).2
  let buf := "graph LR\n"
  let buf := sortedStates.foldl
    (fun buf state =>
      buf ++ ("    " ++ statesToIDMap.index state ++ "[" ++ R.sprintS state ++ "]") ++ "\n")
    buf
  let buf := buf ++ "\n"
  let buf := sortedTransitionKeys.foldl
    (fun buf transition =>
      let target := f.transitions.index transition
      buf ++ ("    " ++ statesToIDMap.index transition.src ++ " --> |"
        ++ R.sprintE transition.event ++ "| " ++ statesToIDMap.index target) ++ "\n")
    buf
  let buf := buf ++ "\n"
  let buf := buf ++ ("    style " ++ statesToIDMap.index current ++ " fill:" ++ highlightingColor)
  buf ++ "\n"

/-- VisualizeForMermaidWithGraphType outputs a visualization of a FSM in Mermaid format as
specified by the graphType. The second component is the error: `none` is nil, `some msg`
the error `fmt.Errorf` makes with that message. -/
def FSM.VisualizeForMermaidWithGraphType [Inhabited S] (R : Runtime S E) (f : FSM S E I A X)
    (graphType : MermaidDiagramType) (current : S) : String × Option String :=
  if graphType = FlowChart then (f.visualizeForMermaidAsFlowChart R current, none)
  else if graphType = StateDiagram then (f.visualizeForMermaidAsStateDiagram R current, none)
  else ("", some ("unknown MermaidDiagramType: " ++ graphType))

/-- VisualizeWithType outputs a visualization of a FSM in the desired format. -/
def FSM.VisualizeWithType [Inhabited S] (R : Runtime S E) (f : FSM S E I A X)
    (visualizeType : VisualizeType) (current : S) : String × Option String :=
  if visualizeType = GRAPHVIZ then (f.Visualize R current, none)
  else if visualizeType = MERMAID ∨ visualizeType = MermaidStateDiagram then
    f.VisualizeForMermaidWithGraphType R StateDiagram current
  else if visualizeType = MermaidFlowChart then
    f.VisualizeForMermaidWithGraphType R FlowChart current
  else ("", some ("unknown VisualizeType: " ++ visualizeType))

def Instance.VisualizeWithType [Inhabited S] (R : Runtime S E) (fsm : Instance S E I A X)
    (visualizeType : VisualizeType) : String × Option String :=
  fsm.FSM.VisualizeWithType R visualizeType fsm.Current

end Visualizer

/-! ## Example types for the visualizer -/

section VisualizerExamples

/-- A state type whose printed form is a coarse label: `red` and `amber` both print as
`stop` (a `String()` method that does not tell the two apart). -/
inductive Light where
  | red : Light
  | amber : Light
  | green : Light
  deriving DecidableEq

/-- The `String()` method of `Light`. -/
def Light.String : Light → String
  | .red => "stop"
  | .amber => "stop"
  | .green => "go"

/-- The runtime for `Light` states and string events. -/
def Runtime.lights : Runtime Light String :=
  ⟨Light.String, id, Light.String, id, id⟩

/-- A signal with three transitions, declared in one order. -/
def signalA : FSM Light String (List String) String String :=
  NewFSM .red
    [⟨"wait", [.red], .green⟩, ⟨"go", [.amber], .green⟩, ⟨"go", [.red], .green⟩]

/-- The same three transitions, declared in another order: the same table, visited in
another order by `range`. -/
def signalB : FSM Light String (List String) String String :=
  NewFSM .red
    [⟨"go", [.red], .green⟩, ⟨"wait", [.red], .green⟩, ⟨"go", [.amber], .green⟩]

end VisualizerExamples

/-! ## legacy/fsm.go -/

namespace legacy

section Legacy

variable {V X : Type}

/-- The standard library's `strings.HasPrefix`, on the characters of the two strings. -/
def HasPrefix (s pre : String) : Bool := pre.data.isPrefixOf s.data

/-- The standard library's `strings.TrimPrefix`: `s` without the leading `pre`, or `s`
itself when it does not start with `pre`. -/
def TrimPrefix (s pre : String) : String :=
  if HasPrefix s pre then String.mk (s.data.drop pre.data.length) else s

/-- The payload of a legacy machine: a store of metadata (`V` stands for `interface{}`). -/
structure StateMachine (V : Type) where
  metadata : GoMap String V

instance : Inhabited (StateMachine V) := ⟨⟨GoMap.empty⟩⟩

def NewStateMachine : StateMachine V := ⟨GoMap.empty⟩

/-- Metadata returns the value stored in metadata. -/
def StateMachine.Metadata (f : StateMachine V) (key : String) : Option V :=
  f.metadata.lookup key

/-- SetMetadata stores the dataValue in metadata indexing it with key. -/
def StateMachine.SetMetadata (f : StateMachine V) (key : String) (dataValue : V) :
    StateMachine V :=
  ⟨f.metadata.store key dataValue⟩

/-- The record of the legacy package: states and events are strings. -/
abbrev Event (V X : Type) := Fsm.Event String String V X

/-- A legacy callback `func(event *Event)`: it returns the record as it left it. -/
abbrev LegacyCallback (V X : Type) := Event V X → Event V X

/-- The typed callback `func(_ *StateMachine, e *Event) { fn(e) }` made from a legacy one. -/
def wrap (fn : LegacyCallback V X) : Callback String String (StateMachine V) V X :=
  fun p e => (p, fn e)

/-- The two sets `NewFSM` computes from the event descriptions: `allEvents` and
`allStates`. -/
def declared (events : List (EventDesc String String)) : GoMap String Bool × GoMap String Bool :=
  events.foldl
    (fun sets e =>
      let allStates :=
        e.Src.foldl (fun allStates src => (allStates.store src true).store e.Dst true) sets.2
      (sets.1.store e.Name true, allStates))
    (GoMap.empty, GoMap.empty)

/-- The body of the loop `for name, fn := range callbacks`: the `switch` on the prefix of
the name. -/
def translate (allEvents allStates : GoMap String Bool)
    (f : FSM String String (StateMachine V) V X) (name : String) (fn : LegacyCallback V X) :
    FSM String String (StateMachine V) V X :=
  if HasPrefix name "before_" then
    let target := TrimPrefix name "before_"
    if target = "event" then f.BeforeAny (some (wrap fn))
    else if (allEvents.lookup target).isSome then f.Before target (some (wrap fn))
    else f
  else if HasPrefix name "leave_" then
    let target := TrimPrefix name "leave_"
    if target = "state" then f.OnLeaveAny (some (wrap fn))
    else if (allStates.lookup target).isSome then f.OnLeave target (some (wrap fn))
    else f
  else if HasPrefix name "enter_" then
    let target := TrimPrefix name "enter_"
    if target = "state" then f.OnEnterAny (some (wrap fn))
    else if (allStates.lookup target).isSome then f.OnEnter target (some (wrap fn))
    else f
  else if HasPrefix name "after_" then
    let target := TrimPrefix name "after_"
    if target = "event" then f.AfterAny (some (wrap fn))
    else if (allEvents.lookup target).isSome then f.After target (some (wrap fn))
    else f
  else
    let target := name
    if (allStates.lookup target).isSome then f.OnEnter target (some (wrap fn))
    else if (allEvents.lookup target).isSome then f.After target (some (wrap fn))
    else f

/-- The loop body with the two sets computed from `events`. -/
def register (events : List (EventDesc String String))
    (f : FSM String String (StateMachine V) V X) (name : String) (fn : LegacyCallback V X) :
    FSM String String (StateMachine V) V X :=
  translate (declared events).1 (declared events).2 f name fn

/-- The definition `legacy.NewFSM` builds before it makes the instance. -/
def NewDefinition (initial : String) (events : List (EventDesc String String))
    (callbacks : GoMap String (LegacyCallback V X)) :
    FSM String String (StateMachine V) V X :=
  let f : FSM String String (StateMachine V) V X :=
    (Fsm.NewFSM initial events).SetFsmImplConstructor (some (fun _ => NewStateMachine))
  let allEvents := (declared events).1
  let allStates := (declared events).2
  callbacks.entries.foldl (fun f entry => translate allEvents allStates f entry.1 entry.2) f

/-- The function `legacy.NewFSM`. -/
def NewFSM (initial : String) (events : List (EventDesc String String))
    (callbacks : GoMap String (LegacyCallback V X)) :
    Instance String String (StateMachine V) V X :=
  (NewDefinition initial events callbacks).NewInstance

end Legacy

end legacy

section LegacyExamples

/-- Two declarations of the key `(open, closed)`: the later one replaces the destination
`ajar` by `open`, so `ajar` is no state of the table. -/
def redeclared : List (EventDesc String String) :=
  [⟨"open", ["closed"], "ajar"⟩, ⟨"open", ["closed"], "open"⟩, ⟨"close", ["open"], "closed"⟩]

/-- A legacy callback that attaches the error `seen`. -/
def mark : legacy.LegacyCallback String String :=
  fun e => { e with Err := .custom "seen" }

end LegacyExamples

/-! ## Sequences of calls, and the slot a legacy name stands for -/

section Sequences

variable {S E I A X : Type} [DecidableEq S] [DecidableEq E]

/-- A finite sequence of `Event` calls on an instance, each given by its event and its
arguments: the instance after the last call. -/
def Instance.Events (f : Instance S E I A X) (calls : List (E × List A)) :
    Instance S E I A X :=
  calls.foldl (fun inst c => (inst.Event c.1 c.2).inst) f

/-- The registration method that writes a given slot. -/
def FSM.setSlot (f : FSM S E I A X) (slot : Slot S E) (cb : Option (Callback S E I A X)) :
    FSM S E I A X :=
  match slot with
  | .Before e => f.Before e cb
  | .BeforeAny => f.BeforeAny cb
  | .OnLeave s => f.OnLeave s cb
  | .OnLeaveAny => f.OnLeaveAny cb
  | .OnEnter s => f.OnEnter s cb
  | .OnEnterAny => f.OnEnterAny cb
  | .After e => f.After e cb
  | .AfterAny => f.AfterAny cb

end Sequences

namespace legacy

/-- The slot the `switch` of `legacy.NewFSM` registers a callback name in, if any: the
same case distinction as `translate`, without the registration. -/
def target (allEvents allStates : GoMap String Bool) (name : String) :
    Option (Slot String String) :=
  if HasPrefix name "before_" then
    if TrimPrefix name "before_" = "event" then some .BeforeAny
    else if (allEvents.lookup (TrimPrefix name "before_")).isSome then
      some (.Before (TrimPrefix name "before_"))
    else none
  else if HasPrefix name "leave_" then
    if TrimPrefix name "leave_" = "state" then some .OnLeaveAny
    else if (allStates.lookup (TrimPrefix name "leave_")).isSome then
      some (.OnLeave (TrimPrefix name "leave_"))
    else none
  else if HasPrefix name "enter_" then
    if TrimPrefix name "enter_" = "state" then some .OnEnterAny
    else if (allStates.lookup (TrimPrefix name "enter_")).isSome then
      some (.OnEnter (TrimPrefix name "enter_"))
    else none
  else if HasPrefix name "after_" then
    if TrimPrefix name "after_" = "event" then some .AfterAny
    else if (allEvents.lookup (TrimPrefix name "after_")).isSome then
      some (.After (TrimPrefix name "after_"))
    else none
  else if (allStates.lookup name).isSome then some (.OnEnter name)
  else if (allEvents.lookup name).isSome then some (.After name)
  else none

end legacy

section LastExamples

/-- The door with a before callback of `open` that writes `close` into the record, and
after callbacks on both events. -/
def redirectedDoor : FSM String String (List String) String String :=
  (((NewFSM "closed"
      [⟨"open", ["closed"], "open"⟩, ⟨"close", ["open"], "closed"⟩]).Before "open"
      (some (rename "close"))).After "open" (some (note "after_open"))).After "close"
      (some (note "after_close"))

/-- The event descriptions of `examples/alternate.go`. -/
def scanEvents : List (EventDesc String String) :=
  [⟨"scan", ["idle"], "scanning"⟩, ⟨"working", ["scanning"], "scanning"⟩,
    ⟨"situation", ["scanning"], "scanning"⟩, ⟨"situation", ["idle"], "idle"⟩,
    ⟨"finish", ["scanning"], "idle"⟩]

/-- A legacy callback that attaches an error with the given message. -/
def markWith (msg : String) : legacy.LegacyCallback String String :=
  fun e => { e with Err := .custom msg }

/-- The callbacks of `examples/alternate.go`: four names without a prefix, each the name
of an event. -/
def scanCallbacks : GoMap String (legacy.LegacyCallback String String) :=
  ⟨[("scan", markWith "scan"), ("working", markWith "working"),
    ("situation", markWith "situation"), ("finish", markWith "finish")]⟩

/-- A callbacks map in which the names `scan` and `after_scan` both stand for the slot
After(scan), visited in one order. -/
def clashingCallbacks : GoMap String (legacy.LegacyCallback String String) :=
  ⟨[("scan", markWith "first"), ("after_scan", markWith "second")]⟩

/-- The same map visited in the other order. -/
def clashingCallbacksReversed : GoMap String (legacy.LegacyCallback String String) :=
  ⟨[("after_scan", markWith "second"), ("scan", markWith "first")]⟩

/-- The record of an attempt `scan` from `idle`, to try callbacks on. -/
def scanRecord : legacy.Event String String :=
  ⟨"scan", "idle", "scanning", .nil, [], false⟩

end LastExamples

/-! ## Lemmas on Go maps -/

namespace GoMap

variable {K V : Type}

theorem lookup_empty [DecidableEq K] (k : K) : (empty : GoMap K V).lookup k = none := rfl

theorem lookup_mk_cons [DecidableEq K] (c : K × V) (t : List (K × V)) (k : K) :
    (GoMap.mk (c :: t)).lookup k = if c.1 = k then some c.2 else (GoMap.mk t).lookup k := by
  unfold lookup
  by_cases h : c.1 = k <;> simp [List.find?_cons, h]

theorem lookup_isSome [DecidableEq K] (m : GoMap K V) (k : K) :
    (m.lookup k).isSome = m.entries.any (fun p => decide (p.1 = k)) := by
  obtain ⟨l⟩ := m
  induction l with
  | nil => rfl
  | cons c t ih =>
    rw [lookup_mk_cons]
    by_cases h : c.1 = k
    · simp [h]
    · simpa [h] using ih

theorem lookup_replace [DecidableEq K] (l : List (K × V)) (k k' : K) (v : V) :
    (GoMap.mk (l.map (fun p => if p.1 = k then (k, v) else p))).lookup k' =
      if k' = k then (if l.any (fun p => decide (p.1 = k)) then some v else none)
      else (GoMap.mk l).lookup k' := by
  induction l with
  | nil => simp [lookup]
  | cons c t ih =>
    rw [List.map_cons, lookup_mk_cons, lookup_mk_cons, ih]
    by_cases hc : c.1 = k
    · by_cases hk : k' = k
      · simp [hc, hk]
      · have hk2 : ¬ k = k' := fun e => hk e.symm
        simp [hc, hk, hk2]
    · by_cases hk : k' = k
      · subst hk
        simp only [hc, if_false, if_true, List.any_cons, decide_False, Bool.false_or]
      · simp [hc, hk]

theorem lookup_append [DecidableEq K] (l : List (K × V)) (k k' : K) (v : V)
    (h : l.any (fun p => decide (p.1 = k)) = false) :
    (GoMap.mk (l ++ [(k, v)])).lookup k' =
      if k' = k then some v else (GoMap.mk l).lookup k' := by
  induction l with
  | nil =>
    rw [List.nil_append, lookup_mk_cons]
    by_cases hk : k' = k
    · simp [hk]
    · have hk2 : ¬ k = k' := fun e => hk e.symm
      simp [hk, hk2, lookup]
  | cons c t ih =>
    simp only [List.any_cons, Bool.or_eq_false_iff, decide_eq_false_iff_not] at h
    rw [List.cons_append, lookup_mk_cons, lookup_mk_cons, ih h.2]
    by_cases hk : k' = k
    · subst hk
      simp [h.1]
    · simp [hk]

theorem lookup_store [DecidableEq K] (m : GoMap K V) (k k' : K) (v : V) :
    (m.store k v).lookup k' = if k' = k then some v else m.lookup k' := by
  obtain ⟨l⟩ := m
  unfold store
  by_cases hany : l.any (fun p => decide (p.1 = k)) = true
  · simp only [hany, if_true]
    rw [lookup_replace, hany]
    simp
  · have hany2 : l.any (fun p => decide (p.1 = k)) = false := Bool.eq_false_iff.mpr hany
    simp only [hany2, Bool.false_eq_true, if_false]
    exact lookup_append l k k' v hany2

theorem index_store [DecidableEq K] [Inhabited V] (m : GoMap K V) (k k' : K) (v : V) :
    (m.store k v).index k' = if k' = k then v else m.index k' := by
  unfold index
  rw [lookup_store]
  by_cases h : k' = k <;> simp [h]

end GoMap

/-! ## Lemmas on the pipeline -/

section PipelineLemmas

variable {S E I A X : Type} [DecidableEq S] [DecidableEq E]

@[simp] theorem Run.step_FSM (r : Run S E I A X) (slot : Slot S E) :
    (r.step slot).inst.FSM = r.inst.FSM := by
  unfold Run.step; split <;> simp [Run.invoke]

@[simp] theorem Run.step_current (r : Run S E I A X) (slot : Slot S E) :
    (r.step slot).inst.current = r.inst.current := by
  unfold Run.step; split <;> simp [Run.invoke]

theorem Run.step_none (r : Run S E I A X) (slot : Slot S E)
    (h : r.inst.FSM.callback slot = none) : r.step slot = r := by
  unfold Run.step; rw [h]

theorem Run.step_some (r : Run S E I A X) (slot : Slot S E) (fn : Callback S E I A X)
    (h : r.inst.FSM.callback slot = some fn) : r.step slot = r.invoke slot fn := by
  unfold Run.step; rw [h]

theorem beforeAnyCallback_eq (r : Run S E I A X) (h : r.e.canceled = false) :
    beforeAnyCallback r =
      if (r.step .BeforeAny).e.canceled then
        (r.step .BeforeAny, .CanceledError (r.step .BeforeAny).e.Err)
      else (r.step .BeforeAny, .nil) := by
  unfold beforeAnyCallback Run.step
  simp only [FSM.callback]
  split <;> simp [h]

theorem beforeEventCallbacks_eq (r : Run S E I A X) (h : r.e.canceled = false) :
    beforeEventCallbacks r =
      if (r.step (.Before r.e.Event)).e.canceled then
        (r.step (.Before r.e.Event), .CanceledError (r.step (.Before r.e.Event)).e.Err)
      else if ((r.step (.Before r.e.Event)).step .BeforeAny).e.canceled then
        ((r.step (.Before r.e.Event)).step .BeforeAny,
          .CanceledError ((r.step (.Before r.e.Event)).step .BeforeAny).e.Err)
      else ((r.step (.Before r.e.Event)).step .BeforeAny, .nil) := by
  by_cases hc : (r.step (.Before r.e.Event)).e.canceled = true
  · rw [if_pos hc]
    unfold beforeEventCallbacks
    unfold Run.step at hc ⊢
    simp only [FSM.callback] at hc ⊢
    split
    · rename_i fn hfn
      simp only [hfn] at hc
      simp [hc]
    · rename_i hfn
      simp only [hfn] at hc
      simp [h] at hc
  · rw [if_neg hc]
    have hc2 : (r.step (.Before r.e.Event)).e.canceled = false := by simpa using hc
    rw [← beforeAnyCallback_eq _ hc2]
    unfold beforeEventCallbacks
    unfold Run.step at hc ⊢
    simp only [FSM.callback] at hc ⊢
    split
    · rename_i fn hfn
      simp only [hfn] at hc
      simp [hc]
    · rfl

theorem leaveAnyCallback_eq (r : Run S E I A X) (h : r.e.canceled = false) :
    leaveAnyCallback r =
      if (r.step .OnLeaveAny).e.canceled then
        (r.step .OnLeaveAny, .CanceledError (r.step .OnLeaveAny).e.Err)
      else (r.step .OnLeaveAny, .nil) := by
  unfold leaveAnyCallback Run.step
  simp only [FSM.callback]
  split <;> simp [h]

theorem leaveStateCallbacks_eq (r : Run S E I A X) (h : r.e.canceled = false) :
    leaveStateCallbacks r =
      if (r.step (.OnLeave r.inst.current)).e.canceled then
        (r.step (.OnLeave r.inst.current),
          .CanceledError (r.step (.OnLeave r.inst.current)).e.Err)
      else if ((r.step (.OnLeave r.inst.current)).step .OnLeaveAny).e.canceled then
        ((r.step (.OnLeave r.inst.current)).step .OnLeaveAny,
          .CanceledError ((r.step (.OnLeave r.inst.current)).step .OnLeaveAny).e.Err)
      else ((r.step (.OnLeave r.inst.current)).step .OnLeaveAny, .nil) := by
  by_cases hc : (r.step (.OnLeave r.inst.current)).e.canceled = true
  · rw [if_pos hc]
    unfold leaveStateCallbacks
    unfold Run.step at hc ⊢
    simp only [FSM.callback] at hc ⊢
    split
    · rename_i fn hfn
      simp only [hfn] at hc
      simp [hc]
    · rename_i hfn
      simp only [hfn] at hc
      simp [h] at hc
  · rw [if_neg hc]
    have hc2 : (r.step (.OnLeave r.inst.current)).e.canceled = false := by simpa using hc
    rw [← leaveAnyCallback_eq _ hc2]
    unfold leaveStateCallbacks
    unfold Run.step at hc ⊢
    simp only [FSM.callback] at hc ⊢
    split
    · rename_i fn hfn
      simp only [hfn] at hc
      simp [hc]
    · rfl

theorem enterStateCallbacks_eq (r : Run S E I A X) :
    enterStateCallbacks r = (r.step (.OnEnter r.inst.current)).step .OnEnterAny := by
  rfl

theorem afterEventCallbacks_eq (r : Run S E I A X) :
    afterEventCallbacks r = r.afterPhase := by
  rfl

/-- The source function and its position-by-position view agree. -/
theorem Instance.Event_eq_pipeline (f : Instance S E I A X) (event : E) (args : List A)
    (dst : S) (h : f.FSM.transitions.lookup ⟨event, f.current⟩ = some dst) :
    f.Event event args = f.pipeline event args dst := by
  unfold Instance.Event Instance.pipeline
  simp only [h]
  rw [beforeEventCallbacks_eq _ rfl]
  simp only [Instance.afterBefore, Instance.record]
  split_ifs with h1 h2 h3 h4 h5
  · simp [Run.cancelled]
  · simp [Run.cancelled]
  · simp [h3, afterEventCallbacks_eq]
  · have h2f : (Run.step (Run.step ⟨f, ⟨event, f.current, dst, .nil, args, false⟩, []⟩
        (.Before event)) .BeforeAny).e.canceled = false := by simpa using h2
    simp only [Run.step_current, h3, if_false]
    rw [leaveStateCallbacks_eq _ h2f]
    simp only [Run.step_current]
    rw [if_pos h4]
    simp [Run.cancelled]
  · have h2f : (Run.step (Run.step ⟨f, ⟨event, f.current, dst, .nil, args, false⟩, []⟩
        (.Before event)) .BeforeAny).e.canceled = false := by simpa using h2
    simp only [Run.step_current, h3, if_false]
    rw [leaveStateCallbacks_eq _ h2f]
    simp only [Run.step_current]
    simp only [Instance.afterLeave, Instance.afterBefore, Instance.record] at h5
    rw [if_neg h4, if_pos h5]
    simp [Run.cancelled, Instance.afterLeave, Instance.afterBefore, Instance.record]
  · have h2f : (Run.step (Run.step ⟨f, ⟨event, f.current, dst, .nil, args, false⟩, []⟩
        (.Before event)) .BeforeAny).e.canceled = false := by simpa using h2
    simp only [Run.step_current, h3, if_false]
    rw [leaveStateCallbacks_eq _ h2f]
    simp only [Run.step_current]
    simp only [Instance.afterLeave, Instance.afterBefore, Instance.record] at h5
    rw [if_neg h4, if_neg h5]
    simp [enterStateCallbacks_eq, afterEventCallbacks_eq, Instance.afterEnter,
      Instance.afterLeave, Instance.afterBefore, Instance.record, Run.commit]

theorem Run.step_calls (r : Run S E I A X) (slot : Slot S E) :
    (r.step slot).calls =
      r.calls ++ (if r.inst.FSM.registered slot then [r.callAt slot] else []) := by
  unfold Run.callAt FSM.registered Run.step
  split <;> rename_i h <;> simp [h, Run.invoke]

theorem Run.step_slots (r : Run S E I A X) (slot : Slot S E) :
    (r.step slot).calls.map Call.slot =
      r.calls.map Call.slot ++ [slot].filter r.inst.FSM.registered := by
  rw [Run.step_calls]
  by_cases h : r.inst.FSM.registered slot <;> simp [h, Run.callAt, List.filter]

/-- A callback that does not touch the record leaves the run's record as it was. -/
theorem Run.step_e_of_keeps (r : Run S E I A X) (slot : Slot S E)
    (hkeep : ∀ fn, r.inst.FSM.callback slot = some fn → ∀ p ev, (fn p ev).2 = ev) :
    (r.step slot).e = r.e := by
  unfold Run.step
  split
  · rename_i fn hfn
    simp [Run.invoke, hkeep fn hfn]
  · rfl

@[simp] theorem Run.commit_FSM (r : Run S E I A X) (dst : S) :
    (r.commit dst).inst.FSM = r.inst.FSM := rfl

@[simp] theorem Run.commit_current (r : Run S E I A X) (dst : S) :
    (r.commit dst).inst.current = dst := rfl

@[simp] theorem Run.commit_e (r : Run S E I A X) (dst : S) : (r.commit dst).e = r.e := rfl

@[simp] theorem Run.commit_calls (r : Run S E I A X) (dst : S) :
    (r.commit dst).calls = r.calls := rfl

@[simp] theorem Run.commit_Self (r : Run S E I A X) (dst : S) :
    (r.commit dst).inst.Self = r.inst.Self := rfl

theorem pipelineSlots_filter (event : E) (src dst : S) (p : Slot S E → Bool) :
    (pipelineSlots event src dst).filter p =
      [Slot.Before event].filter p ++ [Slot.BeforeAny].filter p ++ [Slot.OnLeave src].filter p
        ++ [Slot.OnLeaveAny].filter p ++ [Slot.OnEnter dst].filter p
        ++ [Slot.OnEnterAny].filter p ++ [Slot.After event].filter p
        ++ [Slot.AfterAny].filter p := by
  simp only [← List.filter_append]
  rfl

theorem pipelineSlots_nodup (event : E) (src dst : S) :
    (pipelineSlots event src dst).Nodup := by
  simp [pipelineSlots]

theorem Run.mem_step_calls (r : Run S E I A X) (slot : Slot S E) (c : Call S E I A X) :
    c ∈ (r.step slot).calls ↔
      c ∈ r.calls ∨ (r.inst.FSM.registered slot = true ∧ c = r.callAt slot) := by
  rw [Run.step_calls]
  by_cases h : r.inst.FSM.registered slot = true <;> simp [h]

@[simp] theorem Run.callAt_slot (r : Run S E I A X) (slot : Slot S E) :
    (r.callAt slot).slot = slot := rfl

@[simp] theorem Run.callAt_eOut (r : Run S E I A X) (slot : Slot S E) :
    (r.callAt slot).eOut = (r.step slot).e := rfl

@[simp] theorem Run.callAt_eIn (r : Run S E I A X) (slot : Slot S E) :
    (r.callAt slot).eIn = r.e := rfl

@[simp] theorem Run.callAt_selfIn (r : Run S E I A X) (slot : Slot S E) :
    (r.callAt slot).selfIn = r.inst.Self := rfl

@[simp] theorem Run.callAt_selfOut (r : Run S E I A X) (slot : Slot S E) :
    (r.callAt slot).selfOut = (r.step slot).inst.Self := rfl

/-- A position whose slot is empty changes nothing; one whose slot is full appends
exactly its call. -/
theorem Run.step_cases (r : Run S E I A X) (slot : Slot S E) :
    (r.inst.FSM.registered slot = false ∧ r.step slot = r) ∨
      (r.inst.FSM.registered slot = true ∧ (r.step slot).calls = r.calls ++ [r.callAt slot]) := by
  by_cases h : r.inst.FSM.registered slot = true
  · right
    exact ⟨h, by rw [Run.step_calls, if_pos h]⟩
  · left
    have h2 : r.inst.FSM.registered slot = false := Bool.eq_false_iff.mpr h
    refine ⟨h2, ?_⟩
    unfold FSM.registered at h2
    exact Run.step_none r slot (by simpa using h2)

/-! ### The chain of calls -/

theorem endOf_append (p : I) (e : Event S E A X) (l1 l2 : List (Call S E I A X)) :
    endOf p e (l1 ++ l2) = endOf (endOf p e l1).1 (endOf p e l1).2 l2 := by
  induction l1 generalizing p e with
  | nil => rfl
  | cons c cs ih => simp only [List.cons_append, endOf]; exact ih _ _

theorem Linked_append (p : I) (e : Event S E A X) (l1 l2 : List (Call S E I A X)) :
    Linked p e (l1 ++ l2) ↔ Linked p e l1 ∧ Linked (endOf p e l1).1 (endOf p e l1).2 l2 := by
  induction l1 generalizing p e with
  | nil => simp [Linked, endOf]
  | cons c cs ih =>
    show (c.selfIn = p ∧ c.eIn = e ∧ Linked c.selfOut c.eOut (cs ++ l2)) ↔ _
    rw [ih]
    simp only [Linked, endOf, and_assoc]

/-- When no call of a chain writes the `Err` field, the field is at the end what it was at
the start. -/
theorem endOf_Err_of_keep (p : I) (e : Event S E A X) (l : List (Call S E I A X))
    (hl : Linked p e l) (hk : ∀ c ∈ l, c.eOut.Err = c.eIn.Err) :
    (endOf p e l).2.Err = e.Err := by
  induction l generalizing p e with
  | nil => rfl
  | cons c cs ih =>
    simp only [Linked] at hl
    simp only [endOf]
    rw [ih _ _ hl.2.2 (fun c' hc' => hk c' (List.mem_cons_of_mem _ hc')),
      hk c (List.mem_cons_self _ _), hl.2.1]

/-- The `Err` field at the end of a chain is the one written by the last call that wrote
it. -/
theorem endOf_Err_last_written (p : I) (e : Event S E A X)
    (pre post : List (Call S E I A X)) (c : Call S E I A X)
    (hl : Linked p e (pre ++ c :: post)) (hk : ∀ c1 ∈ post, c1.eOut.Err = c1.eIn.Err) :
    (endOf p e (pre ++ c :: post)).2.Err = c.eOut.Err := by
  rw [Linked_append] at hl
  rw [endOf_append]
  simp only [Linked, endOf] at hl ⊢
  exact endOf_Err_of_keep _ _ post hl.2.2.2 hk

theorem Run.Traced.init (f : Instance S E I A X) (e0 : Event S E A X) :
    Run.Traced f e0 ⟨f, e0, []⟩ :=
  ⟨rfl, trivial, rfl, fun _ hc => absurd hc (List.not_mem_nil _)⟩

theorem Run.Traced.step {f : Instance S E I A X} {e0 : Event S E A X} {r : Run S E I A X}
    (h : Run.Traced f e0 r) (slot : Slot S E) : Run.Traced f e0 (r.step slot) := by
  obtain ⟨h1, h2, h3, h4⟩ := h
  unfold Run.step
  cases hcb : r.inst.FSM.callback slot with
  | none => exact ⟨h1, h2, h3, h4⟩
  | some fn =>
    refine ⟨h1, ?_, ?_, ?_⟩
    · simp only [Run.invoke]
      rw [Linked_append, h3]
      exact ⟨h2, rfl, rfl, trivial⟩
    · simp only [Run.invoke]
      rw [endOf_append]
      rfl
    · intro c hc
      simp only [Run.invoke, List.mem_append, List.mem_singleton] at hc
      rcases hc with hc | rfl
      · exact h4 c hc
      · exact ⟨fn, h1 ▸ hcb, rfl⟩

theorem Run.Traced.commit {f : Instance S E I A X} {e0 : Event S E A X} {r : Run S E I A X}
    (h : Run.Traced f e0 r) (dst : S) : Run.Traced f e0 (r.commit dst) := h

theorem Instance.traced_afterBefore (f : Instance S E I A X) (event : E) (args : List A)
    (dst : S) : Run.Traced f (f.record event args dst) (f.afterBefore event args dst) :=
  ((Run.Traced.init f _).step _).step _

theorem Instance.traced_afterLeave (f : Instance S E I A X) (event : E) (args : List A)
    (dst : S) : Run.Traced f (f.record event args dst) (f.afterLeave event args dst) :=
  ((f.traced_afterBefore event args dst).step _).step _

theorem Instance.traced_afterEnter (f : Instance S E I A X) (event : E) (args : List A)
    (dst : S) : Run.Traced f (f.record event args dst) (f.afterEnter event args dst) :=
  (((f.traced_afterLeave event args dst).commit dst).step _).step _

theorem Run.Traced.afterPhase {f : Instance S E I A X} {e0 : Event S E A X}
    {r : Run S E I A X} (h : Run.Traced f e0 r) : Run.Traced f e0 r.afterPhase :=
  (h.step _).step _

/-- In a traced run whose calls all leave `Err` alone, the record's `Err` is the initial
one. -/
theorem Run.Traced.Err_of_keep {f : Instance S E I A X} {e0 : Event S E A X}
    {r : Run S E I A X} (h : Run.Traced f e0 r)
    (hk : ∀ c ∈ r.calls, c.eOut.Err = c.eIn.Err) : r.e.Err = e0.Err := by
  have := endOf_Err_of_keep f.Self e0 r.calls h.2.1 hk
  rw [h.2.2.1] at this
  exact this

/-- A property of the record that holds before a position and is established by the
callback of that position holds after it. -/
theorem Run.step_e_prop (r : Run S E I A X) (slot : Slot S E) (P : Event S E A X → Prop)
    (h0 : P r.e)
    (h1 : r.inst.FSM.registered slot = true → r.callAt slot ∈ (r.step slot).calls →
      P (r.callAt slot).eOut) :
    P (r.step slot).e := by
  rcases Run.step_cases r slot with ⟨_, h⟩ | ⟨hreg, h⟩
  · rw [h]; exact h0
  · exact h1 hreg (by rw [h]; simp)

theorem GoError.ne_CanceledError (x : GoError S E X) : x ≠ .CanceledError x := by
  induction x with
  | CanceledError y ih =>
    intro h
    injection h with h
    exact ih h
  | _ => intro h; cases h

theorem GoError.ne_NoTransitionError (x : GoError S E X) : x ≠ .NoTransitionError x := by
  induction x with
  | NoTransitionError y ih =>
    intro h
    injection h with h
    exact ih h
  | _ => intro h; cases h

/-- The record after the before phase still names the requested event when no before
callback rewrites the `Event` field. -/
theorem Instance.afterBefore_Event (f : Instance S E I A X) (event : E) (args : List A)
    (dst : S)
    (hev : ∀ c ∈ (f.afterBefore event args dst).calls,
      (c.slot = .Before event ∨ c.slot = .BeforeAny) → c.eOut.Event = c.eIn.Event) :
    (f.afterBefore event args dst).e.Event = event := by
  have h1 : (Run.step ⟨f, f.record event args dst, []⟩ (.Before event)).e.Event = event :=
    Run.step_e_prop _ _ (fun e => e.Event = event) rfl (fun _ hm =>
      (hev _ (by
        unfold Instance.afterBefore
        exact (Run.mem_step_calls _ _ _).mpr (Or.inl hm)) (Or.inl rfl)).trans rfl)
  exact Run.step_e_prop _ _ (fun e => e.Event = event) h1 (fun _ hm =>
    (hev _ hm (Or.inr rfl)).trans h1)

/-- When no before or leave callback cancels and the destination differs from the current
state, the attempt runs the whole pipeline and returns the record's `Err`. -/
theorem Instance.pipeline_committed (f : Instance S E I A X) (event : E) (args : List A)
    (dst : S) (hne : dst ≠ f.current)
    (hq : ∀ c ∈ (f.pipeline event args dst).calls,
      (c.slot = .Before event ∨ c.slot = .BeforeAny ∨ c.slot = .OnLeave f.current
        ∨ c.slot = .OnLeaveAny) → c.eOut.canceled = false) :
    f.pipeline event args dst =
      ⟨(f.afterEnter event args dst).afterPhase.e.Err,
        (f.afterEnter event args dst).afterPhase.inst,
        (f.afterEnter event args dst).afterPhase.calls⟩ := by
  unfold Instance.pipeline at hq ⊢
  simp only at hq ⊢
  split_ifs at hq ⊢ with h1 h2 h3 h4 h5
  · exfalso
    have := Run.step_e_prop ⟨f, f.record event args dst, []⟩ (.Before event)
      (fun e => e.canceled = false) rfl (fun _ hm => hq _ hm (Or.inl rfl))
    simp only [this] at h1
    exact absurd h1 (by simp)
  · exfalso
    have := Run.step_e_prop (Run.step ⟨f, f.record event args dst, []⟩ (.Before event))
      .BeforeAny (fun e => e.canceled = false) (by simpa using h1)
      (fun _ hm => hq _ hm (Or.inr (Or.inl rfl)))
    simp only [Instance.afterBefore] at h2
    simp only [this] at h2
    exact absurd h2 (by simp)
  · exact absurd h3.symm hne
  · exfalso
    have := Run.step_e_prop (f.afterBefore event args dst) (.OnLeave f.current)
      (fun e => e.canceled = false) (by simpa using h2)
      (fun _ hm => hq _ hm (Or.inr (Or.inr (Or.inl rfl))))
    simp only [this] at h4
    exact absurd h4 (by simp)
  · exfalso
    have := Run.step_e_prop ((f.afterBefore event args dst).step (.OnLeave f.current))
      .OnLeaveAny (fun e => e.canceled = false) (by simpa using h4)
      (fun _ hm => hq _ hm (Or.inr (Or.inr (Or.inr rfl))))
    simp only [Instance.afterLeave] at h5
    simp only [this] at h5
    exact absurd h5 (by simp)
  · rfl

/-- A position whose callback leaves the `Event` field alone leaves it alone. -/
theorem Run.step_Event_keep (r : Run S E I A X) (slot : Slot S E) (event : E)
    (L : List (Call S E I A X)) (hsub : ∀ c ∈ (r.step slot).calls, c ∈ L)
    (hk : ∀ c ∈ L, c.slot = slot → c.eOut.Event = c.eIn.Event) (h0 : r.e.Event = event) :
    (r.step slot).e.Event = event :=
  Run.step_e_prop r slot (fun e => e.Event = event) h0
    (fun _ hm => (hk _ (hsub _ hm) rfl).trans h0)

theorem Run.calls_subset_step (r : Run S E I A X) (slot : Slot S E)
    (L : List (Call S E I A X)) (hsub : ∀ c ∈ (r.step slot).calls, c ∈ L) :
    ∀ c ∈ r.calls, c ∈ L :=
  fun c hc => hsub c ((Run.mem_step_calls r slot c).mpr (Or.inl hc))

/-- The record after the enter phase still names the requested event when no before,
leave or enter callback rewrites the `Event` field. -/
theorem Instance.afterEnter_Event (f : Instance S E I A X) (event : E) (args : List A)
    (dst : S)
    (hev : ∀ c ∈ (f.afterEnter event args dst).calls,
      (c.slot = .Before event ∨ c.slot = .BeforeAny ∨ c.slot = .OnLeave f.current
        ∨ c.slot = .OnLeaveAny ∨ c.slot = .OnEnter dst ∨ c.slot = .OnEnterAny) →
      c.eOut.Event = c.eIn.Event) :
    (f.afterEnter event args dst).e.Event = event := by
  have s6 : ∀ c ∈ (f.afterEnter event args dst).calls, c ∈ (f.afterEnter event args dst).calls :=
    fun _ hc => hc
  unfold Instance.afterEnter at s6 ⊢
  have s5 := Run.calls_subset_step _ _ _ s6
  have s4 := Run.calls_subset_step _ _ _ s5
  simp only [Run.commit_calls] at s4
  unfold Instance.afterLeave at s4 s5 s6 ⊢
  have s3 := Run.calls_subset_step _ _ _ s4
  have s2 := Run.calls_subset_step _ _ _ s3
  unfold Instance.afterBefore at s2 s3 s4 s5 s6 ⊢
  have s1 := Run.calls_subset_step _ _ _ s2
  have e1 := Run.step_Event_keep _ (.Before event) event _ s1
    (fun c hc hs => hev c hc (Or.inl hs)) rfl
  have e2 := Run.step_Event_keep _ .BeforeAny event _ s2
    (fun c hc hs => hev c hc (Or.inr (Or.inl hs))) e1
  have e3 := Run.step_Event_keep _ (.OnLeave f.current) event _ s3
    (fun c hc hs => hev c hc (Or.inr (Or.inr (Or.inl hs)))) e2
  have e4 := Run.step_Event_keep _ .OnLeaveAny event _ s4
    (fun c hc hs => hev c hc (Or.inr (Or.inr (Or.inr (Or.inl hs))))) e3
  have e5 := Run.step_Event_keep (Run.commit _ dst) (.OnEnter dst) event _ s5
    (fun c hc hs => hev c hc (Or.inr (Or.inr (Or.inr (Or.inr (Or.inl hs)))))) e4
  exact Run.step_Event_keep _ .OnEnterAny event _ s6
    (fun c hc hs => hev c hc (Or.inr (Or.inr (Or.inr (Or.inr (Or.inr hs)))))) e5

/-- Every attempt that passes the lookup ends in a traced run, and returns the record's
`Err` as it is, or wrapped in `CanceledError` or `NoTransitionError`. -/
theorem Instance.pipeline_traced (f : Instance S E I A X) (event : E) (args : List A)
    (dst : S) :
    ∃ r : Run S E I A X, Run.Traced f (f.record event args dst) r
      ∧ (f.pipeline event args dst).calls = r.calls
      ∧ (f.pipeline event args dst).inst = r.inst
      ∧ ((f.pipeline event args dst).err = .CanceledError r.e.Err
        ∨ (f.pipeline event args dst).err = .NoTransitionError r.e.Err
        ∨ (f.pipeline event args dst).err = r.e.Err) := by
  unfold Instance.pipeline
  simp only
  split_ifs
  · exact ⟨_, (Run.Traced.init f _).step _, rfl, rfl, Or.inl rfl⟩
  · exact ⟨_, f.traced_afterBefore event args dst, rfl, rfl, Or.inl rfl⟩
  · exact ⟨_, (f.traced_afterBefore event args dst).afterPhase, rfl, rfl, Or.inr (Or.inl rfl)⟩
  · exact ⟨_, (f.traced_afterBefore event args dst).step _, rfl, rfl, Or.inl rfl⟩
  · exact ⟨_, f.traced_afterLeave event args dst, rfl, rfl, Or.inl rfl⟩
  · exact ⟨_, (f.traced_afterEnter event args dst).afterPhase, rfl, rfl, Or.inr (Or.inr rfl)⟩

theorem Linked_head (p : I) (e : Event S E A X) (l : List (Call S E I A X))
    (hl : Linked p e l) (c : Call S E I A X) (hc : l.head? = some c) :
    c.selfIn = p ∧ c.eIn = e := by
  cases l with
  | nil => cases hc
  | cons a t =>
    simp only [List.head?_cons, Option.some.injEq] at hc
    subst hc
    exact ⟨hl.1, hl.2.1⟩

theorem Linked_get (p : I) (e : Event S E A X) (l : List (Call S E I A X))
    (hl : Linked p e l) (i : Nat) (hi : i + 1 < l.length) :
    (l.get ⟨i + 1, hi⟩).selfIn = (l.get ⟨i, Nat.lt_of_succ_lt hi⟩).selfOut
      ∧ (l.get ⟨i + 1, hi⟩).eIn = (l.get ⟨i, Nat.lt_of_succ_lt hi⟩).eOut := by
  induction l generalizing p e i with
  | nil => simp at hi
  | cons a t ih =>
    cases t with
    | nil => simp at hi
    | cons b u =>
      cases i with
      | zero => exact ⟨hl.2.2.1, hl.2.2.2.1⟩
      | succ j =>
        have hj : j + 1 < (b :: u).length := by simpa using hi
        exact ih a.selfOut a.eOut hl.2.2 j hj

/-! ### Reading a slot after a registration -/

theorem FSM.callback_OnEnter (f : FSM S E I A X) (s : S) (cb : Option (Callback S E I A X))
    (slot : Slot S E) :
    (f.OnEnter s cb).callback slot = if slot = .OnEnter s then cb else f.callback slot := by
  cases slot <;> simp only [FSM.callback, FSM.OnEnter, GoMap.index_store] <;> try rfl
  · rename_i s1
    by_cases h : s1 = s <;> simp [h]
  · rename_i s1
    by_cases h : s1 = s <;> simp [h]

theorem FSM.callback_OnLeave (f : FSM S E I A X) (s : S) (cb : Option (Callback S E I A X))
    (slot : Slot S E) :
    (f.OnLeave s cb).callback slot = if slot = .OnLeave s then cb else f.callback slot := by
  cases slot <;> simp only [FSM.callback, FSM.OnLeave, GoMap.index_store] <;> try rfl
  · rename_i s1
    by_cases h : s1 = s <;> simp [h]
  · rename_i s1
    by_cases h : s1 = s <;> simp [h]

theorem FSM.callback_Before (f : FSM S E I A X) (e : E) (cb : Option (Callback S E I A X))
    (slot : Slot S E) :
    (f.Before e cb).callback slot = if slot = .Before e then cb else f.callback slot := by
  cases slot <;> simp only [FSM.callback, FSM.Before, GoMap.index_store] <;> try rfl
  · rename_i e1
    by_cases h : e1 = e <;> simp [h]
  · rename_i e1
    by_cases h : e1 = e <;> simp [h]

theorem FSM.callback_After (f : FSM S E I A X) (e : E) (cb : Option (Callback S E I A X))
    (slot : Slot S E) :
    (f.After e cb).callback slot = if slot = .After e then cb else f.callback slot := by
  cases slot <;> simp only [FSM.callback, FSM.After, GoMap.index_store] <;> try rfl
  · rename_i e1
    by_cases h : e1 = e <;> simp [h]
  · rename_i e1
    by_cases h : e1 = e <;> simp [h]

theorem FSM.callback_OnEnterAny (f : FSM S E I A X) (cb : Option (Callback S E I A X))
    (slot : Slot S E) :
    (f.OnEnterAny cb).callback slot = if slot = .OnEnterAny then cb else f.callback slot := by
  cases slot <;> simp [FSM.callback, FSM.OnEnterAny]

theorem FSM.callback_OnLeaveAny (f : FSM S E I A X) (cb : Option (Callback S E I A X))
    (slot : Slot S E) :
    (f.OnLeaveAny cb).callback slot = if slot = .OnLeaveAny then cb else f.callback slot := by
  cases slot <;> simp [FSM.callback, FSM.OnLeaveAny]

theorem FSM.callback_BeforeAny (f : FSM S E I A X) (cb : Option (Callback S E I A X))
    (slot : Slot S E) :
    (f.BeforeAny cb).callback slot = if slot = .BeforeAny then cb else f.callback slot := by
  cases slot <;> simp [FSM.callback, FSM.BeforeAny]

theorem FSM.callback_AfterAny (f : FSM S E I A X) (cb : Option (Callback S E I A X))
    (slot : Slot S E) :
    (f.AfterAny cb).callback slot = if slot = .AfterAny then cb else f.callback slot := by
  cases slot <;> simp [FSM.callback, FSM.AfterAny]

theorem FSM.callback_NewFSM (initial : S) (events : List (EventDesc S E)) (slot : Slot S E) :
    (NewFSM initial events : FSM S E I A X).callback slot = none := by
  cases slot <;> rfl

theorem FSM.callback_AddTransition (f : FSM S E I A X) (name : E) (src : List S) (dst : S)
    (slot : Slot S E) : (f.AddTransition name src dst).callback slot = f.callback slot := by
  cases slot <;> rfl

/-! ### The transition table -/

theorem GoMap.keys_store {K V : Type} [DecidableEq K] (m : GoMap K V) (k : K) (v : V) :
    (m.store k v).keys = if k ∈ m.keys then m.keys else m.keys ++ [k] := by
  obtain ⟨l⟩ := m
  unfold GoMap.store GoMap.keys
  have hany : (l.any (fun p => decide (p.1 = k)) = true) ↔ k ∈ l.map Prod.fst := by
    rw [List.any_eq_true, List.mem_map]
    constructor
    · rintro ⟨p, hp, hk⟩
      exact ⟨p, hp, by simpa using hk⟩
    · rintro ⟨p, hp, hk⟩
      exact ⟨p, hp, by simpa using hk⟩
  by_cases h : l.any (fun p => decide (p.1 = k)) = true
  · rw [if_pos h, if_pos (hany.mp h)]
    simp only [List.map_map]
    apply List.map_congr_left
    intro p _
    by_cases hp : p.1 = k <;> simp [hp]
  · rw [if_neg h, if_neg (fun hx => h (hany.mpr hx))]
    simp

theorem GoMap.nodup_keys_store {K V : Type} [DecidableEq K] (m : GoMap K V) (k : K) (v : V)
    (h : m.keys.Nodup) : (m.store k v).keys.Nodup := by
  rw [GoMap.keys_store]
  by_cases hk : k ∈ m.keys
  · rw [if_pos hk]; exact h
  · rw [if_neg hk]
    exact List.Nodup.append h (List.nodup_singleton k) (by simpa using hk)

theorem GoMap.mem_keys_iff_lookup {K V : Type} [DecidableEq K] (m : GoMap K V) (k : K) :
    k ∈ m.keys ↔ (m.lookup k).isSome = true := by
  rw [GoMap.lookup_isSome, List.any_eq_true]
  unfold GoMap.keys
  rw [List.mem_map]
  constructor
  · rintro ⟨p, hp, hk⟩
    exact ⟨p, hp, by simpa using hk⟩
  · rintro ⟨p, hp, hk⟩
    exact ⟨p, hp, by simpa using hk⟩

/-- The loop of `AvailableTransitions` collects the events of the keys whose source is
the given state, in iteration order. -/
theorem FSM.AvailableTransitions_eq (f : FSM S E I A X) (current : S) :
    f.AvailableTransitions current =
      (f.transitions.keys.filter (fun key => decide (key.src = current))).map eKey.event := by
  unfold FSM.AvailableTransitions
  have gen : ∀ (l : List (eKey S E)) (acc : List E),
      l.foldl (fun transitions key =>
          if key.src = current then transitions ++ [key.event] else transitions) acc
        = acc ++ (l.filter (fun key => decide (key.src = current))).map eKey.event := by
    intro l
    induction l with
    | nil => intro acc; simp
    | cons k t ih =>
      intro acc
      rw [List.foldl_cons, ih]
      by_cases hk : k.src = current <;> simp [hk, List.filter_cons]
  rw [gen]
  simp

/-- The table after the stores of one event description. -/
theorem GoMap.lookup_foldl_store (t : GoMap (eKey S E) S) (name : E) (src : List S) (dst : S)
    (k : eKey S E) :
    (src.foldl (fun t s => t.store ⟨name, s⟩ dst) t).lookup k =
      if k.event = name ∧ k.src ∈ src then some dst else t.lookup k := by
  induction src generalizing t with
  | nil => simp
  | cons s rest ih =>
    rw [List.foldl_cons, ih, GoMap.lookup_store]
    obtain ⟨ke, ks⟩ := k
    by_cases h1 : ke = name
    · by_cases h2 : ks ∈ rest
      · simp [h1, h2]
      · by_cases h3 : ks = s
        · simp [h1, h2, h3]
        · simp [h1, h2, h3]
    · simp [h1]

theorem GoMap.nodup_keys_foldl_store (t : GoMap (eKey S E) S) (name : E) (src : List S)
    (dst : S) (h : t.keys.Nodup) :
    (src.foldl (fun t s => t.store ⟨name, s⟩ dst) t).keys.Nodup := by
  induction src generalizing t with
  | nil => exact h
  | cons s rest ih =>
    rw [List.foldl_cons]
    exact ih _ (GoMap.nodup_keys_store _ _ _ h)

/-- The table built by `NewFSM` from a start table: description after description. -/
theorem NewFSM_transitions_foldl (events : List (EventDesc S E)) (g : FSM S E I A X) :
    events.foldl (fun t e => e.Src.foldl (fun t src => t.store ⟨e.Name, src⟩ e.Dst) t)
        g.transitions
      = (events.foldl (fun g ev => g.AddTransition ev.Name ev.Src ev.Dst) g).transitions := by
  induction events generalizing g with
  | nil => rfl
  | cons ev rest ih =>
    rw [List.foldl_cons, List.foldl_cons]
    exact ih (g.AddTransition ev.Name ev.Src ev.Dst)

/-- In a table built description after description, the last description that declares a
key decides its destination. -/
theorem GoMap.lookup_foldl_descs (events : List (EventDesc S E)) (t : GoMap (eKey S E) S)
    (k : eKey S E) :
    (events.foldl (fun t e => e.Src.foldl (fun t src => t.store ⟨e.Name, src⟩ e.Dst) t)
        t).lookup k
      = match events.reverse.find? (fun ev => decide (k.event = ev.Name ∧ k.src ∈ ev.Src)) with
        | some ev => some ev.Dst
        | none => t.lookup k := by
  induction events generalizing t with
  | nil => rfl
  | cons ev rest ih =>
    rw [List.foldl_cons, ih, List.reverse_cons, List.find?_append]
    cases hfind : rest.reverse.find? (fun ev => decide (k.event = ev.Name ∧ k.src ∈ ev.Src)) with
    | some ev1 => simp
    | none =>
      rw [GoMap.lookup_foldl_store]
      by_cases hk : k.event = ev.Name ∧ k.src ∈ ev.Src
      · simp [hk, List.find?_cons]
      · simp [hk, List.find?_cons]

theorem NewFSM_nodup_keys (initial : S) (events : List (EventDesc S E)) :
    (NewFSM initial events : FSM S E I A X).transitions.keys.Nodup := by
  unfold NewFSM
  simp only
  have gen : ∀ (t : GoMap (eKey S E) S), t.keys.Nodup →
      (events.foldl (fun t e => e.Src.foldl (fun t src => t.store ⟨e.Name, src⟩ e.Dst) t)
        t).keys.Nodup := by
    induction events with
    | nil => intro t ht; exact ht
    | cons ev rest ih =>
      intro t ht
      rw [List.foldl_cons]
      exact ih _ (GoMap.nodup_keys_foldl_store t ev.Name ev.Src ev.Dst ht)
  exact gen _ (by simp [GoMap.empty, GoMap.keys])

theorem FSM.AddTransition_nodup_keys (f : FSM S E I A X) (name : E) (src : List S) (dst : S)
    (h : f.transitions.keys.Nodup) : (f.AddTransition name src dst).transitions.keys.Nodup :=
  GoMap.nodup_keys_foldl_store f.transitions name src dst h


/-! ### Strings and sorting -/

theorem lessChars_irrefl (a : List Char) : lessChars a a = false := by
  induction a with
  | nil => rfl
  | cons c t ih => simp [lessChars, ih]

theorem lessChars_trans (a b c : List Char) (hab : lessChars a b = true)
    (hbc : lessChars b c = true) : lessChars a c = true := by
  induction a generalizing b c with
  | nil =>
    cases b with
    | nil => simp [lessChars] at hab
    | cons y bs =>
      cases c with
      | nil => simp [lessChars] at hbc
      | cons z cs => rfl
  | cons x as ih =>
    cases b with
    | nil => simp [lessChars] at hab
    | cons y bs =>
      cases c with
      | nil => simp [lessChars] at hbc
      | cons z cs =>
        simp only [lessChars] at hab hbc ⊢
        by_cases h1 : x.toNat < y.toNat
        · by_cases h2 : y.toNat < z.toNat
          · have : x.toNat < z.toNat := by omega
            simp [this]
          · by_cases h3 : z.toNat < y.toNat
            · simp [h2, h3] at hbc
            · have : x.toNat < z.toNat := by omega
              simp [this]
        · by_cases h1' : y.toNat < x.toNat
          · simp [h1, h1'] at hab
          · simp only [h1, h1', if_false] at hab
            by_cases h2 : y.toNat < z.toNat
            · have : x.toNat < z.toNat := by omega
              simp [this]
            · by_cases h3 : z.toNat < y.toNat
              · simp [h2, h3] at hbc
              · simp only [h2, h3, if_false] at hbc
                have e1 : ¬ x.toNat < z.toNat := by omega
                have e2 : ¬ z.toNat < x.toNat := by omega
                simp only [e1, e2, if_false]
                exact ih bs cs hab hbc

theorem lessChars_total (a b : List Char) (h : a ≠ b) :
    lessChars a b = true ∨ lessChars b a = true := by
  induction a generalizing b with
  | nil =>
    cases b with
    | nil => exact absurd rfl h
    | cons y bs => exact Or.inl rfl
  | cons x as ih =>
    cases b with
    | nil => exact Or.inr rfl
    | cons y bs =>
      simp only [lessChars]
      by_cases h1 : x.toNat < y.toNat
      · simp [h1]
      · by_cases h2 : y.toNat < x.toNat
        · simp [h2]
        · have hn : x.toNat = y.toNat := by omega
          have hxy : x = y := by
            rw [← Char.ofNat_toNat x, ← Char.ofNat_toNat y, hn]
          subst hxy
          have hne : as ≠ bs := fun e => h (by rw [e])
          simpa [h1] using ih bs hne

theorem stringLess_irrefl (a : String) : stringLess a a = false := lessChars_irrefl _

theorem stringLess_trans (a b c : String) (hab : stringLess a b = true)
    (hbc : stringLess b c = true) : stringLess a c = true :=
  lessChars_trans _ _ _ hab hbc

theorem stringLess_total (a b : String) (h : a ≠ b) :
    stringLess a b = true ∨ stringLess b a = true :=
  lessChars_total _ _ (fun e => h (String.ext e))

theorem stringLess_asymm (a b : String) (hab : stringLess a b = true) :
    stringLess b a = false := by
  by_contra hba
  have h := stringLess_trans a b a hab (by simpa using hba)
  rw [stringLess_irrefl] at h
  exact absurd h (by simp)

/-- If `a` is not below `b` and `b` is not below `c`, then `a` is not below `c`. -/
theorem stringLess_negtrans (a b c : String) (hab : stringLess a b = false)
    (hbc : stringLess b c = false) : stringLess a c = false := by
  by_contra hac
  have hac : stringLess a c = true := by simpa using hac
  by_cases e : a = b
  · subst e; rw [hbc] at hac; exact absurd hac (by simp)
  · rcases stringLess_total a b e with h | h
    · rw [hab] at h; exact absurd h (by simp)
    · have := stringLess_trans b a c h hac
      rw [hbc] at this; exact absurd this (by simp)

section Sorting

variable {α : Type}

theorem insertLess_perm (less : α → α → Bool) (x : α) (l : List α) :
    (insertLess less x l).Perm (x :: l) := by
  induction l with
  | nil => exact List.Perm.refl _
  | cons y ys ih =>
    simp only [insertLess]
    split
    · exact (List.Perm.cons y ih).trans (List.Perm.swap x y ys)
    · exact List.Perm.refl _

theorem sortSlice_perm (less : α → α → Bool) (l : List α) : (sortSlice less l).Perm l := by
  unfold sortSlice
  have gen : ∀ (l acc : List α),
      (l.foldl (fun sorted a => insertLess less a sorted) acc).Perm (l.reverse ++ acc) := by
    intro l
    induction l with
    | nil => intro acc; exact List.Perm.refl _
    | cons a t ih =>
      intro acc
      rw [List.foldl_cons, List.reverse_cons, List.append_assoc]
      exact (ih _).trans (List.Perm.append_left _ (insertLess_perm less a acc))
  have h := gen l []
  rw [List.append_nil] at h
  exact (List.reverse_perm _).trans (h.trans (List.reverse_perm _))

/-- One insertion keeps the sorted part sorted (largest first), when `less` is asymmetric
and negatively transitive on the elements involved. -/
theorem insertLess_sorted (less : α → α → Bool) (x : α) (l : List α)
    (hasym : ∀ y ∈ l, less x y = true → less y x = false)
    (hneg : ∀ y ∈ l, ∀ z ∈ l, less x y = false → less y z = false → less x z = false)
    (hl : l.Pairwise (fun a b => less a b = false)) :
    (insertLess less x l).Pairwise (fun a b => less a b = false) := by
  induction l with
  | nil => simp [insertLess]
  | cons y ys ih =>
    simp only [insertLess]
    rw [List.pairwise_cons] at hl
    by_cases hxy : less x y = true
    · rw [if_pos hxy, List.pairwise_cons]
      refine ⟨?_, ih (fun z hz => hasym z (List.mem_cons_of_mem _ hz))
        (fun z hz w hw => hneg z (List.mem_cons_of_mem _ hz) w (List.mem_cons_of_mem _ hw))
        hl.2⟩
      intro z hz
      rcases List.mem_cons.mp ((insertLess_perm less x ys).mem_iff.mp hz) with rfl | hz
      · exact hasym y (List.mem_cons_self _ _) hxy
      · exact hl.1 z hz
    · have hxy' : less x y = false := by simpa using hxy
      rw [if_neg hxy, List.pairwise_cons]
      refine ⟨?_, List.pairwise_cons.mpr hl⟩
      intro z hz
      rcases List.mem_cons.mp hz with rfl | hz
      · exact hxy'
      · exact hneg y (List.mem_cons_self _ _) z (List.mem_cons_of_mem _ hz) hxy' (hl.1 z hz)

/-- The result of `sortSlice` is in order: no element is less than one before it. -/
theorem sortSlice_sorted (less : α → α → Bool) (l : List α)
    (hasym : ∀ x ∈ l, ∀ y ∈ l, less x y = true → less y x = false)
    (hneg : ∀ x ∈ l, ∀ y ∈ l, ∀ z ∈ l, less x y = false → less y z = false →
      less x z = false) :
    (sortSlice less l).Pairwise (fun a b => less b a = false) := by
  unfold sortSlice
  rw [List.pairwise_reverse]
  have gen : ∀ (t acc : List α), (∀ a ∈ t, a ∈ l) → (∀ a ∈ acc, a ∈ l) →
      acc.Pairwise (fun a b => less a b = false) →
      (t.foldl (fun sorted a => insertLess less a sorted) acc).Pairwise
        (fun a b => less a b = false) := by
    intro t
    induction t with
    | nil => intro acc _ _ h; exact h
    | cons a t ih =>
      intro acc ht hacc h
      rw [List.foldl_cons]
      have ha : a ∈ l := ht a (List.mem_cons_self _ _)
      refine ih _ (fun b hb => ht b (List.mem_cons_of_mem _ hb)) ?_ ?_
      · intro b hb
        rcases List.mem_cons.mp ((insertLess_perm less a acc).mem_iff.mp hb) with rfl | hb
        · exact ha
        · exact hacc b hb
      · exact insertLess_sorted less a acc (fun y hy => hasym a ha y (hacc y hy))
          (fun y hy z hz => hneg a ha y (hacc y hy) z (hacc z hz)) h
  exact gen l [] (fun _ h => h) (fun _ h => absurd h (List.not_mem_nil _)) List.Pairwise.nil

/-- Two lists in order with the same elements are equal when `less` tells any two distinct
elements apart. -/
theorem sorted_perm_unique (less : α → α → Bool) (l1 l2 : List α) (hp : l1.Perm l2)
    (h1 : l1.Pairwise (fun a b => less b a = false))
    (h2 : l2.Pairwise (fun a b => less b a = false))
    (htot : ∀ a ∈ l1, ∀ b ∈ l1, a ≠ b → less a b = true ∨ less b a = true) : l1 = l2 := by
  induction l1 generalizing l2 with
  | nil => exact (List.Perm.nil_eq hp)
  | cons a t1 ih =>
    cases l2 with
    | nil => exact absurd hp.symm.nil_eq (by simp)
    | cons b t2 =>
      rw [List.pairwise_cons] at h1 h2
      have hab : a = b := by
        by_contra hne
        have ha2 : a ∈ t2 := by
          have := hp.mem_iff.mp (List.mem_cons_self a t1)
          rcases List.mem_cons.mp this with h | h
          · exact absurd h hne
          · exact h
        have hb1 : b ∈ t1 := by
          have := hp.mem_iff.mpr (List.mem_cons_self b t2)
          rcases List.mem_cons.mp this with h | h
          · exact absurd h.symm hne
          · exact h
        have e1 := h2.1 a ha2
        have e2 := h1.1 b hb1
        rcases htot a (List.mem_cons_self _ _) b (List.mem_cons_of_mem _ hb1) hne with h | h
        · rw [e1] at h; exact absurd h (by simp)
        · rw [e2] at h; exact absurd h (by simp)
      subst hab
      rw [ih t2 (List.Perm.cons_inv hp) h1.2 h2.2
        (fun x hx y hy => htot x (List.mem_cons_of_mem _ hx) y (List.mem_cons_of_mem _ hy))]

/-- When `less` is asymmetric, negatively transitive and tells distinct elements apart on
the slice, every list in order with the same elements is the result of `sortSlice`: the
result depends neither on the order of the input nor on the sorting algorithm. -/
theorem sortSlice_unique (less : α → α → Bool) (l l2 : List α) (hp : l2.Perm l)
    (h2 : l2.Pairwise (fun a b => less b a = false))
    (hasym : ∀ x ∈ l, ∀ y ∈ l, less x y = true → less y x = false)
    (hneg : ∀ x ∈ l, ∀ y ∈ l, ∀ z ∈ l, less x y = false → less y z = false →
      less x z = false)
    (htot : ∀ a ∈ l, ∀ b ∈ l, a ≠ b → less a b = true ∨ less b a = true) :
    l2 = sortSlice less l :=
  sorted_perm_unique less l2 (sortSlice less l) (hp.trans (sortSlice_perm less l).symm) h2
    (sortSlice_sorted less l hasym hneg)
    (fun a ha b hb => htot a (hp.mem_iff.mp ha) b (hp.mem_iff.mp hb))

end Sorting

/-! ### Decimal numerals -/

theorem digitChar_toNat (d : Nat) (h : d < 10) : (Nat.digitChar d).toNat - 48 = d := by
  interval_cases d <;> rfl

theorem toDigitsCore_append (fuel n : Nat) (ds : List Char) :
    Nat.toDigitsCore 10 fuel n ds = Nat.toDigitsCore 10 fuel n [] ++ ds := by
  induction fuel generalizing n ds with
  | zero => simp [Nat.toDigitsCore]
  | succ fuel ih =>
    simp only [Nat.toDigitsCore]
    split
    · simp
    · rw [ih (n / 10) (Nat.digitChar (n % 10) :: ds), ih (n / 10) [Nat.digitChar (n % 10)]]
      simp

theorem foldl_digits_toDigitsCore (fuel n : Nat) (h : n < fuel) :
    (Nat.toDigitsCore 10 fuel n []).foldl (fun a c => 10 * a + (c.toNat - 48)) 0 = n := by
  induction fuel generalizing n with
  | zero => omega
  | succ fuel ih =>
    simp only [Nat.toDigitsCore]
    have hd : (Nat.digitChar (n % 10)).toNat - 48 = n % 10 :=
      digitChar_toNat _ (Nat.mod_lt _ (by decide))
    split
    · rename_i h0
      simp only [List.foldl_cons, List.foldl_nil, hd]
      omega
    · rename_i h0
      rw [toDigitsCore_append, List.foldl_append, ih (n / 10) (by omega)]
      simp only [List.foldl_cons, List.foldl_nil, hd]
      omega

theorem Nat_repr_injective (i j : Nat) (h : Nat.repr i = Nat.repr j) : i = j := by
  unfold Nat.repr Nat.toDigits at h
  have hd : Nat.toDigitsCore 10 (i + 1) i [] = Nat.toDigitsCore 10 (j + 1) j [] := by
    have := congrArg String.data h
    simpa [List.asString] using this
  have hi := foldl_digits_toDigitsCore (i + 1) i (by omega)
  have hj := foldl_digits_toDigitsCore (j + 1) j (by omega)
  rw [hd] at hi
  omega

theorem id_repr_injective (i j : Nat) (h : "id" ++ Nat.repr i = "id" ++ Nat.repr j) : i = j := by
  apply Nat_repr_injective
  have := congrArg String.data h
  simp only [String.data_append, List.append_cancel_left_eq] at this
  exact String.ext this

theorem id_repr_ne_empty (i : Nat) : "id" ++ Nat.repr i ≠ "" := by
  intro h
  have := congrArg String.length h
  simp at this
  exact absurd this.1 (by decide)

theorem foldl_append_singleton {α : Type} (l acc : List α) :
    l.foldl (fun xs x => xs ++ [x]) acc = acc ++ l := by
  induction l generalizing acc with
  | nil => simp
  | cons a t ih => rw [List.foldl_cons, ih]; simp

/-- A conditional store adds the key when it is missing and changes nothing else. -/
theorem GoMap.keys_store_if_missing {K V : Type} [DecidableEq K] (m : GoMap K V) (k : K)
    (v : V) :
    (if (m.lookup k).isSome then m else m.store k v).keys =
      if k ∈ m.keys then m.keys else m.keys ++ [k] := by
  by_cases h : (m.lookup k).isSome = true
  · rw [if_pos h, if_pos ((GoMap.mem_keys_iff_lookup m k).mpr h)]
  · rw [if_neg h, if_neg (fun hx => h ((GoMap.mem_keys_iff_lookup m k).mp hx)),
      GoMap.keys_store, if_neg (fun hx => h ((GoMap.mem_keys_iff_lookup m k).mp hx))]

theorem GoMap.nodup_keys_store_if_missing {K V : Type} [DecidableEq K] (m : GoMap K V) (k : K)
    (v : V) (h : m.keys.Nodup) :
    (if (m.lookup k).isSome then m else m.store k v).keys.Nodup := by
  split
  · exact h
  · exact GoMap.nodup_keys_store m k v h

theorem GoMap.mem_keys_store_if_missing {K V : Type} [DecidableEq K] (m : GoMap K V) (k : K)
    (v : V) (x : K) :
    x ∈ (if (m.lookup k).isSome then m else m.store k v).keys ↔ x ∈ m.keys ∨ x = k := by
  rw [GoMap.keys_store_if_missing]
  by_cases h : k ∈ m.keys
  · rw [if_pos h]
    constructor
    · exact Or.inl
    · rintro (hx | rfl)
      · exact hx
      · exact h
  · rw [if_neg h]
    simp

theorem FSM.collectStates_spec (f : FSM S E I A X) :
    f.collectStates.keys.Nodup ∧
      ∀ s, s ∈ f.collectStates.keys ↔
        ∃ k d, (k, d) ∈ f.transitions.entries ∧ (s = k.src ∨ s = d) := by
  unfold FSM.collectStates
  have gen : ∀ (l : List (eKey S E × S)) (m : GoMap S String), m.keys.Nodup →
      (l.foldl (fun statesToIDMap entry =>
        let m1 :=
          if (statesToIDMap.lookup entry.1.src).isSome then statesToIDMap
          else statesToIDMap.store entry.1.src ""
        if (m1.lookup entry.2).isSome then m1 else m1.store entry.2 "") m).keys.Nodup
      ∧ ∀ s, s ∈ (l.foldl (fun statesToIDMap entry =>
        let m1 :=
          if (statesToIDMap.lookup entry.1.src).isSome then statesToIDMap
          else statesToIDMap.store entry.1.src ""
        if (m1.lookup entry.2).isSome then m1 else m1.store entry.2 "") m).keys ↔
          s ∈ m.keys ∨ ∃ k d, (k, d) ∈ l ∧ (s = k.src ∨ s = d) := by
    intro l
    induction l with
    | nil => intro m hm; exact ⟨hm, fun s => by simp⟩
    | cons p t ih =>
      intro m hm
      rw [List.foldl_cons]
      have hm1 := GoMap.nodup_keys_store_if_missing m p.1.src "" hm
      have hm2 := GoMap.nodup_keys_store_if_missing _ p.2 "" hm1
      obtain ⟨h1, h2⟩ := ih _ hm2
      refine ⟨h1, fun s => ?_⟩
      rw [h2 s]
      simp only [GoMap.mem_keys_store_if_missing]
      constructor
      · rintro (((hs | hs) | hs) | ⟨k, d, hkd, hs⟩)
        · exact Or.inl hs
        · exact Or.inr ⟨p.1, p.2, List.mem_cons_self _ _, Or.inl hs⟩
        · exact Or.inr ⟨p.1, p.2, List.mem_cons_self _ _, Or.inr hs⟩
        · exact Or.inr ⟨k, d, List.mem_cons_of_mem _ hkd, hs⟩
      · rintro (hs | ⟨k, d, hkd, hs⟩)
        · exact Or.inl (Or.inl (Or.inl hs))
        · rcases List.mem_cons.mp hkd with hp | hkd
          · have e1 : k = p.1 := by rw [← hp]
            have e2 : d = p.2 := by rw [← hp]
            subst e1 e2
            rcases hs with hs | hs
            · exact Or.inl (Or.inl (Or.inr hs))
            · exact Or.inl (Or.inr hs)
          · exact Or.inr ⟨k, d, hkd, hs⟩
  obtain ⟨h1, h2⟩ := gen f.transitions.entries GoMap.empty (by simp [GoMap.empty, GoMap.keys])
  refine ⟨h1, fun s => ?_⟩
  rw [h2 s]
  simp [GoMap.empty, GoMap.keys]

/-- Numbering the elements of a list without repetitions: each gets its own position. -/
theorem GoMap.lookup_foldl_enumFrom (l : List S) (hl : l.Nodup) (g : Nat → String) (n : Nat)
    (m : GoMap S String) :
    (∀ i (hi : i < l.length),
        ((l.enumFrom n).foldl (fun m p => m.store p.2 (g p.1)) m).lookup (l.get ⟨i, hi⟩)
          = some (g (n + i)))
      ∧ ∀ s, s ∉ l →
        ((l.enumFrom n).foldl (fun m p => m.store p.2 (g p.1)) m).lookup s = m.lookup s := by
  induction l generalizing n m with
  | nil => exact ⟨fun i hi => absurd hi (by simp), fun _ _ => rfl⟩
  | cons a t ih =>
    rw [List.nodup_cons] at hl
    simp only [List.enumFrom_cons, List.foldl_cons]
    obtain ⟨h1, h2⟩ := ih hl.2 (n + 1) (m.store a (g n))
    refine ⟨fun i hi => ?_, fun s hs => ?_⟩
    · cases i with
      | zero =>
        simp only [List.get_eq_getElem, List.getElem_cons_zero]
        rw [h2 a hl.1, GoMap.lookup_store]
        simp
      | succ j =>
        have hj : j < t.length := by simpa using hi
        have := h1 j hj
        simp only [List.get_eq_getElem, List.getElem_cons_succ] at this ⊢
        rw [this]
        congr 2
        omega
    · rw [List.mem_cons, not_or] at hs
      rw [h2 s hs.2, GoMap.lookup_store, if_neg hs.1]


theorem FSM.getSortedTransitionKeys_eq (R : Runtime S E) (f : FSM S E I A X) :
    f.getSortedTransitionKeys R = sortSlice (lessTransitionKey R) f.transitions.keys := by
  unfold FSM.getSortedTransitionKeys
  simp only [foldl_append_singleton, List.nil_append]

theorem lessTransitionKey_asymm (R : Runtime S E) (x y : eKey S E)
    (h : lessTransitionKey R x y = true) : lessTransitionKey R y x = false := by
  unfold lessTransitionKey at h ⊢
  by_cases hs : x.src = y.src
  · rw [if_pos hs] at h
    rw [if_pos hs.symm]
    exact stringLess_asymm _ _ h
  · rw [if_neg hs] at h
    rw [if_neg (fun e => hs e.symm)]
    exact stringLess_asymm _ _ h

theorem lessTransitionKey_negtrans (R : Runtime S E) (x y z : eKey S E)
    (hxy : R.sprintS x.src = R.sprintS y.src → x.src = y.src)
    (h1 : lessTransitionKey R x y = false) (h2 : lessTransitionKey R y z = false) :
    lessTransitionKey R x z = false := by
  unfold lessTransitionKey at h1 h2 ⊢
  by_cases a : x.src = y.src
  · rw [if_pos a] at h1
    by_cases b : y.src = z.src
    · rw [if_pos b] at h2
      rw [if_pos (a.trans b)]
      exact stringLess_negtrans _ _ _ h1 h2
    · rw [if_neg b] at h2
      rw [if_neg (fun e => b (a.symm.trans e)), a]
      exact h2
  · rw [if_neg a] at h1
    by_cases b : y.src = z.src
    · rw [if_neg (fun e => a (e.trans b.symm)), ← b]
      exact h1
    · rw [if_neg b] at h2
      by_cases c : x.src = z.src
      · exfalso
        rw [← c] at h2
        apply a
        apply hxy
        by_contra hne
        rcases stringLess_total _ _ hne with h | h
        · rw [h1] at h; exact absurd h (by simp)
        · rw [h2] at h; exact absurd h (by simp)
      · rw [if_neg c]
        exact stringLess_negtrans _ _ _ h1 h2

theorem lessTransitionKey_total (R : Runtime S E) (x y : eKey S E) (hne : x ≠ y)
    (hS : R.sprintS x.src = R.sprintS y.src → x.src = y.src)
    (hE : R.sprintE x.event = R.sprintE y.event → x.event = y.event) :
    lessTransitionKey R x y = true ∨ lessTransitionKey R y x = true := by
  unfold lessTransitionKey
  by_cases a : x.src = y.src
  · rw [if_pos a, if_pos a.symm]
    apply stringLess_total
    intro he
    apply hne
    obtain ⟨xe, xs⟩ := x
    obtain ⟨ye, ys⟩ := y
    simp only at a he hE
    rw [a, hE he]
  · rw [if_neg a, if_neg (fun e => a e.symm)]
    exact stringLess_total _ _ (fun he => a (hS he))

/-! ### The legacy adapter -/

theorem GoMap.mem_keys_store {K V : Type} [DecidableEq K] (m : GoMap K V) (k : K) (v : V)
    (x : K) : x ∈ (m.store k v).keys ↔ x ∈ m.keys ∨ x = k := by
  rw [GoMap.keys_store]
  by_cases h : k ∈ m.keys
  · rw [if_pos h]
    constructor
    · exact Or.inl
    · rintro (hx | rfl)
      · exact hx
      · exact h
  · rw [if_neg h]
    simp

theorem legacy.mem_keys_foldl_src (src : List String) (dst : String) (m : GoMap String Bool)
    (x : String) :
    x ∈ (src.foldl (fun allStates s => (allStates.store s true).store dst true) m).keys ↔
      x ∈ m.keys ∨ (src ≠ [] ∧ (x ∈ src ∨ x = dst)) := by
  induction src generalizing m with
  | nil => simp
  | cons s rest ih =>
    rw [List.foldl_cons, ih, GoMap.mem_keys_store, GoMap.mem_keys_store]
    constructor
    · rintro (((h | h) | h) | ⟨_, h | h⟩)
      · exact Or.inl h
      · exact Or.inr ⟨by simp, Or.inl (by simp [h])⟩
      · exact Or.inr ⟨by simp, Or.inr h⟩
      · exact Or.inr ⟨by simp, Or.inl (List.mem_cons_of_mem _ h)⟩
      · exact Or.inr ⟨by simp, Or.inr h⟩
    · rintro (h | ⟨_, h | h⟩)
      · exact Or.inl (Or.inl (Or.inl h))
      · rcases List.mem_cons.mp h with h | h
        · exact Or.inl (Or.inl (Or.inr h))
        · by_cases hr : rest = []
          · subst hr; simp at h
          · exact Or.inr ⟨hr, Or.inl h⟩
      · exact Or.inl (Or.inr h)

/-- What the two sets hold: `allEvents` the names of the descriptions, `allStates` the
sources and the destinations of the descriptions that have a source. -/
theorem legacy.declared_spec (events : List (EventDesc String String)) (x : String) :
    (((legacy.declared events).1.lookup x).isSome = true ↔ x ∈ events.map EventDesc.Name)
      ∧ (((legacy.declared events).2.lookup x).isSome = true ↔
          ∃ ev ∈ events, ev.Src ≠ [] ∧ (x ∈ ev.Src ∨ x = ev.Dst)) := by
  have gen : ∀ (l : List (EventDesc String String)) (sets : GoMap String Bool × GoMap String Bool),
      (x ∈ (l.foldl (fun sets e =>
          let allStates :=
            e.Src.foldl (fun allStates src => (allStates.store src true).store e.Dst true) sets.2
          (sets.1.store e.Name true, allStates)) sets).1.keys ↔
        x ∈ sets.1.keys ∨ x ∈ l.map EventDesc.Name)
      ∧ (x ∈ (l.foldl (fun sets e =>
          let allStates :=
            e.Src.foldl (fun allStates src => (allStates.store src true).store e.Dst true) sets.2
          (sets.1.store e.Name true, allStates)) sets).2.keys ↔
        x ∈ sets.2.keys ∨ ∃ ev ∈ l, ev.Src ≠ [] ∧ (x ∈ ev.Src ∨ x = ev.Dst)) := by
    intro l
    induction l with
    | nil => intro sets; simp
    | cons e t ih =>
      intro sets
      rw [List.foldl_cons]
      obtain ⟨h1, h2⟩ := ih (sets.1.store e.Name true,
        e.Src.foldl (fun allStates src => (allStates.store src true).store e.Dst true) sets.2)
      refine ⟨?_, ?_⟩
      · rw [h1]
        simp only [GoMap.mem_keys_store, List.map_cons, List.mem_cons, or_assoc]
      · rw [h2]
        simp only [legacy.mem_keys_foldl_src, List.exists_mem_cons_iff, or_assoc]
  obtain ⟨h1, h2⟩ := gen events (GoMap.empty, GoMap.empty)
  unfold legacy.declared
  rw [← GoMap.mem_keys_iff_lookup, ← GoMap.mem_keys_iff_lookup, h1, h2]
  simp [GoMap.empty, GoMap.keys]

theorem legacy.HasPrefix_append (pre x : String) : legacy.HasPrefix (pre ++ x) pre = true := by
  unfold legacy.HasPrefix
  rw [String.data_append, List.isPrefixOf_iff_prefix]
  exact List.prefix_append _ _

theorem legacy.TrimPrefix_append (pre x : String) : legacy.TrimPrefix (pre ++ x) pre = x := by
  unfold legacy.TrimPrefix
  rw [if_pos (legacy.HasPrefix_append pre x), String.data_append, List.drop_left]

theorem legacy.not_before_of_leave (x : String) :
    legacy.HasPrefix ("leave_" ++ x) "before_" = false := by
  unfold legacy.HasPrefix
  rw [String.data_append]
  rfl

theorem legacy.not_before_of_enter (x : String) :
    legacy.HasPrefix ("enter_" ++ x) "before_" = false := by
  unfold legacy.HasPrefix
  rw [String.data_append]
  rfl

theorem legacy.not_leave_of_enter (x : String) :
    legacy.HasPrefix ("enter_" ++ x) "leave_" = false := by
  unfold legacy.HasPrefix
  rw [String.data_append]
  rfl

theorem legacy.not_before_of_after (x : String) :
    legacy.HasPrefix ("after_" ++ x) "before_" = false := by
  unfold legacy.HasPrefix
  rw [String.data_append]
  rfl

theorem legacy.not_leave_of_after (x : String) :
    legacy.HasPrefix ("after_" ++ x) "leave_" = false := by
  unfold legacy.HasPrefix
  rw [String.data_append]
  rfl

theorem legacy.not_enter_of_after (x : String) :
    legacy.HasPrefix ("after_" ++ x) "enter_" = false := by
  unfold legacy.HasPrefix
  rw [String.data_append]
  rfl

section LegacyTranslate

variable {V X : Type}

theorem legacy.translate_before (allEvents allStates : GoMap String Bool)
    (f : FSM String String (legacy.StateMachine V) V X) (x : String)
    (fn : legacy.LegacyCallback V X) :
    legacy.translate allEvents allStates f ("before_" ++ x) fn =
      if x = "event" then f.BeforeAny (some (legacy.wrap fn))
      else if (allEvents.lookup x).isSome then f.Before x (some (legacy.wrap fn))
      else f := by
  unfold legacy.translate
  rw [if_pos (legacy.HasPrefix_append _ _)]
  simp only [legacy.TrimPrefix_append]

theorem legacy.translate_leave (allEvents allStates : GoMap String Bool)
    (f : FSM String String (legacy.StateMachine V) V X) (x : String)
    (fn : legacy.LegacyCallback V X) :
    legacy.translate allEvents allStates f ("leave_" ++ x) fn =
      if x = "state" then f.OnLeaveAny (some (legacy.wrap fn))
      else if (allStates.lookup x).isSome then f.OnLeave x (some (legacy.wrap fn))
      else f := by
  unfold legacy.translate
  rw [if_neg (by rw [legacy.not_before_of_leave]; simp), if_pos (legacy.HasPrefix_append _ _)]
  simp only [legacy.TrimPrefix_append]

theorem legacy.translate_enter (allEvents allStates : GoMap String Bool)
    (f : FSM String String (legacy.StateMachine V) V X) (x : String)
    (fn : legacy.LegacyCallback V X) :
    legacy.translate allEvents allStates f ("enter_" ++ x) fn =
      if x = "state" then f.OnEnterAny (some (legacy.wrap fn))
      else if (allStates.lookup x).isSome then f.OnEnter x (some (legacy.wrap fn))
      else f := by
  unfold legacy.translate
  rw [if_neg (by rw [legacy.not_before_of_enter]; simp),
    if_neg (by rw [legacy.not_leave_of_enter]; simp), if_pos (legacy.HasPrefix_append _ _)]
  simp only [legacy.TrimPrefix_append]

theorem legacy.translate_after (allEvents allStates : GoMap String Bool)
    (f : FSM String String (legacy.StateMachine V) V X) (x : String)
    (fn : legacy.LegacyCallback V X) :
    legacy.translate allEvents allStates f ("after_" ++ x) fn =
      if x = "event" then f.AfterAny (some (legacy.wrap fn))
      else if (allEvents.lookup x).isSome then f.After x (some (legacy.wrap fn))
      else f := by
  unfold legacy.translate
  rw [if_neg (by rw [legacy.not_before_of_after]; simp),
    if_neg (by rw [legacy.not_leave_of_after]; simp),
    if_neg (by rw [legacy.not_enter_of_after]; simp), if_pos (legacy.HasPrefix_append _ _)]
  simp only [legacy.TrimPrefix_append]

end LegacyTranslate

/-! ### What one call can do to the current state -/

theorem GoMap.mem_of_lookup {K V : Type} [DecidableEq K] (m : GoMap K V) (k : K) (v : V)
    (h : m.lookup k = some v) : (k, v) ∈ m.entries := by
  unfold GoMap.lookup at h
  cases hf : m.entries.find? (fun p => decide (p.1 = k)) with
  | none => rw [hf] at h; simp at h
  | some p =>
    rw [hf] at h
    have hk : p.1 = k := by simpa using List.find?_some hf
    have hv : p.2 = v := by simpa using h
    have hm := List.mem_of_find?_eq_some hf
    rw [← hk, ← hv]
    exact hm

/-- The two ways an attempt can end: with an error and the current state as it was, or
committed to the destination the table gives, with no cancellation flag raised by a before
or leave callback. The definition is never replaced. -/
theorem Instance.Event_outcome_cases (f : Instance S E I A X) (event : E) (args : List A) :
    (f.Event event args).inst.FSM = f.FSM ∧
      (((f.Event event args).inst.current = f.current ∧ (f.Event event args).err ≠ .nil) ∨
        (∃ d, f.FSM.transitions.lookup ⟨event, f.current⟩ = some d ∧ d ≠ f.current ∧
          (f.Event event args).inst.current = d ∧
          ∀ c ∈ (f.Event event args).calls,
            (c.slot = .Before event ∨ c.slot = .BeforeAny ∨ c.slot = .OnLeave f.current
              ∨ c.slot = .OnLeaveAny) → c.eOut.canceled = false)) := by
  cases h : f.FSM.transitions.lookup ⟨event, f.current⟩ with
  | none =>
    unfold Instance.Event
    simp only [h]
    split_ifs
    · exact ⟨rfl, Or.inl ⟨rfl, by simp⟩⟩
    · exact ⟨rfl, Or.inl ⟨rfl, by simp⟩⟩
  | some dst =>
    rw [Instance.Event_eq_pipeline f event args dst h]
    unfold Instance.pipeline
    simp only
    split_ifs with h1 h2 h3 h4 h5
    · exact ⟨by simp [Run.cancelled], Or.inl ⟨by simp [Run.cancelled], by simp [Run.cancelled]⟩⟩
    · exact ⟨by simp [Run.cancelled, Instance.afterBefore],
        Or.inl ⟨by simp [Run.cancelled, Instance.afterBefore], by simp [Run.cancelled]⟩⟩
    · exact ⟨by simp [Run.afterPhase, Instance.afterBefore],
        Or.inl ⟨by simp [Run.afterPhase, Instance.afterBefore], by simp⟩⟩
    · exact ⟨by simp [Run.cancelled, Instance.afterBefore],
        Or.inl ⟨by simp [Run.cancelled, Instance.afterBefore], by simp [Run.cancelled]⟩⟩
    · exact ⟨by simp [Run.cancelled, Instance.afterLeave, Instance.afterBefore],
        Or.inl ⟨by simp [Run.cancelled, Instance.afterLeave, Instance.afterBefore],
          by simp [Run.cancelled]⟩⟩
    · refine ⟨by simp [Run.afterPhase, Instance.afterEnter, Instance.afterLeave,
        Instance.afterBefore], Or.inr ⟨dst, rfl, fun hd => h3 hd.symm,
          by simp [Run.afterPhase, Instance.afterEnter], ?_⟩⟩
      intro c hc hslot
      simp only [Run.afterPhase, Instance.afterEnter, Instance.afterLeave,
        Instance.afterBefore, Run.mem_step_calls, Run.commit_calls, List.not_mem_nil,
        false_or] at hc h2 h5
      rcases hc with ((((((⟨_, rfl⟩ | ⟨_, rfl⟩) | ⟨_, rfl⟩) | ⟨_, rfl⟩) | ⟨_, rfl⟩) |
        ⟨_, rfl⟩) | ⟨_, rfl⟩) | ⟨_, rfl⟩
      · simpa using h1
      · simpa using h2
      · simpa using h4
      · simpa using h5
      · simp at hslot
      · simp at hslot
      · simp at hslot
      · simp at hslot

/-- A sequence of `Event` calls never replaces the definition, and ends in the state it
started in or in a destination of the table. -/
theorem Instance.Events_invariant (f : Instance S E I A X) (calls : List (E × List A)) :
    (f.Events calls).FSM = f.FSM ∧
      ((f.Events calls).current = f.current ∨
        ∃ k, (k, (f.Events calls).current) ∈ f.FSM.transitions.entries) := by
  unfold Instance.Events
  induction calls generalizing f with
  | nil => exact ⟨rfl, Or.inl rfl⟩
  | cons c t ih =>
    simp only [List.foldl_cons]
    obtain ⟨hF, hcur⟩ := ih (f.Event c.1 c.2).inst
    obtain ⟨hF1, h1⟩ := Instance.Event_outcome_cases f c.1 c.2
    refine ⟨hF.trans hF1, ?_⟩
    rw [hF1] at hcur
    rcases hcur with hcur | hcur
    · rcases h1 with ⟨h1, _⟩ | ⟨d, hd, _, h1, _⟩
      · exact Or.inl (hcur.trans h1)
      · right
        refine ⟨⟨c.1, f.current⟩, ?_⟩
        rw [hcur, h1]
        exact GoMap.mem_of_lookup _ _ _ hd
    · exact Or.inr hcur

/-! ### The loop over the callbacks map of the legacy adapter -/

theorem FSM.callback_setSlot (f : FSM S E I A X) (s : Slot S E)
    (cb : Option (Callback S E I A X)) (slot : Slot S E) :
    (f.setSlot s cb).callback slot = if slot = s then cb else f.callback slot := by
  cases s with
  | Before e => exact FSM.callback_Before f e cb slot
  | BeforeAny => exact FSM.callback_BeforeAny f cb slot
  | OnLeave s => exact FSM.callback_OnLeave f s cb slot
  | OnLeaveAny => exact FSM.callback_OnLeaveAny f cb slot
  | OnEnter s => exact FSM.callback_OnEnter f s cb slot
  | OnEnterAny => exact FSM.callback_OnEnterAny f cb slot
  | After e => exact FSM.callback_After f e cb slot
  | AfterAny => exact FSM.callback_AfterAny f cb slot

/-- The loop body writes the slot its name stands for, or nothing. -/
theorem legacy.translate_eq_setSlot (allEvents allStates : GoMap String Bool)
    (f : FSM String String (legacy.StateMachine V) V X) (name : String)
    (fn : legacy.LegacyCallback V X) :
    legacy.translate allEvents allStates f name fn =
      match legacy.target allEvents allStates name with
      | some slot => f.setSlot slot (some (legacy.wrap fn))
      | none => f := by
  unfold legacy.translate legacy.target
  simp only
  split_ifs <;> rfl

theorem legacy.callback_translate (allEvents allStates : GoMap String Bool)
    (f : FSM String String (legacy.StateMachine V) V X) (name : String)
    (fn : legacy.LegacyCallback V X) (slot : Slot String String) :
    (legacy.translate allEvents allStates f name fn).callback slot =
      if legacy.target allEvents allStates name = some slot then some (legacy.wrap fn)
      else f.callback slot := by
  rw [legacy.translate_eq_setSlot]
  cases h : legacy.target allEvents allStates name with
  | none => simp
  | some s =>
    simp only [FSM.callback_setSlot, Option.some.injEq]
    by_cases hs : slot = s
    · rw [if_pos hs, if_pos hs.symm]
    · rw [if_neg hs, if_neg (fun h => hs h.symm)]

/-- After the loop a slot holds the function of the last visited entry whose name stands
for it, and what it held before the loop when there is no such entry. -/
theorem legacy.callback_foldl_translate (allEvents allStates : GoMap String Bool)
    (l : List (String × legacy.LegacyCallback V X))
    (f : FSM String String (legacy.StateMachine V) V X) (slot : Slot String String) :
    (l.foldl (fun f entry => legacy.translate allEvents allStates f entry.1 entry.2)
        f).callback slot =
      match l.reverse.find?
          (fun entry => decide (legacy.target allEvents allStates entry.1 = some slot)) with
      | some entry => some (legacy.wrap entry.2)
      | none => f.callback slot := by
  induction l generalizing f with
  | nil => rfl
  | cons a t ih =>
    rw [List.foldl_cons, ih, List.reverse_cons, List.find?_append]
    cases ht : t.reverse.find?
        (fun entry => decide (legacy.target allEvents allStates entry.1 = some slot)) with
    | some b => rfl
    | none =>
      simp only [Option.none_or, List.find?_cons, List.find?_nil]
      rw [legacy.callback_translate]
      by_cases ha : legacy.target allEvents allStates a.1 = some slot
      · simp [ha]
      · simp [ha]

/-- The first hit of a search does not depend on the order of the list when at most one
element of the list is a hit. -/
theorem find?_perm_of_unique {α : Type} (p : α → Bool) (l1 l2 : List α) (hp : l1.Perm l2)
    (huniq : ∀ a ∈ l1, ∀ b ∈ l1, p a = true → p b = true → a = b) :
    l1.find? p = l2.find? p := by
  cases h1 : l1.find? p with
  | none =>
    symm
    rw [List.find?_eq_none] at h1 ⊢
    exact fun x hx => h1 x (hp.mem_iff.mpr hx)
  | some a =>
    have ha := List.mem_of_find?_eq_some h1
    have hpa := List.find?_some h1
    cases h2 : l2.find? p with
    | none =>
      rw [List.find?_eq_none] at h2
      exact absurd hpa (h2 a (hp.mem_iff.mp ha))
    | some b =>
      have hb := hp.mem_iff.mpr (List.mem_of_find?_eq_some h2)
      rw [huniq a ha b hb hpa (List.find?_some h2)]

/-- Two entries of a map with the same key are the same entry. -/
theorem GoMap.entry_unique {K W : Type} (m : GoMap K W) (hnd : m.keys.Nodup)
    (a b : K × W) (ha : a ∈ m.entries) (hb : b ∈ m.entries) (hk : a.1 = b.1) : a = b :=
  List.inj_on_of_nodup_map hnd ha hb hk

end PipelineLemmas

/-! ## Claims -/

section Claims

variable {S E I A X : Type} [DecidableEq S] [DecidableEq E]

/-- C1: for a table entry `(event, f.current) = dst` with `dst` different from the current
state and callbacks that leave the Event record untouched, `Instance.Event` invokes exactly
the registered ones among Before(event), BeforeAny, OnLeave(current), OnLeaveAny,
OnEnter(dst), OnEnterAny, After(event), AfterAny, each once and in this order, nothing
else, and afterwards `Current()` is `dst` (and the call returns nil). -/
theorem C1_full_pipeline_order (f : Instance S E I A X) (event : E) (args : List A) (dst : S)
    (h : f.FSM.transitions.lookup ⟨event, f.current⟩ = some dst)
    (hne : dst ≠ f.current)
    (hkeep : ∀ slot fn, f.FSM.callback slot = some fn → ∀ p ev, (fn p ev).2 = ev) :
    (f.Event event args).calls.map Call.slot =
        (pipelineSlots event f.current dst).filter f.FSM.registered
      ∧ ((f.Event event args).calls.map Call.slot).Nodup
      ∧ (f.Event event args).inst.Current = dst
      ∧ (f.Event event args).err = .nil := by
  have key : (f.Event event args).calls.map Call.slot =
        (pipelineSlots event f.current dst).filter f.FSM.registered
      ∧ (f.Event event args).inst.Current = dst
      ∧ (f.Event event args).err = .nil := by
    rw [Instance.Event_eq_pipeline f event args dst h]
    have k : ∀ (r : Run S E I A X) (slot : Slot S E), r.inst.FSM = f.FSM →
        (r.step slot).e = r.e := fun r slot hr =>
      Run.step_e_of_keeps r slot (fun fn hfn => hkeep slot fn (hr ▸ hfn))
    have e1 : ((Run.mk f (f.record event args dst) []).step (.Before event)).e
        = f.record event args dst := k _ _ rfl
    have e2 : (f.afterBefore event args dst).e = f.record event args dst := by
      unfold Instance.afterBefore; rw [k _ _ (by simp), e1]
    have e3 : ((f.afterBefore event args dst).step (.OnLeave f.current)).e
        = f.record event args dst := by
      rw [k _ _ (by simp [Instance.afterBefore]), e2]
    have e4 : (f.afterLeave event args dst).e = f.record event args dst := by
      unfold Instance.afterLeave; rw [k _ _ (by simp [Instance.afterBefore]), e3]
    have e5 : (f.afterEnter event args dst).e = f.record event args dst := by
      unfold Instance.afterEnter
      rw [k _ _ (by simp [Instance.afterLeave, Instance.afterBefore]),
        k _ _ (by simp [Instance.afterLeave, Instance.afterBefore]), Run.commit_e, e4]
    have e6 : (f.afterEnter event args dst).afterPhase.e = f.record event args dst := by
      unfold Run.afterPhase
      rw [k _ _ (by simp [Instance.afterEnter, Instance.afterLeave, Instance.afterBefore]),
        k _ _ (by simp [Instance.afterEnter, Instance.afterLeave, Instance.afterBefore]), e5]
    have c0 : (f.record event args dst).canceled = false := rfl
    simp only [Instance.pipeline, e1, e2, e3, e4, c0, Bool.false_eq_true, if_false,
      Ne.symm hne]
    refine ⟨?_, ?_, ?_⟩
    · rw [pipelineSlots_filter]
      simp only [Run.afterPhase, Run.step_slots, e5]
      simp only [Instance.afterEnter, Instance.afterLeave, Instance.afterBefore,
        Run.step_slots, Run.commit_calls, Run.step_FSM, Run.commit_FSM, Instance.record,
        List.map_nil, List.nil_append]
    · simp [Instance.Current, Run.afterPhase, Instance.afterEnter]
    · rw [e6]; rfl
  exact ⟨key.1, key.1 ▸ (pipelineSlots_nodup event f.current dst).filter _, key.2.1, key.2.2⟩

theorem C1_full_pipeline_order_witness :
    door.NewInstance.FSM.transitions.lookup ⟨"open", door.NewInstance.current⟩ = some "open"
      ∧ (door.NewInstance.Event "open" ["a"]).calls.map Call.slot =
        (pipelineSlots "open" door.NewInstance.current "open").filter
          door.NewInstance.FSM.registered
      ∧ ((door.NewInstance.Event "open" ["a"]).calls.map Call.slot).Nodup
      ∧ (door.NewInstance.Event "open" ["a"]).inst.Current = "open"
      ∧ (door.NewInstance.Event "open" ["a"]).err = .nil :=
  ⟨by decide,
    C1_full_pipeline_order door.NewInstance "open" ["a"] "open" (by decide) (by decide)
      (by
        intro slot fn h p ev
        simp only [FSM.NewInstance, door, FSM.callback_AfterAny, FSM.callback_After,
          FSM.callback_OnEnterAny, FSM.callback_OnEnter, FSM.callback_OnLeaveAny,
          FSM.callback_OnLeave, FSM.callback_BeforeAny, FSM.callback_Before,
          FSM.callback_NewFSM] at h
        split_ifs at h <;> (cases h; rfl))⟩

/-- C2: when the table has no entry for `(event, f.current)`, `Instance.Event` returns
`UnknownEventError{event}` if no entry of the table has this event and
`InvalidEventError{event, f.current}` otherwise; the instance (current state, payload,
definition) is as before and no callback is invoked. -/
theorem C2_lookup_failure (f : Instance S E I A X) (event : E) (args : List A)
    (h : f.FSM.transitions.lookup ⟨event, f.current⟩ = none) :
    ((¬ ∃ s d, ((⟨event, s⟩ : eKey S E), d) ∈ f.FSM.transitions.entries) →
        (f.Event event args).err = .UnknownEventError event)
      ∧ ((∃ s d, ((⟨event, s⟩ : eKey S E), d) ∈ f.FSM.transitions.entries) →
        (f.Event event args).err = .InvalidEventError event f.current)
      ∧ (f.Event event args).inst.Current = f.current
      ∧ (f.Event event args).calls = []
      ∧ (f.Event event args).inst.Self = f.Self
      ∧ (f.Event event args).inst = f := by
  have hiff : (f.FSM.transitions.keys.any (fun ekey => decide (ekey.event = event)) = true)
      ↔ ∃ s d, ((⟨event, s⟩ : eKey S E), d) ∈ f.FSM.transitions.entries := by
    rw [List.any_eq_true]
    constructor
    · rintro ⟨⟨e1, s1⟩, hmem, he⟩
      have he2 : e1 = event := by simpa using he
      subst he2
      obtain ⟨⟨k, d⟩, hp, hk⟩ := List.mem_map.mp hmem
      exact ⟨s1, d, by rw [← hk]; exact hp⟩
    · rintro ⟨s1, d, hmem⟩
      exact ⟨⟨event, s1⟩, List.mem_map.mpr ⟨_, hmem, rfl⟩, by simp⟩
  unfold Instance.Event
  simp only [h]
  by_cases hany : f.FSM.transitions.keys.any (fun ekey => decide (ekey.event = event)) = true
  · rw [if_pos hany]
    exact ⟨fun hx => absurd (hiff.mp hany) hx, fun _ => rfl, rfl, rfl, rfl, rfl⟩
  · rw [if_neg hany]
    exact ⟨fun _ => rfl, fun hx => absurd (hiff.mpr hx) hany, rfl, rfl, rfl, rfl⟩

theorem C2_lookup_failure_witness :
    door.NewInstance.FSM.transitions.lookup ⟨"close", door.NewInstance.current⟩ = none
      ∧ (door.NewInstance.Event "close" []).inst.Current = "closed"
      ∧ (door.NewInstance.Event "close" []).calls = [] :=
  ⟨by decide,
    (C2_lookup_failure door.NewInstance "close" [] (by decide)).2.2.1,
    (C2_lookup_failure door.NewInstance "close" [] (by decide)).2.2.2.1⟩

/-- C3: when the table has an entry `(event, f.current) = dst` and a callback invoked from
the slot Before(event), BeforeAny, OnLeave(current) or OnLeaveAny returns with the
cancellation flag set, `Instance.Event` returns `CanceledError` carrying the record's `Err`
as that callback left it (nil when no callback of the attempt wrote `Err`), `Current()` is
unchanged, and that call is the last of the attempt: no later callback is invoked. -/
theorem C3_cancel_before_or_leave (f : Instance S E I A X) (event : E) (args : List A)
    (dst : S) (h : f.FSM.transitions.lookup ⟨event, f.current⟩ = some dst)
    (c : Call S E I A X) (hc : c ∈ (f.Event event args).calls)
    (hslot : c.slot = .Before event ∨ c.slot = .BeforeAny ∨ c.slot = .OnLeave f.current
      ∨ c.slot = .OnLeaveAny)
    (hflag : c.eOut.canceled = true) :
    (f.Event event args).err = .CanceledError c.eOut.Err
      ∧ (f.Event event args).inst.Current = f.current
      ∧ (f.Event event args).calls.getLast? = some c
      ∧ ((∀ c1 ∈ (f.Event event args).calls, c1.eOut.Err = c1.eIn.Err) →
          (f.Event event args).err = .CanceledError .nil) := by
  rw [Instance.Event_eq_pipeline f event args dst h] at hc ⊢
  unfold Instance.pipeline at hc ⊢
  simp only at hc ⊢
  split_ifs at hc ⊢ with h1 h2 h3 h4 h5
  · have ht := (Run.Traced.init f (f.record event args dst)).step (.Before event)
    simp only [Run.cancelled] at hc ⊢
    simp only [Run.mem_step_calls, List.not_mem_nil, false_or] at hc
    obtain ⟨hreg, rfl⟩ := hc
    refine ⟨rfl, by simp [Instance.Current], ?_, fun hk => ?_⟩
    · rw [Run.step_calls, if_pos hreg]
      simp
    · rw [ht.Err_of_keep hk]; rfl
  · have ht := f.traced_afterBefore event args dst
    simp only [Run.cancelled] at hc ⊢
    simp only [Instance.afterBefore] at hc ht ⊢
    simp only [Run.mem_step_calls, List.not_mem_nil, false_or] at hc
    rcases hc with ⟨_, rfl⟩ | ⟨hreg, rfl⟩
    · exact absurd hflag h1
    · refine ⟨rfl, by simp [Instance.Current], ?_, fun hk => ?_⟩
      · rw [Run.step_calls, if_pos hreg]
        simp
      · rw [ht.Err_of_keep hk]; rfl
  · exfalso
    simp only [Run.afterPhase, Instance.afterBefore, Run.mem_step_calls, List.not_mem_nil,
      false_or] at hc h2
    rcases hc with ((⟨_, rfl⟩ | ⟨_, rfl⟩) | ⟨_, rfl⟩) | ⟨_, rfl⟩
    · exact h1 hflag
    · exact h2 hflag
    · simp at hslot
    · simp at hslot
  · have ht := (f.traced_afterBefore event args dst).step (.OnLeave f.current)
    simp only [Run.cancelled] at hc ⊢
    simp only [Instance.afterBefore] at hc h2 ht ⊢
    simp only [Run.mem_step_calls, List.not_mem_nil, false_or] at hc
    rcases hc with (⟨_, rfl⟩ | ⟨_, rfl⟩) | ⟨hreg, rfl⟩
    · exact absurd hflag h1
    · exact absurd hflag h2
    · refine ⟨rfl, by simp [Instance.Current], ?_, fun hk => ?_⟩
      · rw [Run.step_calls, if_pos hreg]
        simp
      · rw [ht.Err_of_keep hk]; rfl
  · have ht := f.traced_afterLeave event args dst
    simp only [Run.cancelled] at hc ⊢
    simp only [Instance.afterLeave, Instance.afterBefore] at hc h2 h4 ht ⊢
    simp only [Run.mem_step_calls, List.not_mem_nil, false_or] at hc
    rcases hc with ((⟨_, rfl⟩ | ⟨_, rfl⟩) | ⟨_, rfl⟩) | ⟨hreg, rfl⟩
    · exact absurd hflag h1
    · exact absurd hflag h2
    · exact absurd hflag h4
    · refine ⟨rfl, by simp [Instance.Current], ?_, fun hk => ?_⟩
      · rw [Run.step_calls, if_pos hreg]
        simp
      · rw [ht.Err_of_keep hk]; rfl
  · exfalso
    simp only [Run.afterPhase, Instance.afterEnter, Instance.afterLeave, Instance.afterBefore,
      Run.mem_step_calls, Run.commit_calls, List.not_mem_nil, false_or] at hc h2 h4 h5
    rcases hc with
      ((((((⟨_, rfl⟩ | ⟨_, rfl⟩) | ⟨_, rfl⟩) | ⟨_, rfl⟩) | ⟨_, rfl⟩) | ⟨_, rfl⟩) | ⟨_, rfl⟩)
        | ⟨_, rfl⟩
    · exact h1 hflag
    · exact h2 hflag
    · exact h4 hflag
    · exact h5 hflag
    · simp at hslot
    · simp at hslot
    · simp at hslot
    · simp at hslot

theorem C3_cancel_before_or_leave_witness :
    (lockedDoor.NewInstance.Event "open" []).err = .CanceledError (.custom "locked")
      ∧ (lockedDoor.NewInstance.Event "open" []).inst.Current = "closed"
      ∧ ((lockedDoor.NewInstance.Event "open" []).calls.map Call.slot).getLast?
          = some (.OnLeave "closed") := by
  have hw := C3_cancel_before_or_leave lockedDoor.NewInstance "open" [] "open" (by decide)
    ⟨.OnLeave "closed", [], ⟨"open", "closed", "open", .nil, [], false⟩, ["lock"],
      ⟨"open", "closed", "open", .custom "locked", [], true⟩⟩
    (by decide) (by decide) rfl
  refine ⟨hw.1, hw.2.1, ?_⟩
  rw [List.getLast?_map, hw.2.2.1]
  rfl

/-- C4, refuted as stated: on the machine of `examples/data.go` with a before callback
that cancels, the self-transition `produce: idle → idle` returns `CanceledError{nil}`, which
is not a `NoTransitionError`. -/
theorem C4_counterexample :
    vetoedProducer.NewInstance.FSM.transitions.lookup ⟨"produce", vetoedProducer.NewInstance.current⟩
        = some vetoedProducer.NewInstance.current
      ∧ (vetoedProducer.NewInstance.Event "produce" []).err = .CanceledError .nil
      ∧ ¬ ∃ x, (vetoedProducer.NewInstance.Event "produce" []).err = .NoTransitionError x := by
  refine ⟨by decide, by decide, ?_⟩
  rintro ⟨x, hx⟩
  have hc : (vetoedProducer.NewInstance.Event "produce" []).err = .CanceledError .nil := by
    decide
  rw [hc] at hx
  cases hx

/-- C4, amended: for a table entry `(event, f.current) = f.current`, whatever callbacks are
registered, no OnLeave, OnLeaveAny, OnEnter or OnEnterAny callback is invoked and
`Current()` is unchanged; `Instance.Event` returns a `NoTransitionError` when no
Before(event) or BeforeAny callback cancels, and a `CanceledError` when one does. -/
theorem C4_self_transition (f : Instance S E I A X) (event : E) (args : List A)
    (h : f.FSM.transitions.lookup ⟨event, f.current⟩ = some f.current) :
    (∀ c ∈ (f.Event event args).calls,
        (∀ s, c.slot ≠ .OnLeave s) ∧ c.slot ≠ .OnLeaveAny ∧ (∀ s, c.slot ≠ .OnEnter s)
          ∧ c.slot ≠ .OnEnterAny)
      ∧ (f.Event event args).inst.Current = f.current
      ∧ ((∀ c ∈ (f.Event event args).calls, (c.slot = .Before event ∨ c.slot = .BeforeAny) →
            c.eOut.canceled = false) →
          ∃ x, (f.Event event args).err = .NoTransitionError x)
      ∧ ((∃ c ∈ (f.Event event args).calls, (c.slot = .Before event ∨ c.slot = .BeforeAny) ∧
            c.eOut.canceled = true) →
          ∃ x, (f.Event event args).err = .CanceledError x) := by
  rw [Instance.Event_eq_pipeline f event args f.current h]
  unfold Instance.pipeline
  simp only [if_true]
  split_ifs with h1 h2
  · refine ⟨?_, by simp [Run.cancelled, Instance.Current], fun hq => ?_, fun _ => ⟨_, rfl⟩⟩
    · intro c hc
      simp only [Run.cancelled, Run.mem_step_calls, List.not_mem_nil, false_or] at hc
      obtain ⟨_, rfl⟩ := hc
      simp
    · exfalso
      have := Run.step_e_prop ⟨f, f.record event args f.current, []⟩ (.Before event)
        (fun e => e.canceled = false) rfl (fun _ hm => hq _ hm (Or.inl rfl))
      simp only [this] at h1
      exact absurd h1 (by simp)
  · refine ⟨?_, by simp [Run.cancelled, Instance.Current, Instance.afterBefore],
      fun hq => ?_, fun _ => ⟨_, rfl⟩⟩
    · intro c hc
      simp only [Run.cancelled, Instance.afterBefore, Run.mem_step_calls, List.not_mem_nil,
        false_or] at hc
      rcases hc with ⟨_, rfl⟩ | ⟨_, rfl⟩ <;> simp
    · exfalso
      have := Run.step_e_prop (Run.step ⟨f, f.record event args f.current, []⟩ (.Before event))
        .BeforeAny (fun e => e.canceled = false) (by simpa using h1)
        (fun _ hm => hq _ hm (Or.inr rfl))
      simp only [Instance.afterBefore] at h2
      simp only [this] at h2
      exact absurd h2 (by simp)
  · refine ⟨?_, by simp [Run.afterPhase, Instance.Current, Instance.afterBefore],
      fun _ => ⟨_, rfl⟩, ?_⟩
    · intro c hc
      simp only [Run.afterPhase, Instance.afterBefore, Run.mem_step_calls, List.not_mem_nil,
        false_or] at hc
      rcases hc with ((⟨_, rfl⟩ | ⟨_, rfl⟩) | ⟨_, rfl⟩) | ⟨_, rfl⟩ <;> simp
    · rintro ⟨c, hc, hslot, hflag⟩
      exfalso
      simp only [Run.afterPhase, Instance.afterBefore, Run.mem_step_calls, List.not_mem_nil,
        false_or] at hc h2
      rcases hc with ((⟨_, rfl⟩ | ⟨_, rfl⟩) | ⟨_, rfl⟩) | ⟨_, rfl⟩
      · exact h1 hflag
      · exact h2 hflag
      · simp at hslot
      · simp at hslot

theorem C4_self_transition_witness :
    (∀ c ∈ (notedProducer.NewInstance.Event "produce" []).calls,
        (∀ s, c.slot ≠ .OnLeave s) ∧ c.slot ≠ .OnLeaveAny ∧ (∀ s, c.slot ≠ .OnEnter s)
          ∧ c.slot ≠ .OnEnterAny)
      ∧ (notedProducer.NewInstance.Event "produce" []).inst.Current = "idle" :=
  ⟨(C4_self_transition notedProducer.NewInstance "produce" [] (by decide)).1,
    (C4_self_transition notedProducer.NewInstance "produce" [] (by decide)).2.1⟩

/-- C5: on the machine of `examples/data.go` (self-transition `produce: idle → idle`) with
after callbacks on both events and a before callback of `produce` that writes `consume`
into the record's `Event` field without cancelling, the attempt `produce` invokes
Before(produce) and then After(consume); the registered After(produce) callback, which
the claim says is invoked, is not. -/
theorem C5_self_transition_skips_after :
    renamingProducer.NewInstance.FSM.transitions.lookup
        ⟨"produce", renamingProducer.NewInstance.current⟩
        = some renamingProducer.NewInstance.current
      ∧ (∀ c ∈ (renamingProducer.NewInstance.Event "produce" []).calls,
          c.eOut.canceled = false)
      ∧ renamingProducer.registered (.After "produce") = true
      ∧ (renamingProducer.NewInstance.Event "produce" []).calls.map Call.slot
          = [.Before "produce", .After "consume"]
      ∧ Slot.After "produce" ∉
          (renamingProducer.NewInstance.Event "produce" []).calls.map Call.slot := by
  decide

/-- The self-transition branch away from the rewritten record: for a table entry
`(event, f.current) = f.current` in which no before callback cancels or rewrites the
record's `Event` field, `Instance.Event` invokes the registered ones among Before(event),
BeforeAny, After(event), AfterAny, in this order, each once and nothing else, and returns
`NoTransitionError` wrapping the final value of the record's `Err` field (nil when no
callback wrote it), whatever the after callbacks do with the cancellation flag;
`Current()` is unchanged. -/
theorem Instance.Event_self_transition_kept (f : Instance S E I A X) (event : E)
    (args : List A)
    (h : f.FSM.transitions.lookup ⟨event, f.current⟩ = some f.current)
    (hb : ∀ c ∈ (f.Event event args).calls, (c.slot = .Before event ∨ c.slot = .BeforeAny) →
      c.eOut.canceled = false ∧ c.eOut.Event = c.eIn.Event) :
    (f.Event event args).calls.map Call.slot =
        [Slot.Before event, .BeforeAny, .After event, .AfterAny].filter f.FSM.registered
      ∧ ((f.Event event args).calls.map Call.slot).Nodup
      ∧ (f.Event event args).err = .NoTransitionError
          (endOf f.Self (f.record event args f.current) (f.Event event args).calls).2.Err
      ∧ ((∀ c ∈ (f.Event event args).calls, c.eOut.Err = c.eIn.Err) →
          (f.Event event args).err = .NoTransitionError .nil)
      ∧ (f.Event event args).inst.Current = f.current := by
  have key : (f.Event event args).calls.map Call.slot =
        [Slot.Before event, .BeforeAny, .After event, .AfterAny].filter f.FSM.registered
      ∧ (f.Event event args).err = .NoTransitionError
          (endOf f.Self (f.record event args f.current) (f.Event event args).calls).2.Err
      ∧ ((∀ c ∈ (f.Event event args).calls, c.eOut.Err = c.eIn.Err) →
          (f.Event event args).err = .NoTransitionError .nil)
      ∧ (f.Event event args).inst.Current = f.current := by
    rw [Instance.Event_eq_pipeline f event args f.current h] at hb ⊢
    unfold Instance.pipeline at hb ⊢
    simp only [if_true] at hb ⊢
    split_ifs at hb ⊢ with h1 h2
    · exfalso
      have := Run.step_e_prop ⟨f, f.record event args f.current, []⟩ (.Before event)
        (fun e => e.canceled = false) rfl (fun _ hm => (hb _ hm (Or.inl rfl)).1)
      simp only [this] at h1
      exact absurd h1 (by simp)
    · exfalso
      have := Run.step_e_prop (Run.step ⟨f, f.record event args f.current, []⟩ (.Before event))
        .BeforeAny (fun e => e.canceled = false) (by simpa using h1)
        (fun _ hm => (hb _ hm (Or.inr rfl)).1)
      simp only [Instance.afterBefore] at h2
      simp only [this] at h2
      exact absurd h2 (by simp)
    · have hE : (f.afterBefore event args f.current).e.Event = event :=
        f.afterBefore_Event event args f.current (fun c hc hs => (hb c (by
          simp only [Run.afterPhase, Run.mem_step_calls]
          exact Or.inl (Or.inl hc)) hs).2)
      have ht := (f.traced_afterBefore event args f.current).afterPhase
      refine ⟨?_, ?_, fun hk => ?_, ?_⟩
      · simp only [Run.afterPhase, Run.step_slots, hE]
        simp only [Instance.afterBefore, Run.step_slots, Run.step_FSM, List.map_nil,
          List.nil_append]
        simp only [← List.filter_append]
        rfl
      · simp only [ht.2.2.1]
      · simp only [ht.Err_of_keep hk]
        rfl
      · simp [Run.afterPhase, Instance.Current, Instance.afterBefore]
  refine ⟨key.1, ?_, key.2⟩
  rw [key.1]
  exact List.Nodup.filter _ (by simp)

theorem Instance.Event_self_transition_kept_example :
    (notedProducer.NewInstance.Event "produce" []).calls.map Call.slot =
        [.BeforeAny, .After "produce", .AfterAny]
      ∧ (notedProducer.NewInstance.Event "produce" []).err
          = .NoTransitionError (.custom "locked")
      ∧ (notedProducer.NewInstance.Event "produce" []).inst.Current = "idle" := by
  have hw := Instance.Event_self_transition_kept notedProducer.NewInstance "produce" []
    (by decide)
    (by decide)
  exact ⟨hw.1.trans (by decide), hw.2.2.1.trans (by decide), hw.2.2.2.2⟩

/-- C6: on the door with a catch-all before callback that writes `close` into the record's
`Event` field, an OnEnterAny callback that cancels and a callback registered as
After(open), the attempt `open` commits (no before or leave callback cancels) and
OnEnterAny calls Cancel; `Current()` is `open`, but After(open), which follows OnEnterAny
in the pipeline and which the claim says is still invoked, is not. -/
theorem C6_commit_skips_after :
    renamingDoor.NewInstance.FSM.transitions.lookup ⟨"open", renamingDoor.NewInstance.current⟩
        = some "open"
      ∧ (∀ c ∈ (renamingDoor.NewInstance.Event "open" []).calls,
          c.slot = .BeforeAny → c.eOut.canceled = false)
      ∧ (∃ c ∈ (renamingDoor.NewInstance.Event "open" []).calls,
          c.slot = .OnEnterAny ∧ c.eOut.canceled = true)
      ∧ renamingDoor.registered (.After "open") = true
      ∧ (renamingDoor.NewInstance.Event "open" []).calls.map Call.slot
          = [.BeforeAny, .OnEnterAny]
      ∧ Slot.After "open" ∉ (renamingDoor.NewInstance.Event "open" []).calls.map Call.slot
      ∧ (renamingDoor.NewInstance.Event "open" []).inst.Current = "open"
      ∧ (renamingDoor.NewInstance.Event "open" []).err = .nil := by
  decide

/-- The committed branch away from the rewritten record: for a table entry
`(event, f.current) = dst` with `dst` different from the current state, in which no before
or leave callback cancels and no before, leave or enter callback rewrites the record's
`Event` field: whatever the enter and after callbacks do with the cancellation flag, every
registered callback of the pipeline is invoked, in order, `Current()` is `dst`, and the
value returned is the final value of the record's `Err` field itself, not a
`CanceledError` around it. -/
theorem Instance.Event_cancel_after_commit_kept (f : Instance S E I A X) (event : E)
    (args : List A) (dst : S)
    (h : f.FSM.transitions.lookup ⟨event, f.current⟩ = some dst)
    (hne : dst ≠ f.current)
    (hq : ∀ c ∈ (f.Event event args).calls,
      (c.slot = .Before event ∨ c.slot = .BeforeAny ∨ c.slot = .OnLeave f.current
        ∨ c.slot = .OnLeaveAny) → c.eOut.canceled = false)
    (hev : ∀ c ∈ (f.Event event args).calls,
      (c.slot = .Before event ∨ c.slot = .BeforeAny ∨ c.slot = .OnLeave f.current
        ∨ c.slot = .OnLeaveAny ∨ c.slot = .OnEnter dst ∨ c.slot = .OnEnterAny) →
      c.eOut.Event = c.eIn.Event) :
    (f.Event event args).calls.map Call.slot =
        (pipelineSlots event f.current dst).filter f.FSM.registered
      ∧ (f.Event event args).inst.Current = dst
      ∧ (f.Event event args).err =
          (endOf f.Self (f.record event args dst) (f.Event event args).calls).2.Err
      ∧ (f.Event event args).err ≠ .CanceledError
          (endOf f.Self (f.record event args dst) (f.Event event args).calls).2.Err := by
  rw [Instance.Event_eq_pipeline f event args dst h] at hq hev ⊢
  rw [Instance.pipeline_committed f event args dst hne hq] at hev ⊢
  simp only at hev ⊢
  have ht := (f.traced_afterEnter event args dst).afterPhase
  have hE : (f.afterEnter event args dst).e.Event = event :=
    f.afterEnter_Event event args dst (fun c hc hs => hev c (by
      simp only [Run.afterPhase, Run.mem_step_calls]
      exact Or.inl (Or.inl hc)) hs)
  have herr : (f.afterEnter event args dst).afterPhase.e.Err =
      (endOf f.Self (f.record event args dst)
        (f.afterEnter event args dst).afterPhase.calls).2.Err := by
    rw [ht.2.2.1]
  refine ⟨?_, ?_, herr, ?_⟩
  · rw [pipelineSlots_filter]
    simp only [Run.afterPhase, Run.step_slots, hE]
    simp only [Instance.afterEnter, Instance.afterLeave, Instance.afterBefore,
      Run.step_slots, Run.commit_calls, Run.step_FSM, Run.commit_FSM, Instance.record,
      List.map_nil, List.nil_append]
  · simp [Instance.Current, Run.afterPhase, Instance.afterEnter]
  · rw [herr]
    exact GoError.ne_CanceledError _

theorem Instance.Event_cancel_after_commit_kept_example :
    (noisyDoor.NewInstance.Event "open" []).calls.map Call.slot =
        [.Before "open", .OnEnter "open", .OnEnterAny, .AfterAny]
      ∧ (noisyDoor.NewInstance.Event "open" []).inst.Current = "open"
      ∧ (noisyDoor.NewInstance.Event "open" []).err = .custom "locked"
      ∧ (∃ c ∈ (noisyDoor.NewInstance.Event "open" []).calls,
          c.slot = .OnEnter "open" ∧ c.eOut.canceled = true) := by
  have hw := Instance.Event_cancel_after_commit_kept noisyDoor.NewInstance "open" [] "open"
    (by decide)
    (by decide) (by decide) (by decide)
  exact ⟨hw.1.trans (by decide), hw.2.1, hw.2.2.1.trans (by decide), by decide⟩

/-- C7: for a table entry `(event, f.current) = dst` with `dst` different from the current
state, in which no before or leave callback cancels, `Instance.Event` returns exactly the
final value of the record's `Err` field: nil when no callback wrote `Err`, and otherwise
the value written by the last callback that wrote it, be it a before, leave, enter or
after callback; and `Current()` is `dst`. -/
theorem C7_committed_returns_Err (f : Instance S E I A X) (event : E) (args : List A)
    (dst : S) (h : f.FSM.transitions.lookup ⟨event, f.current⟩ = some dst)
    (hne : dst ≠ f.current)
    (hq : ∀ c ∈ (f.Event event args).calls,
      (c.slot = .Before event ∨ c.slot = .BeforeAny ∨ c.slot = .OnLeave f.current
        ∨ c.slot = .OnLeaveAny) → c.eOut.canceled = false) :
    (f.Event event args).err =
        (endOf f.Self (f.record event args dst) (f.Event event args).calls).2.Err
      ∧ ((∀ c ∈ (f.Event event args).calls, c.eOut.Err = c.eIn.Err) →
          (f.Event event args).err = .nil)
      ∧ (∀ pre c post, (f.Event event args).calls = pre ++ c :: post →
          (∀ c1 ∈ post, c1.eOut.Err = c1.eIn.Err) → (f.Event event args).err = c.eOut.Err)
      ∧ (f.Event event args).inst.Current = dst := by
  rw [Instance.Event_eq_pipeline f event args dst h] at hq ⊢
  rw [Instance.pipeline_committed f event args dst hne hq]
  simp only
  have ht := (f.traced_afterEnter event args dst).afterPhase
  have herr : (f.afterEnter event args dst).afterPhase.e.Err =
      (endOf f.Self (f.record event args dst)
        (f.afterEnter event args dst).afterPhase.calls).2.Err := by
    rw [ht.2.2.1]
  refine ⟨herr, fun hk => ?_, fun pre c post hsplit hk => ?_, ?_⟩
  · rw [ht.Err_of_keep hk]; rfl
  · rw [herr, hsplit]
    exact endOf_Err_last_written _ _ pre post c (hsplit ▸ ht.2.1) hk
  · simp [Instance.Current, Run.afterPhase, Instance.afterEnter]

theorem C7_committed_returns_Err_witness :
    (creakyDoor.NewInstance.Event "open" []).err = .custom "creak"
      ∧ (creakyDoor.NewInstance.Event "open" []).inst.Current = "open" := by
  have hw := C7_committed_returns_Err creakyDoor.NewInstance "open" [] "open" (by decide)
    (by decide) (by decide)
  exact ⟨hw.1.trans (by decide), hw.2.2.2⟩

/-- C8: for a table entry `(event, f.current) = dst`, the first callback invoked receives
the instance's payload and the record `{event, f.current, dst, nil, args, false}`; every
later callback receives the payload and the record exactly as the callback before it left
them; every invocation is the callback registered in its slot applied to what it received;
and the instance's payload after the call is what the last callback left. -/
theorem C8_record_and_payload_threading (f : Instance S E I A X) (event : E)
    (args : List A) (dst : S)
    (h : f.FSM.transitions.lookup ⟨event, f.current⟩ = some dst) :
    (∀ c, (f.Event event args).calls.head? = some c →
        c.selfIn = f.Self ∧ c.eIn = ⟨event, f.current, dst, .nil, args, false⟩)
      ∧ (∀ i (hi : i + 1 < (f.Event event args).calls.length),
          ((f.Event event args).calls.get ⟨i + 1, hi⟩).selfIn
              = ((f.Event event args).calls.get ⟨i, Nat.lt_of_succ_lt hi⟩).selfOut
            ∧ ((f.Event event args).calls.get ⟨i + 1, hi⟩).eIn
              = ((f.Event event args).calls.get ⟨i, Nat.lt_of_succ_lt hi⟩).eOut)
      ∧ Linked f.Self ⟨event, f.current, dst, .nil, args, false⟩ (f.Event event args).calls
      ∧ (∀ c ∈ (f.Event event args).calls, ∃ fn, f.FSM.callback c.slot = some fn
          ∧ fn c.selfIn c.eIn = (c.selfOut, c.eOut))
      ∧ (f.Event event args).inst.Self
          = (endOf f.Self ⟨event, f.current, dst, .nil, args, false⟩
              (f.Event event args).calls).1
      ∧ (f.Event event args).inst.FSM = f.FSM := by
  rw [Instance.Event_eq_pipeline f event args dst h]
  obtain ⟨r, ht, hcalls, hinst, _⟩ := f.pipeline_traced event args dst
  rw [hcalls, hinst]
  have hl : Linked f.Self ⟨event, f.current, dst, .nil, args, false⟩ r.calls := ht.2.1
  refine ⟨fun c hc => Linked_head _ _ _ hl c hc, fun i hi => Linked_get _ _ _ hl i hi, hl,
    ht.2.2.2, ?_, ht.1⟩
  have := ht.2.2.1
  simp only [Instance.record] at this
  rw [this]

theorem C8_record_and_payload_threading_witness :
    (door.NewInstance.Event "open" ["a", "b"]).inst.Self =
        ["before_open", "before_event", "leave_closed", "leave_state", "enter_open",
          "enter_state", "after_open", "after_event"]
      ∧ (door.NewInstance.Event "open" ["a", "b"]).inst.FSM = door.NewInstance.FSM :=
  ⟨(C8_record_and_payload_threading door.NewInstance "open" ["a", "b"] "open"
      (by decide)).2.2.2.2.1.trans (by decide),
    (C8_record_and_payload_threading door.NewInstance "open" ["a", "b"] "open"
      (by decide)).2.2.2.2.2⟩

/-- C9: `NewInstance()` and `NewInstanceWithImpl(p)` return an instance whose `Current()` is
the definition's initial state, whatever the transition table holds; the initial state is
the one given to `NewFSM`, and no registration method changes it; `NewInstanceWithImpl(p)`
has payload `p`, and `NewInstance()` the payload returned by the registered constructor,
or the zero value when there is none. -/
theorem C9_new_instance [Inhabited I] (f : FSM S E I A X) (p : I) (initial : S)
    (events : List (EventDesc S E)) :
    f.NewInstance.Current = f.initial
      ∧ (f.NewInstanceWithImpl p).Current = f.initial
      ∧ (f.NewInstanceWithImpl p).Self = p
      ∧ f.NewInstance.Self =
          (match f.fsmImplConstructor with
            | some ctor => ctor ()
            | none => default)
      ∧ f.NewInstance.FSM = f ∧ (f.NewInstanceWithImpl p).FSM = f
      ∧ (NewFSM initial events : FSM S E I A X).NewInstance.Current = initial
      ∧ ((NewFSM initial events : FSM S E I A X).NewInstanceWithImpl p).Current = initial
      ∧ (NewFSM initial events : FSM S E I A X).NewInstance.Self = default
      ∧ (∀ name src dst, (f.AddTransition name src dst).initial = f.initial)
      ∧ (∀ s cb, (f.OnEnter s cb).initial = f.initial ∧ (f.OnLeave s cb).initial = f.initial)
      ∧ (∀ e cb, (f.Before e cb).initial = f.initial ∧ (f.After e cb).initial = f.initial)
      ∧ (∀ cb, (f.OnEnterAny cb).initial = f.initial ∧ (f.OnLeaveAny cb).initial = f.initial
          ∧ (f.BeforeAny cb).initial = f.initial ∧ (f.AfterAny cb).initial = f.initial)
      ∧ (∀ ctor, (f.SetFsmImplConstructor ctor).initial = f.initial) :=
  ⟨rfl, rfl, rfl, rfl, rfl, rfl, rfl, rfl, rfl, fun _ _ _ => rfl, fun _ _ => ⟨rfl, rfl⟩,
    fun _ _ => ⟨rfl, rfl⟩, fun _ => ⟨rfl, rfl, rfl, rfl⟩, fun _ => rfl⟩

/-- C10: `Can(event)` is true exactly when the table has an entry with key
`(event, Current())`, `Cannot(event)` is its negation, and `Instance.Event(event)` fails at
lookup (returns `UnknownEventError{event}` or `InvalidEventError{event, current}` without
invoking any callback) exactly when `Can(event)` is false just before the call. -/
theorem C10_can_iff_lookup (f : Instance S E I A X) (event : E) (args : List A) :
    (f.Can event = true ↔
        ∃ d, ((⟨event, f.Current⟩ : eKey S E), d) ∈ f.FSM.transitions.entries)
      ∧ f.Cannot event = !f.Can event
      ∧ ((((f.Event event args).err = .UnknownEventError event
            ∨ (f.Event event args).err = .InvalidEventError event f.Current)
          ∧ (f.Event event args).calls = []) ↔ f.Can event = false) := by
  refine ⟨?_, rfl, ?_⟩
  · unfold Instance.Can FSM.Can Instance.Current
    rw [GoMap.lookup_isSome, List.any_eq_true]
    constructor
    · rintro ⟨⟨k, d⟩, hmem, hk⟩
      have hk2 : k = ⟨event, f.current⟩ := by simpa using hk
      subst hk2
      exact ⟨d, hmem⟩
    · rintro ⟨d, hmem⟩
      exact ⟨_, hmem, by simp⟩
  · unfold Instance.Can FSM.Can Instance.Current
    cases hl : f.FSM.transitions.lookup ⟨event, f.current⟩ with
    | none =>
      simp only [Option.isSome_none, iff_true]
      unfold Instance.Event
      simp only [hl]
      split_ifs
      · exact ⟨Or.inr rfl, rfl⟩
      · exact ⟨Or.inl rfl, rfl⟩
    | some dst =>
      simp only [Option.isSome_some, Bool.true_eq_false, iff_false]
      rintro ⟨herr, hcalls⟩
      rw [Instance.Event_eq_pipeline f event args dst hl] at herr hcalls
      obtain ⟨r, ht, hc, _, he⟩ := f.pipeline_traced event args dst
      have hr : r.calls = [] := hc ▸ hcalls
      have hend := ht.2.2.1
      rw [hr] at hend
      have hre : r.e = f.record event args dst := (congrArg Prod.snd hend).symm
      rw [hre] at he
      simp only [Instance.record] at he
      rcases he with he | he | he <;> rw [he] at herr <;> rcases herr with herr | herr <;>
        cases herr

/-- C11: for a definition whose table is a map (no key twice) and every state `s`, an
event is in `FSM.AvailableTransitions(s)` if and only if `FSM.Can(s, event)` is true, that
is, the table has an entry with key `(event, s)`; the list holds no event twice; and
`Instance.AvailableTransitions()` is that list for `s = Current()`. -/
theorem C11_available_transitions (inst : Instance S E I A X) (s : S)
    (hwf : inst.FSM.transitions.keys.Nodup) :
    (∀ e, e ∈ inst.FSM.AvailableTransitions s ↔ inst.FSM.Can s e = true)
      ∧ (∀ e, inst.FSM.Can s e = true ↔
          ∃ d, ((⟨e, s⟩ : eKey S E), d) ∈ inst.FSM.transitions.entries)
      ∧ (inst.FSM.AvailableTransitions s).Nodup
      ∧ (∀ e, inst.FSM.Can s e = true → (inst.FSM.AvailableTransitions s).count e = 1)
      ∧ inst.AvailableTransitions = inst.FSM.AvailableTransitions inst.Current := by
  have hmem : ∀ e, e ∈ inst.FSM.AvailableTransitions s ↔ inst.FSM.Can s e = true := by
    intro e
    rw [FSM.AvailableTransitions_eq, FSM.Can, ← GoMap.mem_keys_iff_lookup, List.mem_map]
    constructor
    · rintro ⟨⟨e1, s1⟩, hk, he⟩
      rw [List.mem_filter] at hk
      have hs : s1 = s := by simpa using hk.2
      have he1 : e1 = e := he
      subst hs he1
      exact hk.1
    · intro hk
      exact ⟨⟨e, s⟩, List.mem_filter.mpr ⟨hk, by simp⟩, rfl⟩
  have hnd : (inst.FSM.AvailableTransitions s).Nodup := by
    rw [FSM.AvailableTransitions_eq]
    apply List.Nodup.map_on _ (hwf.filter _)
    rintro ⟨e1, s1⟩ h1 ⟨e2, s2⟩ h2 he
    rw [List.mem_filter] at h1 h2
    have hs1 : s1 = s := by simpa using h1.2
    have hs2 : s2 = s := by simpa using h2.2
    have he12 : e1 = e2 := he
    rw [hs1, hs2, he12]
  refine ⟨hmem, ?_, hnd, ?_, rfl⟩
  · intro e
    rw [FSM.Can, GoMap.lookup_isSome, List.any_eq_true]
    constructor
    · rintro ⟨⟨k, d⟩, hp, hk⟩
      have hk2 : k = ⟨e, s⟩ := by simpa using hk
      subst hk2
      exact ⟨d, hp⟩
    · rintro ⟨d, hp⟩
      exact ⟨_, hp, by simp⟩
  · intro e he
    exact List.count_eq_one_of_mem hnd ((hmem e).mpr he)

theorem C11_available_transitions_witness :
    door.NewInstance.FSM.transitions.keys.Nodup
      ∧ door.NewInstance.FSM.AvailableTransitions "closed" = ["open"]
      ∧ (∀ e, e ∈ door.NewInstance.FSM.AvailableTransitions "closed" ↔
          door.NewInstance.FSM.Can "closed" e = true) :=
  ⟨by decide, by decide,
    (C11_available_transitions door.NewInstance "closed" (by decide)).1⟩

/-- C12: `AddTransition(name, src, dst)` makes the table map `(name, s)` to `dst` for every
`s` in `src`, whatever was registered for that key before, and leaves every other key,
every callback slot, the constructor and the initial state as they were; the table of
`NewFSM(initial, events)` is the one obtained from the empty table by
`AddTransition(ev.Name, ev.Src, ev.Dst)` for each description in slice order, so a key
declared more than once has the destination of its last declaration. -/
theorem C12_add_transition (f : FSM S E I A X) (name : E) (src : List S) (dst : S)
    (k : eKey S E) (initial : S) (events : List (EventDesc S E)) :
    (f.AddTransition name src dst).transitions.lookup k =
        (if k.event = name ∧ k.src ∈ src then some dst else f.transitions.lookup k)
      ∧ (∀ slot, (f.AddTransition name src dst).callback slot = f.callback slot)
      ∧ (f.AddTransition name src dst).stateCallbackFunc = f.stateCallbackFunc
      ∧ (f.AddTransition name src dst).eventCallbackFunc = f.eventCallbackFunc
      ∧ (f.AddTransition name src dst).allStateCallbackFunc = f.allStateCallbackFunc
      ∧ (f.AddTransition name src dst).allEventCallbackFunc = f.allEventCallbackFunc
      ∧ (f.AddTransition name src dst).fsmImplConstructor = f.fsmImplConstructor
      ∧ (f.AddTransition name src dst).initial = f.initial
      ∧ (NewFSM initial events : FSM S E I A X).transitions =
          (events.foldl (fun g ev => g.AddTransition ev.Name ev.Src ev.Dst)
            (NewFSM initial [] : FSM S E I A X)).transitions
      ∧ (NewFSM initial [] : FSM S E I A X).transitions = GoMap.empty
      ∧ (NewFSM initial events : FSM S E I A X).transitions.lookup k =
          (events.reverse.find? (fun ev => decide (k.event = ev.Name ∧ k.src ∈ ev.Src))).map
            EventDesc.Dst := by
  refine ⟨GoMap.lookup_foldl_store f.transitions name src dst k,
    fun slot => FSM.callback_AddTransition f name src dst slot, rfl, rfl, rfl, rfl, rfl, rfl,
    ?_, rfl, ?_⟩
  · exact NewFSM_transitions_foldl events (NewFSM initial [] : FSM S E I A X)
  · have h := GoMap.lookup_foldl_descs events (GoMap.empty : GoMap (eKey S E) S) k
    unfold NewFSM
    simp only
    rw [h]
    cases events.reverse.find? (fun ev => decide (k.event = ev.Name ∧ k.src ∈ ev.Src)) <;> rfl

/-- C13: each registration changes only its own slot: after `OnEnter(s, cb)` the slot
OnEnter(s) holds `cb` and every other slot (the leave slot of `s`, the slots of other
states, the event slots, the four catch-all slots) holds what it held; likewise for
`OnLeave`, `Before`, `After`, `OnEnterAny`, `OnLeaveAny`, `BeforeAny`, `AfterAny`; none of
them changes the transition table, the initial state or the payload constructor. -/
theorem C13_registration_frame (f : FSM S E I A X) (s : S) (e : E)
    (cb : Option (Callback S E I A X)) (slot : Slot S E) :
    ((f.OnEnter s cb).callback slot = if slot = .OnEnter s then cb else f.callback slot)
      ∧ ((f.OnLeave s cb).callback slot = if slot = .OnLeave s then cb else f.callback slot)
      ∧ ((f.Before e cb).callback slot = if slot = .Before e then cb else f.callback slot)
      ∧ ((f.After e cb).callback slot = if slot = .After e then cb else f.callback slot)
      ∧ ((f.OnEnterAny cb).callback slot = if slot = .OnEnterAny then cb else f.callback slot)
      ∧ ((f.OnLeaveAny cb).callback slot = if slot = .OnLeaveAny then cb else f.callback slot)
      ∧ ((f.BeforeAny cb).callback slot = if slot = .BeforeAny then cb else f.callback slot)
      ∧ ((f.AfterAny cb).callback slot = if slot = .AfterAny then cb else f.callback slot)
      ∧ ((f.OnEnter s cb).transitions = f.transitions
        ∧ (f.OnLeave s cb).transitions = f.transitions
        ∧ (f.Before e cb).transitions = f.transitions
        ∧ (f.After e cb).transitions = f.transitions
        ∧ (f.OnEnterAny cb).transitions = f.transitions
        ∧ (f.OnLeaveAny cb).transitions = f.transitions
        ∧ (f.BeforeAny cb).transitions = f.transitions
        ∧ (f.AfterAny cb).transitions = f.transitions)
      ∧ ((f.OnEnter s cb).eventCallbackFunc = f.eventCallbackFunc
        ∧ (f.OnLeave s cb).eventCallbackFunc = f.eventCallbackFunc
        ∧ (f.Before e cb).stateCallbackFunc = f.stateCallbackFunc
        ∧ (f.After e cb).stateCallbackFunc = f.stateCallbackFunc)
      ∧ ((f.OnEnter s cb).fsmImplConstructor = f.fsmImplConstructor
        ∧ (f.OnLeave s cb).fsmImplConstructor = f.fsmImplConstructor
        ∧ (f.Before e cb).fsmImplConstructor = f.fsmImplConstructor
        ∧ (f.After e cb).fsmImplConstructor = f.fsmImplConstructor
        ∧ (f.OnEnterAny cb).fsmImplConstructor = f.fsmImplConstructor
        ∧ (f.OnLeaveAny cb).fsmImplConstructor = f.fsmImplConstructor
        ∧ (f.BeforeAny cb).fsmImplConstructor = f.fsmImplConstructor
        ∧ (f.AfterAny cb).fsmImplConstructor = f.fsmImplConstructor) :=
  ⟨FSM.callback_OnEnter f s cb slot, FSM.callback_OnLeave f s cb slot,
    FSM.callback_Before f e cb slot, FSM.callback_After f e cb slot,
    FSM.callback_OnEnterAny f cb slot, FSM.callback_OnLeaveAny f cb slot,
    FSM.callback_BeforeAny f cb slot, FSM.callback_AfterAny f cb slot,
    ⟨rfl, rfl, rfl, rfl, rfl, rfl, rfl, rfl⟩, ⟨rfl, rfl, rfl, rfl⟩,
    ⟨rfl, rfl, rfl, rfl, rfl, rfl, rfl, rfl⟩⟩

/-- C14: for every instance and every state `x`, in the table or not, after `SetState(x)`
`Current()` is `x` and `Is(x)` is true, the payload and the definition are what they were,
and the outcome does not depend on the definition at all, so no callback takes part. -/
theorem C14_set_state (f : Instance S E I A X) (x : S) (F : FSM S E I A X) :
    (f.SetState x).Current = x
      ∧ (f.SetState x).Is x = true
      ∧ (f.SetState x).Self = f.Self
      ∧ (f.SetState x).FSM = f.FSM
      ∧ (Instance.SetState { f with FSM := F } x).Current = (f.SetState x).Current
      ∧ (Instance.SetState { f with FSM := F } x).Self = (f.SetState x).Self :=
  ⟨rfl, by simp [Instance.Is, Instance.SetState], rfl, rfl, rfl, rfl⟩

/-- C15: `Cancel` always sets the cancellation flag; without an error it leaves `Err` as it
was, with one or more errors it sets `Err` to the first of them, whatever `Err` held; the
fields `Event`, `Src`, `Dst` and `Args` are unchanged in both cases. -/
theorem C15_cancel (e : Event S E A X) (err : GoError S E X) (rest errs : List (GoError S E X)) :
    (e.Cancel errs).canceled = true
      ∧ (e.Cancel []).Err = e.Err
      ∧ (e.Cancel (err :: rest)).Err = err
      ∧ (e.Cancel errs).Event = e.Event
      ∧ (e.Cancel errs).Src = e.Src
      ∧ (e.Cancel errs).Dst = e.Dst
      ∧ (e.Cancel errs).Args = e.Args := by
  refine ⟨?_, ?_, ?_, ?_, ?_, ?_, ?_⟩
  · cases errs <;> simp [Event.Cancel]
  · simp [Event.Cancel]
  · simp [Event.Cancel]
  · cases errs <;> simp [Event.Cancel]
  · cases errs <;> simp [Event.Cancel]
  · cases errs <;> simp [Event.Cancel]
  · cases errs <;> simp [Event.Cancel]

/-- C17, evaluated on the code: for the empty `VisualizeType`, every definition and every
current state, `VisualizeWithType` returns the empty string and the error
`unknown VisualizeType: `; it does not return `Visualize(current)` with a nil error, as the
claim and the comment above the function say it should (`Visualize(current)` is never
empty). -/
theorem C17_empty_type_is_rejected [Inhabited S] (R : Runtime S E) (f : FSM S E I A X)
    (current : S) :
    f.VisualizeWithType R "" current = ("", some "unknown VisualizeType: ")
      ∧ f.VisualizeWithType R "" current ≠ (f.Visualize R current, none)
      ∧ f.VisualizeWithType R GRAPHVIZ current = (f.Visualize R current, none) := by
  have h : f.VisualizeWithType R "" current = ("", some "unknown VisualizeType: ") := by
    unfold FSM.VisualizeWithType
    rw [if_neg (by decide), if_neg (by decide), if_neg (by decide)]
    rfl
  refine ⟨h, ?_, ?_⟩
  · rw [h]
    intro hx
    have := congrArg Prod.snd hx
    cases this
  · unfold FSM.VisualizeWithType
    rw [if_pos rfl]

/-- C18: with a state type whose printed form does not tell `red` from `amber`, the same
table visited in two orders gives two different lists, and in one of them the key
`(wait, red)` stands before the key `(go, red)` of the same source although `go` is below
`wait`: the list is neither ordered nor determined by the table's contents. -/
theorem C18_keys_unsorted :
    signalA.transitions.entries.Perm signalB.transitions.entries
      ∧ signalA.getSortedTransitionKeys Runtime.lights
          = [⟨"wait", .red⟩, ⟨"go", .amber⟩, ⟨"go", .red⟩]
      ∧ signalB.getSortedTransitionKeys Runtime.lights
          = [⟨"go", .red⟩, ⟨"wait", .red⟩, ⟨"go", .amber⟩]
      ∧ signalA.getSortedTransitionKeys Runtime.lights
          ≠ signalB.getSortedTransitionKeys Runtime.lights
      ∧ stringLess "go" "wait" = true := by
  decide

/-- The sort away from equal printed forms: for a table that is a map (no key twice) in
which distinct source states and distinct events have distinct printed forms,
`getSortedTransitionKeys` returns a permutation of the table's keys, each exactly once,
ordered by the printed form of the source and, among keys with the same source, by the
printed form of the event; the list is the same for every table with the same entries in
whatever order they are visited, and every ordered arrangement of the keys is this list. -/
theorem FSM.getSortedTransitionKeys_sorted (R : Runtime S E) (f : FSM S E I A X)
    (hwf : f.transitions.keys.Nodup)
    (hS : ∀ k1 ∈ f.transitions.keys, ∀ k2 ∈ f.transitions.keys,
      R.sprintS k1.src = R.sprintS k2.src → k1.src = k2.src)
    (hE : ∀ k1 ∈ f.transitions.keys, ∀ k2 ∈ f.transitions.keys,
      R.sprintE k1.event = R.sprintE k2.event → k1.event = k2.event) :
    (f.getSortedTransitionKeys R).Perm f.transitions.keys
      ∧ (f.getSortedTransitionKeys R).Nodup
      ∧ (f.getSortedTransitionKeys R).Pairwise (fun a b =>
          stringLess (R.sprintS a.src) (R.sprintS b.src) = true
            ∨ (a.src = b.src ∧ stringLess (R.sprintE a.event) (R.sprintE b.event) = true))
      ∧ (∀ g : FSM S E I A X, g.transitions.entries.Perm f.transitions.entries →
          g.getSortedTransitionKeys R = f.getSortedTransitionKeys R)
      ∧ (∀ l : List (eKey S E), l.Perm f.transitions.keys →
          l.Pairwise (fun a b => lessTransitionKey R b a = false) →
          l = f.getSortedTransitionKeys R) := by
  have hasym : ∀ x ∈ f.transitions.keys, ∀ y ∈ f.transitions.keys,
      lessTransitionKey R x y = true → lessTransitionKey R y x = false :=
    fun x _ y _ h => lessTransitionKey_asymm R x y h
  have hneg : ∀ x ∈ f.transitions.keys, ∀ y ∈ f.transitions.keys, ∀ z ∈ f.transitions.keys,
      lessTransitionKey R x y = false → lessTransitionKey R y z = false →
      lessTransitionKey R x z = false :=
    fun x hx y hy z _ h1 h2 => lessTransitionKey_negtrans R x y z (hS x hx y hy) h1 h2
  have htot : ∀ a ∈ f.transitions.keys, ∀ b ∈ f.transitions.keys, a ≠ b →
      lessTransitionKey R a b = true ∨ lessTransitionKey R b a = true :=
    fun a ha b hb hne => lessTransitionKey_total R a b hne (hS a ha b hb) (hE a ha b hb)
  have hperm := sortSlice_perm (lessTransitionKey R) f.transitions.keys
  have hsorted := sortSlice_sorted (lessTransitionKey R) f.transitions.keys hasym hneg
  have hnodup : (sortSlice (lessTransitionKey R) f.transitions.keys).Nodup :=
    hperm.nodup_iff.mpr hwf
  rw [FSM.getSortedTransitionKeys_eq]
  refine ⟨hperm, hnodup, ?_, ?_, ?_⟩
  · refine List.Pairwise.imp_of_mem ?_ (hsorted.and hnodup)
    intro a b ha hb hab
    have ha' := hperm.mem_iff.mp ha
    have hb' := hperm.mem_iff.mp hb
    rcases htot a ha' b hb' hab.2 with h | h
    · unfold lessTransitionKey at h
      by_cases hs : a.src = b.src
      · rw [if_pos hs] at h
        exact Or.inr ⟨hs, h⟩
      · rw [if_neg hs] at h
        exact Or.inl h
    · rw [hab.1] at h
      exact absurd h (by simp)
  · intro g hg
    have hk : g.transitions.keys.Perm f.transitions.keys := hg.map Prod.fst
    rw [FSM.getSortedTransitionKeys_eq]
    refine sortSlice_unique (lessTransitionKey R) f.transitions.keys _
      ((sortSlice_perm _ _).trans hk) ?_ hasym hneg htot
    exact sortSlice_sorted (lessTransitionKey R) g.transitions.keys
      (fun x hx y hy => hasym x (hk.mem_iff.mp hx) y (hk.mem_iff.mp hy))
      (fun x hx y hy z hz =>
        hneg x (hk.mem_iff.mp hx) y (hk.mem_iff.mp hy) z (hk.mem_iff.mp hz))
  · intro l hl hp
    exact sortSlice_unique (lessTransitionKey R) f.transitions.keys l hl hp hasym hneg htot

theorem FSM.getSortedTransitionKeys_sorted_example :
    door.transitions.keys.Nodup
      ∧ door.getSortedTransitionKeys Runtime.strings = [⟨"open", "closed"⟩, ⟨"close", "open"⟩]
      ∧ (door.getSortedTransitionKeys Runtime.strings).Perm door.transitions.keys :=
  ⟨by decide, by decide,
    (FSM.getSortedTransitionKeys_sorted Runtime.strings door (by decide)
      (fun _ _ _ _ h => h) (fun _ _ _ _ h => h)).1⟩

/-- C19: whatever order the `range` loop visits the local map in, `getSortedStates` returns
exactly the states that are the source or the destination of some table entry, each once,
in the order of their printed forms; its map sends the state at position `i` of the list
to `id<i>`, so distinct listed states have distinct ids and no listed state has an empty
id. -/
theorem C19_sorted_states (R : Runtime S E) (f : FSM S E I A X)
    (hrange : ∀ l, (R.rangeStates l).Perm l) :
    (∀ s, s ∈ (f.getSortedStates R).1 ↔
        ∃ k d, (k, d) ∈ f.transitions.entries ∧ (s = k.src ∨ s = d))
      ∧ (f.getSortedStates R).1.Nodup
      ∧ (f.getSortedStates R).1.Pairwise
          (fun a b => stringLess (R.sprintS b) (R.sprintS a) = false)
      ∧ (∀ i (hi : i < (f.getSortedStates R).1.length),
          (f.getSortedStates R).2.lookup ((f.getSortedStates R).1.get ⟨i, hi⟩)
            = some ("id" ++ Nat.repr i))
      ∧ (∀ i (hi : i < (f.getSortedStates R).1.length),
          (f.getSortedStates R).2.index ((f.getSortedStates R).1.get ⟨i, hi⟩)
            = "id" ++ Nat.repr i)
      ∧ (∀ s1 ∈ (f.getSortedStates R).1, ∀ s2 ∈ (f.getSortedStates R).1, s1 ≠ s2 →
          (f.getSortedStates R).2.index s1 ≠ (f.getSortedStates R).2.index s2)
      ∧ (∀ s ∈ (f.getSortedStates R).1, (f.getSortedStates R).2.index s ≠ "") := by
  obtain ⟨hnd, hmem⟩ := f.collectStates_spec
  have h1 : (f.getSortedStates R).1 =
      sortSlice (fun si sj => stringLess (R.sprintS si) (R.sprintS sj))
        (R.rangeStates f.collectStates.keys) := by
    unfold FSM.getSortedStates
    simp only [foldl_append_singleton, List.nil_append]
  have h2 : (f.getSortedStates R).2 =
      ((f.getSortedStates R).1.enumFrom 0).foldl (fun m p => m.store p.2 ("id" ++ Nat.repr p.1))
        f.collectStates := by
    unfold FSM.getSortedStates
    simp only [foldl_append_singleton, List.nil_append, List.enum]
  have hperm : (f.getSortedStates R).1.Perm f.collectStates.keys := by
    rw [h1]
    exact (sortSlice_perm _ _).trans (hrange _)
  have hnodup : (f.getSortedStates R).1.Nodup := hperm.nodup_iff.mpr hnd
  have hlook := (GoMap.lookup_foldl_enumFrom (f.getSortedStates R).1 hnodup
    (fun i => "id" ++ Nat.repr i) 0 f.collectStates).1
  have hidx : ∀ i (hi : i < (f.getSortedStates R).1.length),
      (f.getSortedStates R).2.index ((f.getSortedStates R).1.get ⟨i, hi⟩)
        = "id" ++ Nat.repr i := by
    intro i hi
    unfold GoMap.index
    rw [h2, hlook i hi]
    simp
  refine ⟨fun s => ?_, hnodup, ?_, ?_, hidx, ?_, ?_⟩
  · rw [hperm.mem_iff, hmem s]
  · rw [h1]
    exact sortSlice_sorted _ _ (fun x _ y _ h => stringLess_asymm _ _ h)
      (fun x _ y _ z _ ha hb => stringLess_negtrans _ _ _ ha hb)
  · intro i hi
    rw [h2, hlook i hi]
    simp
  · intro s1 hs1 s2 hs2 hne
    obtain ⟨⟨i, hi⟩, rfl⟩ := List.get_of_mem hs1
    obtain ⟨⟨j, hj⟩, rfl⟩ := List.get_of_mem hs2
    rw [hidx i hi, hidx j hj]
    intro he
    have hij := id_repr_injective i j he
    subst hij
    exact hne rfl
  · intro s hs
    obtain ⟨⟨i, hi⟩, rfl⟩ := List.get_of_mem hs
    rw [hidx i hi]
    exact id_repr_ne_empty i

theorem C19_sorted_states_witness :
    (door.getSortedStates Runtime.strings).1 = ["closed", "open"]
      ∧ (door.getSortedStates Runtime.strings).2.index "open" = "id1"
      ∧ (door.getSortedStates Runtime.strings).1.Nodup :=
  ⟨by decide, by decide,
    (C19_sorted_states Runtime.strings door (fun _ => List.Perm.refl _)).2.1⟩

section LegacyClaims

variable {V X : Type}

/-- C20, refuted as stated: with the key `(open, closed)` declared twice, first with
destination `ajar` and then with `open`, no entry of the transition table has `ajar` as
source or destination, yet the callback named `enter_ajar` is registered as
OnEnter(ajar). -/
theorem C20_counterexample :
    (∀ p ∈ (legacy.NewFSM "closed" redeclared ⟨[("enter_ajar", mark)]⟩ :
          Instance String String (legacy.StateMachine String) String String
          ).FSM.transitions.entries,
        p.1.src ≠ "ajar" ∧ p.2 ≠ "ajar")
      ∧ (legacy.NewFSM "closed" redeclared ⟨[("enter_ajar", mark)]⟩ :
          Instance String String (legacy.StateMachine String) String String
          ).FSM.registered (.OnEnter "ajar") = true := by
  decide

/-- C20, amended: `legacy.NewFSM` translates every entry of the callbacks map by one pass
through the `switch`; that pass registers `before_event` as BeforeAny, `after_event` as
AfterAny, `leave_state` as OnLeaveAny and `enter_state` as OnEnterAny; for a target `x`
other than `event` it registers `before_x` / `after_x` as Before(x) / After(x) when `x` is
the name of some event description and registers nothing otherwise; for a target `x` other
than `state` it registers `leave_x` / `enter_x` as OnLeave(x) / OnEnter(x) when `x` is a
source or the destination of an event description that has at least one source, whether
or not the table still holds it, and registers nothing otherwise. -/
theorem C20_prefixed_names (initial : String) (events : List (EventDesc String String))
    (callbacks : GoMap String (legacy.LegacyCallback V X))
    (f : FSM String String (legacy.StateMachine V) V X) (x : String)
    (fn : legacy.LegacyCallback V X) :
    (legacy.NewFSM initial events callbacks).FSM =
        callbacks.entries.foldl (fun g entry => legacy.register events g entry.1 entry.2)
          ((Fsm.NewFSM initial events).SetFsmImplConstructor
            (some (fun _ => legacy.NewStateMachine)))
      ∧ legacy.register events f "before_event" fn = f.BeforeAny (some (legacy.wrap fn))
      ∧ legacy.register events f "after_event" fn = f.AfterAny (some (legacy.wrap fn))
      ∧ legacy.register events f "leave_state" fn = f.OnLeaveAny (some (legacy.wrap fn))
      ∧ legacy.register events f "enter_state" fn = f.OnEnterAny (some (legacy.wrap fn))
      ∧ (x ≠ "event" → x ∈ events.map EventDesc.Name →
          legacy.register events f ("before_" ++ x) fn = f.Before x (some (legacy.wrap fn))
            ∧ legacy.register events f ("after_" ++ x) fn = f.After x (some (legacy.wrap fn)))
      ∧ (x ≠ "event" → x ∉ events.map EventDesc.Name →
          legacy.register events f ("before_" ++ x) fn = f
            ∧ legacy.register events f ("after_" ++ x) fn = f)
      ∧ (x ≠ "state" → (∃ ev ∈ events, ev.Src ≠ [] ∧ (x ∈ ev.Src ∨ x = ev.Dst)) →
          legacy.register events f ("leave_" ++ x) fn = f.OnLeave x (some (legacy.wrap fn))
            ∧ legacy.register events f ("enter_" ++ x) fn = f.OnEnter x (some (legacy.wrap fn)))
      ∧ (x ≠ "state" → (¬ ∃ ev ∈ events, ev.Src ≠ [] ∧ (x ∈ ev.Src ∨ x = ev.Dst)) →
          legacy.register events f ("leave_" ++ x) fn = f
            ∧ legacy.register events f ("enter_" ++ x) fn = f) := by
  obtain ⟨hE, hS⟩ := legacy.declared_spec events x
  refine ⟨rfl, ?_, ?_, ?_, ?_, ?_, ?_, ?_, ?_⟩
  · exact (legacy.translate_before _ _ f "event" fn).trans (if_pos rfl)
  · exact (legacy.translate_after _ _ f "event" fn).trans (if_pos rfl)
  · exact (legacy.translate_leave _ _ f "state" fn).trans (if_pos rfl)
  · exact (legacy.translate_enter _ _ f "state" fn).trans (if_pos rfl)
  · intro hx hmem
    unfold legacy.register
    rw [legacy.translate_before, legacy.translate_after, if_neg hx, if_neg hx,
      if_pos (hE.mpr hmem), if_pos (hE.mpr hmem)]
    exact ⟨rfl, rfl⟩
  · intro hx hmem
    unfold legacy.register
    rw [legacy.translate_before, legacy.translate_after, if_neg hx, if_neg hx,
      if_neg (fun h => hmem (hE.mp h)), if_neg (fun h => hmem (hE.mp h))]
    exact ⟨rfl, rfl⟩
  · intro hx hmem
    unfold legacy.register
    rw [legacy.translate_leave, legacy.translate_enter, if_neg hx, if_neg hx,
      if_pos (hS.mpr hmem), if_pos (hS.mpr hmem)]
    exact ⟨rfl, rfl⟩
  · intro hx hmem
    unfold legacy.register
    rw [legacy.translate_leave, legacy.translate_enter, if_neg hx, if_neg hx,
      if_neg (fun h => hmem (hS.mp h)), if_neg (fun h => hmem (hS.mp h))]
    exact ⟨rfl, rfl⟩

end LegacyClaims

/-- C21: if `Instance.Event(event)` returns nil on an instance in state `s`, then the
table has an entry `(event, s) = d` with `d` different from `s`, `Current()` is `d` after
the call, and no before or leave callback of the attempt raised the cancellation flag; so
the result is never nil for an unknown or invalid event, for a cancelled attempt, or for a
self-transition. -/
theorem C21_nil_means_committed (f : Instance S E I A X) (event : E) (args : List A)
    (h : (f.Event event args).err = .nil) :
    ∃ d, f.FSM.transitions.lookup ⟨event, f.Current⟩ = some d ∧ d ≠ f.Current ∧
      (f.Event event args).inst.Current = d ∧
      ∀ c ∈ (f.Event event args).calls,
        (c.slot = .Before event ∨ c.slot = .BeforeAny ∨ c.slot = .OnLeave f.Current
          ∨ c.slot = .OnLeaveAny) → c.eOut.canceled = false := by
  rcases (Instance.Event_outcome_cases f event args).2 with ⟨_, hne⟩ | hd
  · exact absurd h hne
  · exact hd

theorem C21_nil_means_committed_witness :
    (door.NewInstance.Event "open" []).err = .nil ∧
      door.NewInstance.FSM.transitions.lookup ⟨"open", door.NewInstance.Current⟩ = some "open"
      ∧ (door.NewInstance.Event "open" []).inst.Current = "open" := by
  have hnil : (door.NewInstance.Event "open" []).err = .nil := by decide
  obtain ⟨d, hd, _, hcur, _⟩ := C21_nil_means_committed door.NewInstance "open" [] hnil
  have hopen : door.NewInstance.FSM.transitions.lookup ⟨"open", door.NewInstance.Current⟩ =
      some "open" := by decide
  have hdo : d = "open" := Option.some.inj (hd.symm.trans hopen)
  exact ⟨hnil, hopen, hcur.trans hdo⟩

/-- C22: reachable-state invariant. In every instance obtained from `NewInstance` (or from
`NewInstanceWithImpl`) by a finite sequence of `Instance.Event` calls, with any events, any
arguments and any registered callbacks, the definition is still the one the instance was
made from and `Current()` is the initial state or the destination of some entry of the
transition table; and one more `Event` call either leaves the current state as it was or
moves it to the destination the table gives for the requested event and the state before
the call. -/
theorem C22_reachable_states [Inhabited I] (f : FSM S E I A X) (impl : I)
    (calls : List (E × List A)) (event : E) (args : List A) :
    ((f.NewInstance.Events calls).FSM = f ∧
      ((f.NewInstance.Events calls).Current = f.initial ∨
        ∃ k, (k, (f.NewInstance.Events calls).Current) ∈ f.transitions.entries) ∧
      (((f.NewInstance.Events calls).Event event args).inst.Current =
          (f.NewInstance.Events calls).Current ∨
        f.transitions.lookup ⟨event, (f.NewInstance.Events calls).Current⟩ =
          some ((f.NewInstance.Events calls).Event event args).inst.Current)) ∧
    (((f.NewInstanceWithImpl impl).Events calls).FSM = f ∧
      (((f.NewInstanceWithImpl impl).Events calls).Current = f.initial ∨
        ∃ k, (k, ((f.NewInstanceWithImpl impl).Events calls).Current) ∈
          f.transitions.entries) ∧
      ((((f.NewInstanceWithImpl impl).Events calls).Event event args).inst.Current =
          ((f.NewInstanceWithImpl impl).Events calls).Current ∨
        f.transitions.lookup ⟨event, ((f.NewInstanceWithImpl impl).Events calls).Current⟩ =
          some (((f.NewInstanceWithImpl impl).Events calls).Event event args).inst.Current)) := by
  have key : ∀ g : Instance S E I A X, g.FSM = f → g.current = f.initial →
      (g.Events calls).FSM = f ∧
      ((g.Events calls).Current = f.initial ∨
        ∃ k, (k, (g.Events calls).Current) ∈ f.transitions.entries) ∧
      (((g.Events calls).Event event args).inst.Current = (g.Events calls).Current ∨
        f.transitions.lookup ⟨event, (g.Events calls).Current⟩ =
          some ((g.Events calls).Event event args).inst.Current) := by
    intro g hg hi
    obtain ⟨hF, hcur⟩ := Instance.Events_invariant g calls
    rw [hg] at hF hcur
    rw [hi] at hcur
    refine ⟨hF, hcur, ?_⟩
    rcases (Instance.Event_outcome_cases (g.Events calls) event args).2 with
      ⟨h1, _⟩ | ⟨d, hd, _, h1, _⟩
    · exact Or.inl h1
    · right
      rw [hF] at hd
      simp only [Instance.Current]
      rw [h1]
      exact hd
  exact ⟨key f.NewInstance rfl rfl, key (f.NewInstanceWithImpl impl) rfl rfl⟩

/-- C23: on `redirectedDoor`, where the before callback of `open` writes `close` into the
record's `Event` field, the attempt `Event("open")` commits and reaches the after phase,
an after callback is registered for `open`, and the event-specific after callback that is
invoked is the one registered for `close`. -/
theorem C23_after_slot_follows_record :
    (redirectedDoor.NewInstance.Event "open" []).inst.Current = "open"
      ∧ redirectedDoor.registered (.After "open") = true
      ∧ (redirectedDoor.NewInstance.Event "open" []).calls.map Call.slot =
          [.Before "open", .After "close"]
      ∧ (redirectedDoor.NewInstance.Event "open" []).inst.Self = ["after_close"] := by
  decide

section LegacyShorthand

variable {V X : Type}

/-- C24, refuted as stated: with the key `(open, closed)` declared twice, first with
destination `ajar` and then with `open`, the name `ajar` has none of the four prefixes, no
entry of the transition table has `ajar` as source or destination and no event is named
`ajar`, yet the callback named `ajar` is registered as OnEnter(ajar). -/
theorem C24_counterexample :
    (legacy.HasPrefix "ajar" "before_" = false ∧ legacy.HasPrefix "ajar" "leave_" = false
        ∧ legacy.HasPrefix "ajar" "enter_" = false ∧ legacy.HasPrefix "ajar" "after_" = false)
      ∧ (∀ p ∈ (legacy.NewFSM "closed" redeclared ⟨[("ajar", mark)]⟩ :
          Instance String String (legacy.StateMachine String) String String
          ).FSM.transitions.entries,
        p.1.src ≠ "ajar" ∧ p.2 ≠ "ajar")
      ∧ "ajar" ∉ redeclared.map EventDesc.Name
      ∧ (legacy.NewFSM "closed" redeclared ⟨[]⟩ :
          Instance String String (legacy.StateMachine String) String String
          ).FSM.registered (.OnEnter "ajar") = false
      ∧ (legacy.NewFSM "closed" redeclared ⟨[("ajar", mark)]⟩ :
          Instance String String (legacy.StateMachine String) String String
          ).FSM.registered (.OnEnter "ajar") = true := by
  decide

/-- C24, amended: `legacy.NewFSM` translates every entry of the callbacks map by one pass
through the `switch`, and that pass treats a name that has none of the prefixes `before_`,
`leave_`, `enter_`, `after_` as a shorthand: if the name is a source or the destination of
an event description that has at least one source, whether or not the table still holds
it, the function is registered as that state's OnEnter callback, also when the same name
is an event name; otherwise, if it is the name of some event description, it is registered
as that event's After callback; otherwise nothing is registered. -/
theorem C24_shorthand_names (initial : String) (events : List (EventDesc String String))
    (callbacks : GoMap String (legacy.LegacyCallback V X))
    (f : FSM String String (legacy.StateMachine V) V X) (name : String)
    (fn : legacy.LegacyCallback V X)
    (hb : legacy.HasPrefix name "before_" = false)
    (hl : legacy.HasPrefix name "leave_" = false)
    (he : legacy.HasPrefix name "enter_" = false)
    (ha : legacy.HasPrefix name "after_" = false) :
    (legacy.NewFSM initial events callbacks).FSM =
        callbacks.entries.foldl (fun g entry => legacy.register events g entry.1 entry.2)
          ((Fsm.NewFSM initial events).SetFsmImplConstructor
            (some (fun _ => legacy.NewStateMachine)))
      ∧ ((∃ ev ∈ events, ev.Src ≠ [] ∧ (name ∈ ev.Src ∨ name = ev.Dst)) →
          legacy.register events f name fn = f.OnEnter name (some (legacy.wrap fn)))
      ∧ ((¬ ∃ ev ∈ events, ev.Src ≠ [] ∧ (name ∈ ev.Src ∨ name = ev.Dst)) →
          name ∈ events.map EventDesc.Name →
          legacy.register events f name fn = f.After name (some (legacy.wrap fn)))
      ∧ ((¬ ∃ ev ∈ events, ev.Src ≠ [] ∧ (name ∈ ev.Src ∨ name = ev.Dst)) →
          name ∉ events.map EventDesc.Name →
          legacy.register events f name fn = f) := by
  have hE := (legacy.declared_spec events name).1
  have hS := (legacy.declared_spec events name).2
  have hreg : legacy.register events f name fn =
      if ((legacy.declared events).2.lookup name).isSome then
        f.OnEnter name (some (legacy.wrap fn))
      else if ((legacy.declared events).1.lookup name).isSome then
        f.After name (some (legacy.wrap fn))
      else f := by
    unfold legacy.register legacy.translate
    simp only [hb, hl, he, ha, Bool.false_eq_true, if_false]
  refine ⟨rfl, fun hs => ?_, fun hs hn => ?_, fun hs hn => ?_⟩
  · rw [hreg, if_pos (hS.mpr hs)]
  · rw [hreg, if_neg (fun h => hs (hS.mp h)), if_pos (hE.mpr hn)]
  · rw [hreg, if_neg (fun h => hs (hS.mp h)), if_neg (fun h => hn (hE.mp h))]

theorem C24_shorthand_names_witness :
    legacy.register scanEvents
        ((Fsm.NewFSM "idle" scanEvents).SetFsmImplConstructor
          (some (fun _ => legacy.NewStateMachine)) :
          FSM String String (legacy.StateMachine String) String String)
        "scan" (markWith "scan") =
      ((Fsm.NewFSM "idle" scanEvents).SetFsmImplConstructor
          (some (fun _ => legacy.NewStateMachine))).After "scan"
        (some (legacy.wrap (markWith "scan")))
      ∧ legacy.register scanEvents
        ((Fsm.NewFSM "idle" scanEvents).SetFsmImplConstructor
          (some (fun _ => legacy.NewStateMachine)) :
          FSM String String (legacy.StateMachine String) String String)
        "idle" (markWith "idle") =
      ((Fsm.NewFSM "idle" scanEvents).SetFsmImplConstructor
          (some (fun _ => legacy.NewStateMachine))).OnEnter "idle"
        (some (legacy.wrap (markWith "idle"))) :=
  ⟨(C24_shorthand_names "idle" scanEvents scanCallbacks _ "scan" (markWith "scan")
      (by decide) (by decide) (by decide) (by decide)).2.2.1 (by decide) (by decide),
    (C24_shorthand_names "idle" scanEvents scanCallbacks _ "idle" (markWith "idle")
      (by decide) (by decide) (by decide) (by decide)).2.1 (by decide)⟩

/-- C25, refuted as stated: the names `scan` and `after_scan` both stand for the slot
After(scan) of the machine of `examples/alternate.go`; a map holding both, visited in its
two orders, gives two definitions whose After(scan) slots hold different functions (the
entry visited last wins). -/
theorem C25_counterexample :
    (clashingCallbacks.entries.map Prod.fst).Perm
        (clashingCallbacksReversed.entries.map Prod.fst)
      ∧ ((legacy.NewDefinition "idle" scanEvents clashingCallbacks).callback
          (.After "scan")).map (fun cb => (cb default scanRecord).2.Err) =
        some (.custom "second")
      ∧ ((legacy.NewDefinition "idle" scanEvents clashingCallbacksReversed).callback
          (.After "scan")).map (fun cb => (cb default scanRecord).2.Err) =
        some (.custom "first")
      ∧ (legacy.NewDefinition "idle" scanEvents clashingCallbacks).callback (.After "scan") ≠
        (legacy.NewDefinition "idle" scanEvents clashingCallbacksReversed).callback
          (.After "scan") := by
  have h1 : ((legacy.NewDefinition "idle" scanEvents clashingCallbacks).callback
      (.After "scan")).map (fun cb => (cb default scanRecord).2.Err) =
        some (.custom "second") := by decide
  have h2 : ((legacy.NewDefinition "idle" scanEvents clashingCallbacksReversed).callback
      (.After "scan")).map (fun cb => (cb default scanRecord).2.Err) =
        some (.custom "first") := by decide
  refine ⟨by decide, h1, h2, fun heq => ?_⟩
  rw [heq, h2] at h1
  exact absurd h1 (by decide)

/-- C25, amended: `legacy.NewFSM` is deterministic in its callbacks argument when no two
names of the map stand for the same slot. For every initial state, event list and
callbacks map (distinct names) in which two different names never translate to the same
slot, visiting the map's entries in any two orders yields definitions with identical
callback slots: the same function in every before, after, leave and enter slot and in
every catch-all slot. -/
theorem C25_order_independent (initial : String) (events : List (EventDesc String String))
    (cbs1 cbs2 : GoMap String (legacy.LegacyCallback V X))
    (hperm : cbs1.entries.Perm cbs2.entries)
    (hnames : cbs1.keys.Nodup)
    (hslots : ∀ a ∈ cbs1.entries, ∀ b ∈ cbs1.entries, a.1 ≠ b.1 →
      legacy.target (legacy.declared events).1 (legacy.declared events).2 a.1 = none ∨
      legacy.target (legacy.declared events).1 (legacy.declared events).2 a.1 ≠
        legacy.target (legacy.declared events).1 (legacy.declared events).2 b.1)
    (slot : Slot String String) :
    (legacy.NewFSM initial events cbs1).FSM.callback slot =
      (legacy.NewFSM initial events cbs2).FSM.callback slot := by
  unfold legacy.NewFSM legacy.NewDefinition FSM.NewInstance
  simp only
  rw [legacy.callback_foldl_translate, legacy.callback_foldl_translate]
  have hrev : cbs1.entries.reverse.Perm cbs2.entries.reverse :=
    (List.reverse_perm _).trans (hperm.trans (List.reverse_perm _).symm)
  rw [find?_perm_of_unique _ _ _ hrev]
  intro a ha b hb hpa hpb
  rw [List.mem_reverse] at ha hb
  have hta := of_decide_eq_true hpa
  have htb := of_decide_eq_true hpb
  by_cases hk : a.1 = b.1
  · exact GoMap.entry_unique cbs1 hnames a b ha hb hk
  · rcases hslots a ha b hb hk with hn | hn
    · rw [hn] at hta
      exact absurd hta (by simp)
    · exact absurd (hta.trans htb.symm) hn

theorem C25_order_independent_witness :
    scanCallbacks.keys.Nodup
      ∧ (legacy.NewFSM "idle" scanEvents scanCallbacks).FSM.callback (.After "scan") =
        (legacy.NewFSM "idle" scanEvents ⟨scanCallbacks.entries.reverse⟩).FSM.callback
          (.After "scan") :=
  ⟨by decide,
    C25_order_independent "idle" scanEvents scanCallbacks ⟨scanCallbacks.entries.reverse⟩
      (List.reverse_perm _).symm (by decide) (by decide) (.After "scan")⟩

end LegacyShorthand

end Claims

end Fsm
